import Mathlib

/-!
Verification of the SillyTranslator format-preserving translation pipeline.

Strings are modelled as `List Char` (ASCII semantics for the character
classes used by the code: whitespace, punctuation, brackets, letters).
External translation backends are modelled as function parameters of type
`Str → Option Str` where `none` stands for a raised exception, and the
Python functions of the repository are translated into executable Lean
definitions below.
-/

namespace SillyTrans

abbrev Str := List Char

/-- Python `str.replace` on char lists: replaces every non-overlapping
leftmost occurrence of `pat` by `rep` (for nonempty `pat`; the code never
replaces an empty pattern, so empty `pat` is the identity). -/
def pyReplace (s pat rep : Str) : Str :=
  if hpat : pat = [] then s
  else
    match s with
    | [] => []
    | c :: cs =>
      if pat.isPrefixOf (c :: cs) then
        rep ++ pyReplace ((c :: cs).drop pat.length) pat rep
      else
        c :: pyReplace cs pat rep
termination_by s.length
decreasing_by
  · simp only [List.length_drop, List.length_cons]
    have : 0 < pat.length := List.length_pos.mpr hpat
    omega
  · simp

/-- Substring test (`pat` occurs somewhere inside `s`). -/
def hasSub (pat s : Str) : Bool :=
  decide (pat <:+: s)

/-- Whitespace characters recognised by the model (the ASCII characters
matched by Python regex `\s` and stripped by `str.strip`). -/
def isSpc (c : Char) : Bool :=
  c = ' ' || c = '\t' || c = '\n' || c = '\x0d' || c = '\x0b' || c = '\x0c'

/-- The punctuation class `[.,;:]` of the formatting regexes. -/
def isP1 (c : Char) : Bool :=
  c = '.' || c = ',' || c = ';' || c = ':'

/-- The sentence-ending class `[.!?]` of the formatting regexes. -/
def isP2 (c : Char) : Bool :=
  c = '.' || c = '!' || c = '?'

/-- ASCII lowercase test (`[a-z]`). -/
def isLow (c : Char) : Bool :=
  'a' ≤ c && c ≤ 'z'

/-- ASCII uppercase test (`[A-Z]`). -/
def isUpp (c : Char) : Bool :=
  'A' ≤ c && c ≤ 'Z'

/-- ASCII letter test. -/
def isLetter (c : Char) : Bool :=
  isLow c || isUpp c

/-- Python `str.upper` on one ASCII character. -/
def upChar (c : Char) : Char :=
  if isLow c then Char.ofNat (c.toNat - 32) else c

/-- Python `str.lower` on one ASCII character. -/
def lowChar (c : Char) : Char :=
  if isUpp c then Char.ofNat (c.toNat + 32) else c

/-- Python `str.upper`. -/
def pyUpper (s : Str) : Str := s.map upChar

/-- Python `str.lower`. -/
def pyLower (s : Str) : Str := s.map lowChar

/-- Python `str.isupper`: at least one cased character and no lowercase
cased character (ASCII model). -/
def pyIsUpper (s : Str) : Bool :=
  s.any isLetter && s.all (fun c => !(isLow c))

/-- Python `str.islower`: at least one cased character and no uppercase
cased character (ASCII model). -/
def pyIsLower (s : Str) : Bool :=
  s.any isLetter && s.all (fun c => !(isUpp c))

/-- Python `str.strip`: drop whitespace from both ends. -/
def pyStrip (s : Str) : Str :=
  ((s.dropWhile isSpc).reverse.dropWhile isSpc).reverse

/-- Python truthiness test for a string after `strip` (`text.strip()` used
as a condition). -/
def isBlank (s : Str) : Bool :=
  pyStrip s = ([] : Str)

/-- `TranslationEngine._preserve_case` from
`src/preset_translator/preset_translator.py`: wholesale upper/lower casing
following the original, else capitalize the first character when the
original starts with an uppercase character and the translation with a
lowercase one. -/
def preserveCase (original translated : Str) : Str :=
  if original = [] || translated = [] then translated
  else if pyIsUpper original then pyUpper translated
  else if pyIsLower original then pyLower translated
  else
    match original, translated with
    | o :: _, t :: ts =>
      if isUpp o && isLow t then upChar t :: ts else t :: ts
    | _, _ => translated

/-! ## JSON documents and `translate_json_data` (engine.py) -/

/-- JSON-like documents handled by `TranslationEngine.translate_json_data`. -/
inductive JValue where
  | null : JValue
  | bool : Bool → JValue
  | num : Int → JValue
  | str : Str → JValue
  | arr : List JValue → JValue
  | obj : List (Str × JValue) → JValue

/-- `TARGET_FIELDS` from `src/preset_translator/engine.py`. -/
def targetFields : List Str :=
  ["content".toList, "new_group_chat_prompt".toList, "new_example_chat_prompt".toList,
   "continue_nudge_prompt".toList, "wi_format".toList, "personality_format".toList,
   "group_nudge_prompt".toList, "scenario_format".toList, "new_chat_prompt".toList,
   "impersonation_prompt".toList, "bias_preset_selected".toList,
   "assistant_impersonation".toList, "assistant_prefill".toList]

/-- A dictionary entry value that `find_items` collects for translation:
a non-blank string. -/
def isStrNonBlank : JValue → Bool
  | .str s => !isBlank s
  | _ => false

/-- Containers that `find_items` recurses into. -/
def isContainer : JValue → Bool
  | .arr _ => true
  | .obj _ => true
  | _ => false

/-- Apply the field translation to a string value. -/
def applyTr (tr : Str → Str) : JValue → JValue
  | .str s => .str (tr s)
  | v => v

mutual
/-- `TranslationEngine.translate_json_data` (engine.py): collect every
dictionary entry whose key is in `TARGET_FIELDS` and whose value is a
non-blank string, and replace its value by the translation; recurse into
nested dictionaries and lists.  Value-level model of the in-place
mutation. -/
def translateJsonData (tr : Str → Str) : JValue → JValue
  | .arr xs => .arr (translateJsonList tr xs)
  | .obj fs => .obj (translateJsonFields tr fs)
  | v => v

/-- List part of `find_items`. -/
def translateJsonList (tr : Str → Str) : List JValue → List JValue
  | [] => []
  | v :: vs =>
    (if isContainer v then translateJsonData tr v else v) :: translateJsonList tr vs

/-- Dictionary part of `find_items` plus the later in-place mutation. -/
def translateJsonFields (tr : Str → Str) :
    List (Str × JValue) → List (Str × JValue)
  | [] => []
  | (k, v) :: rest =>
    (if targetFields.contains k && isStrNonBlank v then (k, applyTr tr v)
     else if isContainer v then (k, translateJsonData tr v)
     else (k, v)) :: translateJsonFields tr rest
end

mutual
/-- Frame relation for claim C10: the right document differs from the left
only in that values of `TARGET_FIELDS` entries that were non-blank strings
may have been replaced by (other) strings; all keys, all other values and
the nesting structure coincide. -/
inductive JFrame : JValue → JValue → Prop where
  | base (v : JValue) : JFrame v v
  | arr {xs ys : List JValue} : JFrameList xs ys → JFrame (.arr xs) (.arr ys)
  | obj {fs gs : List (Str × JValue)} : JFrameFields fs gs → JFrame (.obj fs) (.obj gs)

/-- List version of `JFrame`. -/
inductive JFrameList : List JValue → List JValue → Prop where
  | nil : JFrameList [] []
  | cons {v w : JValue} {vs ws : List JValue} :
      JFrame v w → JFrameList vs ws → JFrameList (v :: vs) (w :: ws)

/-- Field-list version of `JFrame`: keys are preserved; an entry value may
change only when the key is a target field and the old value was a
non-blank string, and then the new value is still a string. -/
inductive JFrameFields : List (Str × JValue) → List (Str × JValue) → Prop where
  | nil : JFrameFields [] []
  | consKeep {k : Str} {v w : JValue} {fs gs : List (Str × JValue)} :
      JFrame v w → JFrameFields fs gs →
      JFrameFields ((k, v) :: fs) ((k, w) :: gs)
  | consTarget {k : Str} {s s' : Str} {fs gs : List (Str × JValue)} :
      targetFields.contains k = true → isBlank s = false → JFrameFields fs gs →
      JFrameFields ((k, .str s) :: fs) ((k, .str s') :: gs)
end

/-! ## Chunkers (claim C2) -/

/-- Split on a single character, keeping empty pieces
(Python `str.split(sep)` with a one-character separator); auxiliary
accumulator form. -/
def splitChAux (sep : Char) : Str → Str → List Str
  | [], acc => [acc.reverse]
  | c :: cs, acc =>
    if c = sep then acc.reverse :: splitChAux sep cs []
    else splitChAux sep cs (c :: acc)

/-- Python `text.split(sep)` for a one-character separator. -/
def splitCh (sep : Char) (s : Str) : List Str :=
  splitChAux sep s []

/-- Whitespace split (Python `str.split()` with no argument): maximal
non-whitespace runs, no empty pieces; auxiliary accumulator form. -/
def splitWsAux : Str → Str → List Str
  | [], acc => if acc = [] then [] else [acc.reverse]
  | c :: cs, acc =>
    if isSpc c then
      if acc = [] then splitWsAux cs [] else acc.reverse :: splitWsAux cs []
    else splitWsAux cs (c :: acc)

/-- Python `text.split()`. -/
def pySplitWs (s : Str) : List Str :=
  splitWsAux s []

/-- Join a list of strings with a single-space separator
(Python `" ".join`). -/
def joinSp : List Str → Str
  | [] => []
  | [x] => x
  | x :: y :: xs => x ++ ' ' :: joinSp (y :: xs)

/-- Concatenation of all chunks (Python `"".join`). -/
def joinAll (xs : List Str) : Str :=
  xs.flatten

/-- The hard character-break of an over-long word in `split_text`
(`for i in range(0, len(word), chunk_size)`).  `chunk_size = 0` would raise
in Python; the model returns `[]` there and every statement below assumes a
positive chunk size. -/
def hardBreak (k : Nat) (w : Str) : List Str :=
  if k = 0 then []
  else
    match w with
    | [] => []
    | c :: cs => (c :: cs).take k :: hardBreak k ((c :: cs).drop k)
termination_by w.length
decreasing_by simp_all [List.length_drop]; omega

/-- Main loop of `split_text` from
`src/card_translator/lib/mymemory_translator.py`, carrying the `current`
accumulator. -/
def mmLoop (k : Nat) : List Str → Str → List Str
  | [], current => if current = [] then [] else [current]
  | w :: ws, current =>
    if w.length > k then
      (if current = [] then [] else [current]) ++ hardBreak k w ++ mmLoop k ws []
    else if current ≠ [] then
      if current.length + w.length + 1 ≤ k then mmLoop k ws (current ++ ' ' :: w)
      else current :: mmLoop k ws w
    else mmLoop k ws w

/-- `split_text(text, chunk_size)` from `mymemory_translator.py`. -/
def splitTextMM (k : Nat) (text : Str) : List Str :=
  mmLoop k (pySplitWs text) []

/-- The `raw_chunks_from_lines` list of
`TranslationEngine._split_into_chunks` (preset_translator.py): nonempty
lines interleaved with newline markers. -/
def rawChunks : List Str → List Str
  | [] => []
  | [l] => if l = [] then [] else [l]
  | l :: l₂ :: ls =>
    (if l = [] then ([] : List Str) else [l]) ++ (['\n'] :: rawChunks (l₂ :: ls))

/-- Word grouping of an over-long line in `_split_into_chunks`
(`current_sub_chunk` loop). -/
def groupWords (maxCh : Nat) : List Str → List Str → List Str
  | [], cur => if cur = [] then [] else [joinSp cur.reverse]
  | w :: ws, cur =>
    if (w :: cur).length ≥ maxCh then joinSp (w :: cur).reverse :: groupWords maxCh ws []
    else groupWords maxCh ws (w :: cur)

/-- Per-chunk processing of `_split_into_chunks`. -/
def procChunk (maxCh : Nat) (chunk : Str) : List Str :=
  if chunk = ['\n'] then [['\n']]
  else
    let words := splitCh ' ' chunk
    if words.length ≤ maxCh then [chunk]
    else groupWords maxCh words []

/-- `TranslationEngine._split_into_chunks` from
`src/preset_translator/preset_translator.py`. -/
def presetChunks (maxCh : Nat) (text : Str) : List Str :=
  if text = [] then []
  else
    (((rawChunks (splitCh '\n' text)).map (procChunk maxCh)).flatten).filter
      (fun c => c ≠ [])

/-- Keep only non-whitespace characters. -/
def nonWs (s : Str) : Str :=
  s.filter (fun c => !isSpc c)

/-! ## Token vault: `_extract_and_protect` / `_restore_protected` (engine.py) -/

/-- The backtick character. -/
def bq : Char := Char.ofNat 96

/-- Triple backtick. -/
def tbt : Str := [bq, bq, bq]

/-- Newline followed by triple backtick. -/
def nlTbt : Str := '\n' :: tbt

/-- Stand-in name substituted for the character variable. -/
def janeS : Str := "Jane".toList

/-- Stand-in name substituted for the user variable. -/
def jamesS : Str := "James".toList

/-- The template variable for the character role. -/
def charVar : Str := "\x7b\x7bchar\x7d\x7d".toList

/-- The template variable for the user role. -/
def userVar : Str := "\x7b\x7buser\x7d\x7d".toList

/-- `CODE_BLOCK_PLACEHOLDER_PREFIX`. -/
def cbPre : Str := "__CODE_BLOCK_".toList

/-- `INLINE_CODE_PLACEHOLDER_PREFIX`. -/
def icPre : Str := "__INLINE_CODE_".toList

/-- Decimal representation of a natural number (Python `str(n)`). -/
def natRepr (n : Nat) : Str :=
  if h : n < 10 then [Char.ofNat (48 + n)]
  else natRepr (n / 10) ++ [Char.ofNat (48 + n % 10)]
termination_by n
decreasing_by omega

/-- The placeholder string `f"{prefix}{idx}"`. -/
def phStr (blk : Bool) (idx : Nat) : Str :=
  (if blk then cbPre else icPre) ++ natRepr idx

/-- Index of the first occurrence of `pat` in `s` starting at offset `i`
(auxiliary of `findSub`). -/
def findSubAux (pat : Str) : Str → Nat → Option Nat
  | [], i => if pat = [] then some i else none
  | c :: cs, i =>
    if pat.isPrefixOf (c :: cs) then some i else findSubAux pat cs (i + 1)

/-- Index of the first occurrence of `pat` in `s` (Python `str.find`). -/
def findSub (pat s : Str) : Option Nat :=
  findSubAux pat s 0

/-- Length of the fenced-code-block match of the regex
`` ```(?:[^\n]*?\n)?[\s\S]*?\n``` `` at the start of `u`; `0` when the
regex does not match there.  The greedy optional group consumes through the
first newline, then the lazy tail finds the nearest `"\n` + backticks`"`
after it; if that fails the group is dropped and the closer may sit at the
first newline itself. -/
def tripleLen (u : Str) : Nat :=
  if tbt.isPrefixOf u then
    let rest := u.drop 3
    match findSub ['\n'] rest with
    | none => 0
    | some n1 =>
      match findSub nlTbt (rest.drop (n1 + 1)) with
      | some p => 3 + n1 + 1 + p + 4
      | none => if nlTbt.isPrefixOf (rest.drop n1) then 3 + n1 + 4 else 0
  else 0

/-- Length of the inline-code match `` `[^`\n]+` `` at the start of `u`;
`0` when there is no match there. -/
def inlineLen (u : Str) : Nat :=
  match u with
  | [] => 0
  | c :: cs =>
    if c = bq then
      let run := cs.takeWhile (fun x => x ≠ bq && x ≠ '\n')
      if run = [] then 0
      else
        match cs.drop run.length with
        | x :: _ => if x = bq then run.length + 2 else 0
        | [] => 0
    else 0

/-- A segment produced by scanning for the combined code regex: a plain
character or a code match (with its block/inline kind). -/
inductive Seg where
  | plain : Str → Seg
  | code : Str → Bool → Seg

/-- Scan of `re.finditer` for the combined pattern
`(triple)|(inline)`: at each position the triple branch is preferred,
otherwise the inline branch, otherwise the character is plain text. -/
def codeSegs (s : Str) : List Seg :=
  match s with
  | [] => []
  | c :: cs =>
    let n := tripleLen (c :: cs)
    if hn : n ≠ 0 then .code ((c :: cs).take n) true :: codeSegs ((c :: cs).drop n)
    else
      let m := inlineLen (c :: cs)
      if hm : m ≠ 0 then .code ((c :: cs).take m) false :: codeSegs ((c :: cs).drop m)
      else .plain [c] :: codeSegs cs
termination_by s.length
decreasing_by
  · simp only [List.length_drop, List.length_cons]; omega
  · simp only [List.length_drop, List.length_cons]; omega
  · simp

/-- Original text of a segment. -/
def segText : Seg → Str
  | .plain s => s
  | .code s _ => s

/-- Number of code segments. -/
def codeCount (segs : List Seg) : Nat :=
  segs.foldl (fun n sg => match sg with | .code _ _ => n + 1 | _ => n) 0

/-- The shielded text: the `i`-th code match (scanning forward, `i` counted
from `seen`) is replaced by the placeholder numbered `total - 1 - i`, since
the Python loop runs over the matches in reverse and numbers them by
insertion order. -/
def shieldSegs (total : Nat) : List Seg → Nat → Str
  | [], _ => []
  | .plain s :: rest, seen => s ++ shieldSegs total rest seen
  | .code _ blk :: rest, seen =>
    phStr blk (total - 1 - seen) ++ shieldSegs total rest (seen + 1)

/-- The `(placeholder, original)` pairs in forward scan order. -/
def pairsOf (total : Nat) : List Seg → Nat → List (Str × Str)
  | [], _ => []
  | .plain _ :: rest, seen => pairsOf total rest seen
  | .code c blk :: rest, seen =>
    (phStr blk (total - 1 - seen), c) :: pairsOf total rest (seen + 1)

/-- `TranslationEngine._extract_and_protect` (engine.py): substitute the
stand-in names for the two template variables, then replace each code match
by a numbered placeholder (numbered in reverse match order).  Returns the
shielded text and the protected items in dictionary insertion order. -/
def engineExtract (text : Str) : Str × List (Str × Str) :=
  let t1 := pyReplace (pyReplace text charVar janeS) userVar jamesS
  let segs := codeSegs t1
  let total := codeCount segs
  (shieldSegs total segs 0, (pairsOf total segs 0).reverse)

/-- Stable insertion (descending placeholder length) used to model Python
`sorted(keys, key=len, reverse=True)`. -/
def insDesc (x : Str × Str) : List (Str × Str) → List (Str × Str)
  | [] => [x]
  | y :: ys => if y.1.length ≥ x.1.length then y :: insDesc x ys else x :: y :: ys

/-- Stable sort by descending placeholder length. -/
def pySortLenDesc (l : List (Str × Str)) : List (Str × Str) :=
  l.foldl (fun acc x => insDesc x acc) []

/-- `TranslationEngine._restore_protected` (engine.py): replace the
placeholders (longest first) by the protected originals, then replace the
stand-in names by the canonical template variables. -/
def engineRestore (text : Str) (items : List (Str × Str)) : Str :=
  let t := (pySortLenDesc items).foldl (fun t pc => pyReplace t pc.1 pc.2) text
  pyReplace (pyReplace t janeS charVar) jamesS userVar

/-! ## Case and punctuation normalizers (claim C3) -/

/-- Rule `\s+([.,;:])` → `\1` generalized over the punctuation class:
delete every maximal whitespace run immediately followed by a `P`
character. -/
def delRunBefore (P : Char → Bool) (s : Str) : Str :=
  match s with
  | [] => []
  | c :: cs =>
    if isSpc c then
      let run := (c :: cs).takeWhile isSpc
      let rest := (c :: cs).dropWhile isSpc
      (match rest with
       | d :: _ => if P d then [] else run
       | [] => run) ++ delRunBefore P rest
    else c :: delRunBefore P cs
termination_by s.length
decreasing_by
  · simp only [List.dropWhile_cons, *, if_pos]
    have := (List.dropWhile_sublist (l := cs) (p := isSpc)).length_le
    simp only [List.length_cons]; omega
  · simp

/-- Rule `(punct)(?=lookahead)` → `punct + space`: insert a space after
every `P` character whose next character is not excluded; when `dollar` is
set this also fires at the end of the string and just before a final
newline (the `|$` alternative of the preset variant). -/
def insertAfterP (P excl : Char → Bool) (dollar : Bool) (s : Str) : Str :=
  match s with
  | [] => []
  | c :: cs =>
    if P c then
      match cs with
      | [] => if dollar then [c, ' '] else [c]
      | d :: ds =>
        if !excl d then c :: ' ' :: insertAfterP P excl dollar (d :: ds)
        else if dollar && d = '\n' && ds = [] then
          c :: ' ' :: insertAfterP P excl dollar (d :: ds)
        else c :: insertAfterP P excl dollar (d :: ds)
    else c :: insertAfterP P excl dollar cs

/-- Rule `([.!?]\s+)([a-z])`: uppercase every lowercase letter that follows
a whitespace run that follows a sentence-ending punctuation character.
State: `0` normal, `1` just after `[.!?]`, `2` after `[.!?]` plus at least
one whitespace character. -/
def capStep (st : Nat) (c : Char) : Nat :=
  if isP2 c then 1 else if isSpc c && (st = 1 || st = 2) then 2 else 0

/-- Rule `([.!?]\s+)([a-z])` uppercase pass (auxiliary): `st` as in
`capStep`. -/
def capAfterAux : Nat → Str → Str
  | _, [] => []
  | st, c :: cs =>
    (if st = 2 && isLow c then upChar c else c) :: capAfterAux (capStep st c) cs

/-- Rule `([.!?]\s+)([a-z])` capitalization. -/
def capAfter (s : Str) : Str :=
  capAfterAux 0 s

/-- Rule `' +'` → `' '`: collapse every run of spaces to a single space. -/
def collapseSp (s : Str) : Str :=
  match s with
  | [] => []
  | c :: cs =>
    if c = ' ' then ' ' :: collapseSp (cs.dropWhile (fun x => x = ' '))
    else c :: collapseSp cs
termination_by s.length
decreasing_by
  · have := (List.dropWhile_sublist (l := cs) (p := fun x => x = ' ')).length_le
    simp only [List.length_cons]; omega
  · simp

/-- Opening brackets `[ ( {`. -/
def isOpenBr (c : Char) : Bool :=
  c = '[' || c = '(' || c = '\x7b'

/-- Closing brackets `] ) }`. -/
def isCloseBr (c : Char) : Bool :=
  c = ']' || c = ')' || c = '\x7d'

/-- Preset rule `([\[({])\s+` → `\1`: delete whitespace runs directly after
an opening bracket. -/
def openStrip (s : Str) : Str :=
  match s with
  | [] => []
  | c :: cs =>
    if isOpenBr c then c :: openStrip (cs.dropWhile isSpc)
    else c :: openStrip cs
termination_by s.length
decreasing_by
  · have := (List.dropWhile_sublist (l := cs) (p := isSpc)).length_le
    simp only [List.length_cons]; omega
  · simp

/-- Preset rule `^ +| +$` (multiline): delete maximal space runs that sit
at the start or at the end of a line. -/
def lineEdgeDelAux (atStart : Bool) (s : Str) : Str :=
  match s with
  | [] => []
  | c :: cs =>
    if c = ' ' then
      let run := (c :: cs).takeWhile (fun x => x = ' ')
      let rest := (c :: cs).dropWhile (fun x => x = ' ')
      let del := atStart || (match rest with | [] => true | d :: _ => d = '\n')
      (if del then [] else run) ++ lineEdgeDelAux false rest
    else c :: lineEdgeDelAux (c = '\n') cs
termination_by s.length
decreasing_by
  · have := (List.dropWhile_sublist (l := cs) (p := fun x => x = ' ')).length_le
    simp_all [List.dropWhile_cons]
    omega
  · simp

/-- Preset rule `^ +| +$`. -/
def lineEdgeDel (s : Str) : Str :=
  lineEdgeDelAux true s

/-- Exclusion class `[^\s\)\}\]]` of the engine insertion rules. -/
def exclE (c : Char) : Bool :=
  isSpc c || c = ')' || c = '\x7d' || c = ']'

/-- Exclusion class of the preset rule
`([.,;:])(?=[^\s\)\}\].,;:\'"]|$)`. -/
def exclP1p (c : Char) : Bool :=
  isSpc c || c = ')' || c = '\x7d' || c = ']' || isP1 c ||
    c = Char.ofNat 39 || c = Char.ofNat 34

/-- Exclusion class of the preset rule `([.!?])(?=[^\s\)\}\]\"\'{\[])`. -/
def exclP2p (c : Char) : Bool :=
  isSpc c || c = ')' || c = '\x7d' || c = ']' ||
    c = Char.ofNat 34 || c = Char.ofNat 39 || c = '\x7b' || c = '['

/-- `TranslationEngine._post_process_formatting` from
`src/preset_translator/engine.py`. -/
def engineNorm (s : Str) : Str :=
  pyStrip (collapseSp (capAfter (insertAfterP isP2 exclE false
    (insertAfterP isP1 exclE false (delRunBefore isP1 s)))))

/-- `TranslationEngine._post_process_formatting` from
`src/preset_translator/preset_translator.py`. -/
def presetNorm (s : Str) : Str :=
  pyStrip (lineEdgeDel (collapseSp (delRunBefore isCloseBr (openStrip
    (capAfter (insertAfterP isP2 exclP2p false (insertAfterP isP1 exclP1p true
      (delRunBefore isP1 s))))))))

/-! ## Engine backend paths (claims C4 and C9) -/

/-- `re.split(r'(?<=[.!?])\s+', text)`: cut before every whitespace run
that directly follows a sentence-ending punctuation character, dropping
the run. -/
def sentSplitAux (s : Str) (cur : Str) : List Str :=
  match s with
  | [] => [cur.reverse]
  | c :: cs =>
    if isSpc c && isP2 (cur.headD ' ') then
      cur.reverse :: sentSplitAux ((c :: cs).dropWhile isSpc) []
    else sentSplitAux cs (c :: cur)
termination_by s.length
decreasing_by
  · have := (List.dropWhile_sublist (l := cs) (p := isSpc)).length_le
    simp_all [List.dropWhile_cons, Bool.and_eq_true]
    omega
  · simp

/-- The sentence list of `_translate_with_google`. -/
def sentences (text : Str) : List Str :=
  sentSplitAux text []

/-- `MAX_CHUNK_CHAR_LIMIT` from engine.py. -/
def maxChunkCharLimit : Nat := 4500

/-- `translate_now` inside `_translate_with_google`: blank chunks pass
through; otherwise the stripped chunk is sent to the backend and the
original chunk is returned when the backend raises (`none`). -/
def translateNow (b : Str → Option Str) (t : Str) : Str :=
  if isBlank t then t
  else match b (pyStrip t) with
    | some r => r
    | none => t

/-- The chunk texts that `_translate_with_google` passes to
`translate_now`, in order (the `current_chunk` flushes and the hard-broken
pieces of over-long sentences). -/
def googlePieces : List Str → Str → List Str
  | [], current => if current = [] then [] else [current]
  | sentence :: rest, current =>
    if sentence.length > maxChunkCharLimit then
      (if current = [] then [] else [current]) ++ hardBreak maxChunkCharLimit sentence
        ++ googlePieces rest []
    else if current.length + sentence.length > maxChunkCharLimit then
      current :: googlePieces rest (sentence ++ [' '])
    else googlePieces rest (current ++ sentence ++ [' '])

/-- Translation loop of `_translate_with_google`. -/
def googleLoop (b : Str → Option Str) : List Str → Str → List Str
  | [], current => if current = [] then [] else [translateNow b current]
  | sentence :: rest, current =>
    if sentence.length > maxChunkCharLimit then
      (if current = [] then [] else [translateNow b current])
        ++ (hardBreak maxChunkCharLimit sentence).map (translateNow b)
        ++ googleLoop b rest []
    else if current.length + sentence.length > maxChunkCharLimit then
      translateNow b current :: googleLoop b rest (sentence ++ [' '])
    else googleLoop b rest (current ++ sentence ++ [' '])

/-- `TranslationEngine._translate_with_google` (engine.py). -/
def translateWithGoogle (b : Str → Option Str) (text : Str) : Str :=
  pyStrip (joinSp (googleLoop b (sentences text) []))

/-- Exceptions that engine methods raise. -/
inductive PyErr where
  | connectionError : PyErr
  | runtimeError : PyErr
  | valueError : PyErr
deriving DecidableEq

/-- Outcome of one LLM chat-completion call. -/
inductive LlmOutcome where
  | content : Str → LlmOutcome
  | apiError : LlmOutcome

/-- `TranslationEngine._translate_with_llm` (engine.py), with the prompt
already built: a missing client raises `ValueError`; an API error raises
`ConnectionError`; an empty response raises (`ValueError` rethrown as
`RuntimeError`); otherwise the cleaned response is returned.  `cleanFn`
stands for `_clean_llm_response`. -/
def translateWithLLM (cleanFn : Str → Str) (bl : Str → LlmOutcome)
    (clientOk : Bool) (prompt : Str) : Except PyErr Str :=
  if !clientOk then .error .valueError
  else
    match bl prompt with
    | .apiError => .error .connectionError
    | .content s => if s = [] then .error .runtimeError else .ok (cleanFn s)

/-- The LLM prompt of `_translate_with_llm` (engine.py). -/
def enginePrompt (targetLangName : Str) (translateAngle : Bool) (text : Str) : Str :=
  "You are a high-precision translation engine. Your sole task is to translate the provided text into ".toList
    ++ targetLangName ++ ".\n\n### STRICT RULES:\n1. OUTPUT ONLY the translated text.\n2. ".toList
    ++ (if translateAngle then "Translate any text wrapped inside angle braces (<...>) normally.".toList
        else "Keep all content inside angle braces (<...>) exactly as provided. Do NOT translate them.".toList)
    ++ "\n3. ZERO HALLUCINATION.\n4. NO ADDED FORMATTING.\n5. PRESERVE PLACEHOLDERS.\n6. Maintain all original formatting.\n\n### SOURCE TEXT:\n".toList
    ++ text ++ "\n\n### TRANSLATION:".toList

/-- `TranslationEngine.translate_text` (engine.py) on a JSON value: values
that are not strings, or blank strings, are returned unchanged; otherwise
the text is shielded, translated (LLM path or Google chunking path),
restored and post-processed.  Errors of the LLM path propagate. -/
def engineTranslateText (cleanFn : Str → Str) (bg : Str → Option Str)
    (bl : Str → LlmOutcome) (clientOk useLlm haveLlmConfig translateAngle : Bool)
    (targetLangName : Str) (v : JValue) : Except PyErr JValue :=
  match v with
  | .str text =>
    if isBlank text then .ok (.str text)
    else
      let ex := engineExtract text
      if useLlm && haveLlmConfig then
        match translateWithLLM cleanFn bl clientOk
            (enginePrompt targetLangName translateAngle ex.1) with
        | .error e => .error e
        | .ok t => .ok (.str (engineNorm (engineRestore t ex.2)))
      else .ok (.str (engineNorm (engineRestore (translateWithGoogle bg ex.1) ex.2)))
  | w => .ok w

/-! ## Card translator cache (claims C8 and C9) -/

/-- Lookup in the `_llm_cache` dictionary (keyed by `(text, char_name)`). -/
def lookupCache (cache : List ((Str × Option Str) × Str)) (key : Str × Option Str) :
    Option Str :=
  match cache with
  | [] => none
  | (k, v) :: rest => if k = key then some v else lookupCache rest key

/-- `re.search(r"```([^`]+)```", s, re.DOTALL)`: first fenced block with a
nonempty backtick-free body; returns the body. -/
def extractFenced (s : Str) : Option Str :=
  match s with
  | [] => none
  | c :: cs =>
    if tbt.isPrefixOf (c :: cs) then
      let inner := ((c :: cs).drop 3).takeWhile (fun x => x ≠ bq)
      let rest := ((c :: cs).drop 3).dropWhile (fun x => x ≠ bq)
      if inner ≠ [] && tbt.isPrefixOf rest then some inner
      else extractFenced cs
    else extractFenced cs

/-- The fixed English-instruction prompt of
`CharacterProcessor.translate_text` (card_translator.py), LLM service. -/
def cardPrompt (langLabel : Str) (translateAngle translateName : Bool)
    (charName : Option Str) (text : Str) : Str :=
  "System: You".toList ++ [Char.ofNat 39] ++ "re a translator. Translate the content to ".toList
    ++ langLabel ++ " using the same formatting used in Roleplay.".toList
    ++ (if translateAngle then "Translate also texts inside <...>.".toList
        else "Do not translate texts inside <>; Maintain <...> original. Do not translate texts inside \x7b\x7b\x7d\x7d; Maintain \x7b\x7b...\x7d\x7d original.".toList)
    ++ " ".toList
    ++ (match charName with
        | some nm =>
          if translateName then "Include names translation".toList
          else "Do not translate the text: ".toList ++ nm ++ ".".toList
        | none => [])
    ++ "\nUser: Content:\n".toList ++ tbt ++ text ++ tbt

/-- `CharacterProcessor.translate_text` (card_translator.py), LLM service
path: consult `_llm_cache` under `(text, char_name)`; on a miss, send the
prompt to the backend (`none` models a raised exception, which returns the
original text uncached), extract the fenced body, strip it, map the
character name back to the placeholder, and cache the result.  Returns the
result, the new cache and the number of backend calls made. -/
def cardTranslateTextLLM (b : Str → Option Str) (langLabel : Str)
    (translateAngle translateName : Bool)
    (cache : List ((Str × Option Str) × Str)) (text : Str)
    (charName : Option Str) :
    Str × List ((Str × Option Str) × Str) × Nat :=
  if text = [] then (text, cache, 0)
  else
    match lookupCache cache (text, charName) with
    | some r => (r, cache, 0)
    | none =>
      match b (cardPrompt langLabel translateAngle translateName charName text) with
      | none => (text, cache, 1)
      | some resp =>
        let r0 := match extractFenced resp with
          | some m => pyStrip m
          | none => pyStrip resp
        let r := match charName with
          | some nm => pyReplace r0 nm charVar
          | none => r0
        (r, ((text, charName), r) :: cache, 1)

/-- `CharacterProcessor.translate_text` (card_translator.py), non-LLM
service path: run the translation (`seg` stands for `translate_segment` or
`translate_character_card`, returning its result together with the number
of backend calls it makes), then store the result into
`_translation_cache` — which is never read.  Returns the result, the new
cache and the number of backend calls made. -/
def cardTranslateTextGoogle (seg : Str → Str × Nat)
    (tcache : List (Str × Str)) (text : Str) :
    Str × List (Str × Str) × Nat :=
  if text = [] then (text, tcache, 0)
  else
    let rn := seg text
    (rn.1, (text, rn.1) :: tcache, rn.2)

/-! ## `recursive_translate` (claim C7) -/

/-- Python `str.isspace`. -/
def pyIsSpace (s : Str) : Bool :=
  s ≠ [] && s.all isSpc

/-- First maximal run of the character `ch`: start index and length
(`re.search` for the pattern `ch+`). -/
def findRunAux (ch : Char) : Str → Nat → Option (Nat × Nat)
  | [], _ => none
  | c :: cs, i =>
    if c = ch then some (i, 1 + (cs.takeWhile (fun x => x = ch)).length)
    else findRunAux ch cs (i + 1)

/-- `re.search(ch+, s)`. -/
def findRunCh (ch : Char) (s : Str) : Option (Nat × Nat) :=
  findRunAux ch s 0

/-- Search for a delimiter pattern: position and length of the first run
of `ch`, and the offset of the first later occurrence of the identical run
text (the closing delimiter).  `none` when there is no opening run or no
matching closing run. -/
def tryPattern (ch : Char) (t : Str) : Option (Nat × Nat × Nat) :=
  match findRunCh ch t with
  | none => none
  | some (i, L) =>
    match findSub (List.replicate L ch) (t.drop (i + L)) with
    | none => none
    | some cs => some (i, L, cs)

/-- Drop trailing newlines while the translation has more newlines than
wanted (`recursive_translate` newline repair). -/
def dropNlWhile (want : Nat) (tr : Str) : Str :=
  if tr.count '\n' > want ∧ tr.getLast? = some '\n' then
    dropNlWhile want tr.dropLast
  else tr
termination_by tr.length
decreasing_by
  have h : tr ≠ [] := by
    rintro rfl; simp at *
  simp [List.length_dropLast]
  cases tr with
  | nil => simp at h
  | cons a as => simp

/-- Newline-count repair of the bottom branch of `recursive_translate`. -/
def fixNl (original tr : Str) : Str :=
  let onl := original.count '\n'
  let tn := tr.count '\n'
  if onl > tn then tr ++ List.replicate (onl - tn) '\n'
  else if tn > onl then dropNlWhile onl tr
  else tr

/-- The literal string `"None"`. -/
def noneLit : Str := "None".toList

/-- Bottom branch of `recursive_translate`: translate the whole text,
repair the newline count, and fall back to the original on an exception,
an empty result, or the literal string `"None"`. -/
def rtBottom (b : Str → Option Str) (text : Str) : Str :=
  match b text with
  | none => text
  | some tr =>
    let tr' := fixNl text tr
    if tr' = [] || tr' = noneLit then text else tr'

/-- `CharacterProcessor.recursive_translate` (card_translator.py), with a
fuel argument bounding the recursion depth (the recursion always descends
into strict substrings, so `text.length + 1` fuel is enough).  `seg`
stands for `translate_segment`, invoked for texts longer than 4000
characters; `b` is the backend (`none` = raised exception). -/
def recTrAux (seg : Str → Str) (b : Str → Option Str) : Nat → Str → Str
  | 0, text => text
  | fuel + 1, text =>
    if text = [] || pyIsSpace text then text
    else if text.length > 4000 then seg text
    else
      match tryPattern '*' text with
      | some (i, L, cs) =>
        let opening := List.replicate L '*'
        let before := text.take i
        let content := (text.drop (i + L)).take cs
        let after := text.drop (i + L + cs + L)
        let tb := if isBlank before then before
          else match b before with | some r => r | none => before
        tb ++ opening ++ recTrAux seg b fuel content ++ opening
          ++ recTrAux seg b fuel after
      | none =>
        match tryPattern (Char.ofNat 34) text with
        | some (i, L, cs) =>
          let opening := List.replicate L (Char.ofNat 34)
          let before := text.take i
          let content := (text.drop (i + L)).take cs
          let after := text.drop (i + L + cs + L)
          let tb := if isBlank before then before
            else match b before with | some r => r | none => before
          tb ++ opening ++ recTrAux seg b fuel content ++ opening
            ++ recTrAux seg b fuel after
        | none => rtBottom b text

/-- `CharacterProcessor.recursive_translate`. -/
def recursiveTranslate (seg : Str → Str) (b : Str → Option Str) (text : Str) : Str :=
  recTrAux seg b (text.length + 1) text

/-- Join with a one-character separator (inverse of `splitCh`). -/
def joinSepC (sep : Char) : List Str → Str
  | [] => []
  | [x] => x
  | x :: y :: xs => x ++ sep :: joinSepC sep (y :: xs)

/-! ## Slot decomposition used to verify the marker roundtrip (claim C1) -/

/-- A piece of the text during restoration: either ordinary text (already
in its final form) or a slot still holding a placeholder together with the
protected content it stands for. -/
inductive SPiece where
  | orig : Str → SPiece
  | slot : Str → Str → SPiece

/-- Current text of a piece list (slots show their placeholders). -/
def renderS : List SPiece → Str
  | [] => []
  | .orig s :: r => s ++ renderS r
  | .slot ph _ :: r => ph ++ renderS r

/-- Fully restored text of a piece list (slots show their contents). -/
def flattenS : List SPiece → Str
  | [] => []
  | .orig s :: r => s ++ flattenS r
  | .slot _ c :: r => c ++ flattenS r

/-- The `(placeholder, content)` pairs of the remaining slots, in order. -/
def slotsOf : List SPiece → List (Str × Str)
  | [] => []
  | .orig _ :: r => slotsOf r
  | .slot ph c :: r => (ph, c) :: slotsOf r

/-- The piece list corresponding to the shielded text produced by
`_extract_and_protect`: one slot per code segment, numbered like
`pairsOf`. -/
def piecesOf (total : Nat) : List Seg → Nat → List SPiece
  | [], _ => []
  | .plain s :: rest, seen => .orig s :: piecesOf total rest seen
  | .code c blk :: rest, seen =>
    .slot (phStr blk (total - 1 - seen)) c :: piecesOf total rest (seen + 1)

/-- Original text of a segment list. -/
def segsText : List Seg → Str
  | [] => []
  | sg :: rest => segText sg ++ segsText rest

/-- Valid single-digit placeholder strings. -/
def phOKp (ph : Str) : Prop :=
  ∃ blk d, d < 10 ∧ ph = phStr blk d

/-- A string free of both placeholder prefixes. -/
def cleanStr (s : Str) : Prop :=
  ¬ cbPre <:+: s ∧ ¬ icPre <:+: s

/-! ## Template-variable decomposition (claim C1) -/

/-- A segment of the template-variable scan: a plain character, the
character variable, or the user variable. -/
inductive VSeg where
  | txt : Str → VSeg
  | vchar : VSeg
  | vuser : VSeg

/-- Left-to-right scan for the two template variables, matching
`{{char}}` first (the order of the two `replace` calls in
`_extract_and_protect`). -/
def varSegs (s : Str) : List VSeg :=
  match s with
  | [] => []
  | c :: cs =>
    if charVar.isPrefixOf (c :: cs) then .vchar :: varSegs ((c :: cs).drop 8)
    else if userVar.isPrefixOf (c :: cs) then .vuser :: varSegs ((c :: cs).drop 8)
    else .txt [c] :: varSegs cs
termination_by s.length
decreasing_by
  · simp only [List.length_drop, List.length_cons]; omega
  · simp only [List.length_drop, List.length_cons]; omega
  · simp

/-- Render with the original variables (reconstructs the input). -/
def vRender0 : List VSeg → Str
  | [] => []
  | .txt s :: r => s ++ vRender0 r
  | .vchar :: r => charVar ++ vRender0 r
  | .vuser :: r => userVar ++ vRender0 r

/-- Render after the first substitution (`{{char}}` → `Jane`). -/
def vRenderC : List VSeg → Str
  | [] => []
  | .txt s :: r => s ++ vRenderC r
  | .vchar :: r => janeS ++ vRenderC r
  | .vuser :: r => userVar ++ vRenderC r

/-- Render after both substitutions (`Jane` / `James`). -/
def vRenderJJ : List VSeg → Str
  | [] => []
  | .txt s :: r => s ++ vRenderJJ r
  | .vchar :: r => janeS ++ vRenderJJ r
  | .vuser :: r => jamesS ++ vRenderJJ r

/-- Render after the first restore step (`Jane` → `{{char}}`). -/
def vRenderCh : List VSeg → Str
  | [] => []
  | .txt s :: r => s ++ vRenderCh r
  | .vchar :: r => charVar ++ vRenderCh r
  | .vuser :: r => jamesS ++ vRenderCh r

/-- The variable-substituted text (`text.replace({{char}}, Jane)
.replace({{user}}, James)`), in scanner form. -/
def vJJ (s : Str) : Str :=
  vRenderJJ (varSegs s)


/-- Render after the first substitution, as a function of the text. -/
def vC (s : Str) : Str := vRenderC (varSegs s)

/-- Render after the first restore step, as a function of the text. -/
def vCh (s : Str) : Str := vRenderCh (varSegs s)


/-- Placeholder string with an explicit single digit character (the form
`phStr` takes for indices below ten). -/
def phD (blk : Bool) (d : Nat) : Str :=
  (match blk with | true => cbPre | false => icPre) ++ [Char.ofNat (48 + d)]


/-! ## Normal forms of the formatting normalizers (claim C3) -/

/-- No two adjacent plain spaces (the collapse rule is the identity). -/
def noDupSp : Str → Bool
  | [] => true
  | [_] => true
  | c :: d :: r => !(c == ' ' && d == ' ') && noDupSp (d :: r)

/-- No lowercase letter at a capitalization point: scanning from state
`st`, the uppercase pass is the identity. -/
def capOK : Nat → Str → Bool
  | _, [] => true
  | st, c :: cs => !(st = 2 && isLow c) && capOK (capStep st c) cs

/-- First and last character (when present) are not whitespace. -/
def strippedB (s : Str) : Bool :=
  (match s.head? with | some c => !isSpc c | none => true) &&
  (match s.getLast? with | some c => !isSpc c | none => true)

/-- No whitespace character directly before a `P` character (output
property of `delRunBefore`). -/
def noWsBefore (P : Char → Bool) : Str → Bool
  | [] => true
  | [_] => true
  | w :: e :: r => !(isSpc w && P e) && noWsBefore P (e :: r)

/-- Engine normal form for the interplay of the whitespace-deletion rule
and the two space-insertion rules: whitespace runs never precede a `[.,;:]`
character except as a single inserted space between two punctuation
characters, and punctuation is never directly followed by a character
outside the exclusion class of the insertion rules. -/
def nf3e : Str → Bool
  | [] => true
  | [_] => true
  | c :: d :: r =>
    if isSpc c then
      (match (d :: r).dropWhile isSpc with
       | e :: _ => !isP1 e
       | [] => true) && nf3e (d :: r)
    else if isP1 c || isP2 c then
      if isSpc d then
        match r with
        | e :: _ => if isP1 e then (d == ' ') && nf3e r else nf3e (d :: r)
        | [] => nf3e (d :: r)
      else exclE d && nf3e (d :: r)
    else nf3e (d :: r)

/-- Preset normal form for the deletion/insertion interplay: sites are
single spaces between a `[.!?]` character and a `[.,;:]` character (only
the second preset insertion rule recreates them), and adjacency after
punctuation respects the per-rule exclusion classes. -/
def nf3p : Str → Bool
  | [] => true
  | [_] => true
  | c :: d :: r =>
    if isSpc c then
      (match (d :: r).dropWhile isSpc with
       | e :: _ => !isP1 e
       | [] => true) && nf3p (d :: r)
    else if isP1 c || isP2 c then
      if isSpc d then
        match r with
        | e :: _ =>
          if isP1 e then (isP2 c && (d == ' ')) && nf3p r else nf3p (d :: r)
        | [] => nf3p (d :: r)
      else (!isP1 c || exclP1p d) && (!isP2 c || exclP2p d) && nf3p (d :: r)
    else nf3p (d :: r)

/-- No opening bracket directly followed by whitespace (the open-bracket
strip rule is the identity). -/
def noWsAfterOpen : Str → Bool
  | [] => true
  | [_] => true
  | c :: d :: r => !(isOpenBr c && isSpc d) && noWsAfterOpen (d :: r)

/-- No space adjacent to a newline on either side (the line-edge deletion
rule touches nothing inside the string). -/
def lineSpOK : Str → Bool
  | [] => true
  | [_] => true
  | c :: d :: r =>
    !(c == '\n' && d == ' ') && !(c == ' ' && d == '\n') && lineSpOK (d :: r)


/-- Two characters agreeing on every class the normal-form scanners
inspect. -/
def chEq (c c' : Char) : Prop :=
  isSpc c = isSpc c' ∧ isP1 c = isP1 c' ∧ isP2 c = isP2 c' ∧
    exclE c = exclE c' ∧ (c = ' ' ↔ c' = ' ')



/-- Last character is a `[.,;:]` character (the `|$` alternative of the
preset insertion rule fires at the very end). -/
def endsP1 (s : Str) : Bool :=
  match s.getLast? with | some c => isP1 c | none => false

/-- Last character (when present) is not whitespace. -/
def lastOK (s : Str) : Bool :=
  match s.getLast? with | some c => !isSpc c | none => true


/-- `chEq` extended with the preset exclusion classes. -/
def chEqP (c c' : Char) : Prop :=
  chEq c c' ∧ exclP1p c = exclP1p c' ∧ exclP2p c = exclP2p c'

/-- Head (if any) is not a plain space. -/
def headNeSp : Str → Prop
  | c2 :: _ => ¬ c2 = ' '
  | [] => True

/-- A space run at this position is deleted when followed by end or newline. -/
def delFlag : Str → Bool
  | [] => true
  | d :: _ => decide (d = '\n')

/-! # Theorems -/

theorem pyReplace_nil (pat rep : Str) : pyReplace [] pat rep = [] := by
  rw [pyReplace.eq_def]
  split <;> rfl

theorem pyReplace_cons_pos {pat : Str} (rep : Str) (c : Char) (cs : Str)
    (hp : pat ≠ []) (hpre : pat.isPrefixOf (c :: cs) = true) :
    pyReplace (c :: cs) pat rep = rep ++ pyReplace ((c :: cs).drop pat.length) pat rep := by
  rw [pyReplace.eq_def]
  simp [hp, hpre]

theorem pyReplace_cons_neg {pat : Str} (rep : Str) (c : Char) (cs : Str)
    (hp : pat ≠ []) (hpre : pat.isPrefixOf (c :: cs) = false) :
    pyReplace (c :: cs) pat rep = c :: pyReplace cs pat rep := by
  rw [pyReplace.eq_def]
  simp [hp, hpre]

theorem pyReplace_no_inf {s pat : Str} (rep : Str) (hp : pat ≠ [])
    (h : ¬ pat <:+: s) : pyReplace s pat rep = s := by
  induction s with
  | nil => exact pyReplace_nil pat rep
  | cons c cs ih =>
    have hpre : pat.isPrefixOf (c :: cs) = false := by
      by_contra hc
      exact h ((List.isPrefixOf_iff_prefix).mp (by simpa using hc)).isInfix
    rw [pyReplace_cons_neg rep c cs hp hpre]
    have hcs : ¬ pat <:+: cs := fun hc => h (List.infix_cons hc)
    rw [ih hcs]

theorem pyReplace_step {pat : Str} (rep : Str) (hp : pat ≠ []) :
    ∀ (a b : Str),
      (∀ i, i < a.length → ¬ pat <+: ((a ++ pat ++ b).drop i)) →
      pyReplace (a ++ pat ++ b) pat rep = a ++ rep ++ pyReplace b pat rep := by
  intro a
  induction a with
  | nil =>
    intro b _
    cases hpat : pat with
    | nil => simp [hpat] at hp
    | cons p ps =>
      simp only [List.nil_append]
      rw [← hpat]
      have hpre : pat.isPrefixOf (pat ++ b) = true :=
        (List.isPrefixOf_iff_prefix).mpr (List.prefix_append pat b)
      have h1 : pat ++ b = p :: (ps ++ b) := by rw [hpat]; simp
      rw [h1] at hpre ⊢
      rw [pyReplace_cons_pos rep p (ps ++ b) hp hpre]
      rw [← h1, List.drop_left]
  | cons c a' ih =>
    intro b hno
    have h0 : ¬ pat <+: (c :: (a' ++ pat ++ b)) := by
      have := hno 0 (by simp)
      simpa using this
    have hpre : pat.isPrefixOf (c :: (a' ++ pat ++ b)) = false := by
      by_contra hc
      exact h0 ((List.isPrefixOf_iff_prefix).mp (by simpa using hc))
    have h1 : (c :: a') ++ pat ++ b = c :: (a' ++ pat ++ b) := by simp
    rw [h1, pyReplace_cons_neg rep c (a' ++ pat ++ b) hp hpre]
    have h2 : pyReplace (a' ++ pat ++ b) pat rep = a' ++ rep ++ pyReplace b pat rep := by
      refine ih b ?_
      intro i hi
      have := hno (i + 1) (by simpa using Nat.succ_lt_succ hi)
      simpa using this
    rw [h2]
    simp

/-- Claim C5 counterexample input: the original chunk is `" Ab"` whose
first letter `A` is capitalized, the translation is `"xy"`, but the code
checks the first character (a space) and leaves the translation
unchanged. -/
theorem preserveCase_first_letter_cex :
    preserveCase " Ab".toList "xy".toList = "xy".toList ∧
      preserveCase " Ab".toList "xy".toList ≠ "Xy".toList := by
  constructor <;> decide

/-- Claim C5 (amended): `_preserve_case` uppercases the whole translation
when the original satisfies Python `isupper`, lowercases it when the
original satisfies `islower`, and otherwise capitalizes the first
character of the translation exactly when the first characters (not first
letters) of original and translation are upper- resp. lower-case. -/
theorem preserveCase_spec (o t : Str) :
    (pyIsUpper o = true → preserveCase o t = pyUpper t) ∧
    (pyIsLower o = true → pyIsUpper o = false → preserveCase o t = pyLower t) ∧
    (pyIsUpper o = false → pyIsLower o = false →
      ∀ c cs d ds, o = c :: cs → t = d :: ds → isUpp c = true → isLow d = true →
        preserveCase o t = upChar d :: ds) ∧
    (pyIsUpper o = false → pyIsLower o = false →
      ∀ c cs d ds, o = c :: cs → t = d :: ds → (isUpp c = false ∨ isLow d = false) →
        preserveCase o t = t) := by
  refine ⟨?_, ?_, ?_, ?_⟩
  · intro h
    have hne : o ≠ [] := by rintro rfl; simp [pyIsUpper] at h
    cases t with
    | nil => simp [preserveCase, pyUpper]
    | cons d ds => simp [preserveCase, hne, h]
  · intro h hh
    have hne : o ≠ [] := by rintro rfl; simp [pyIsLower] at h
    cases t with
    | nil => simp [preserveCase, pyLower]
    | cons d ds => simp [preserveCase, hne, h, hh]
  · intro h hh c cs d ds ho ht hc hd
    subst ho; subst ht
    simp [preserveCase, h, hh, hc, hd]
  · intro h hh c cs d ds ho ht hcd
    subst ho; subst ht
    have hfalse : (isUpp c && isLow d) = false := by
      rcases hcd with h1 | h1 <;> simp [h1]
    simp [preserveCase, h, hh, hfalse]

/-- Witness for C5 at concrete inputs. -/
theorem preserveCase_spec_witness :
    preserveCase "AB".toList "xy".toList = "XY".toList ∧
      preserveCase "ab".toList "XY".toList = "xy".toList ∧
      preserveCase "Ab c".toList "xy".toList = "Xy".toList := by
  refine ⟨?_, ?_, ?_⟩
  · rw [(preserveCase_spec "AB".toList "xy".toList).1 (by decide)]; decide
  · rw [(preserveCase_spec "ab".toList "XY".toList).2.1 (by decide) (by decide)]; decide
  · rw [(preserveCase_spec "Ab c".toList "xy".toList).2.2.1 (by decide) (by decide)
      'A' "b c".toList 'x' "y".toList (by decide) (by decide) (by decide) (by decide)]
    decide

mutual
theorem jframe_data (tr : Str → Str) : ∀ (v : JValue), JFrame v (translateJsonData tr v)
  | .null => by simp only [translateJsonData]; exact JFrame.base _
  | .bool b => by simp only [translateJsonData]; exact JFrame.base _
  | .num n => by simp only [translateJsonData]; exact JFrame.base _
  | .str s => by simp only [translateJsonData]; exact JFrame.base _
  | .arr xs => by
    simp only [translateJsonData]
    exact JFrame.arr (jframe_list tr xs)
  | .obj fs => by
    simp only [translateJsonData]
    exact JFrame.obj (jframe_fields tr fs)

theorem jframe_list (tr : Str → Str) : ∀ (xs : List JValue),
    JFrameList xs (translateJsonList tr xs)
  | [] => by simp only [translateJsonList]; exact JFrameList.nil
  | v :: vs => by
    simp only [translateJsonList]
    refine JFrameList.cons ?_ (jframe_list tr vs)
    by_cases h : isContainer v = true
    · simp only [h, if_true]; exact jframe_data tr v
    · simp only [h]; simp only [Bool.false_eq_true, if_false]; exact JFrame.base v

theorem jframe_fields (tr : Str → Str) : ∀ (fs : List (Str × JValue)),
    JFrameFields fs (translateJsonFields tr fs)
  | [] => by simp only [translateJsonFields]; exact JFrameFields.nil
  | (k, v) :: rest => by
    simp only [translateJsonFields]
    by_cases h : (targetFields.contains k && isStrNonBlank v) = true
    · rw [Bool.and_eq_true] at h
      obtain ⟨h1, h2⟩ := h
      obtain ⟨s, rfl, hb⟩ : ∃ s, v = .str s ∧ isBlank s = false := by
        cases v <;> simp_all [isStrNonBlank]
      simp only [h1, hb, isStrNonBlank, Bool.not_false, Bool.and_self, if_true, applyTr]
      exact JFrameFields.consTarget h1 hb (jframe_fields tr rest)
    · simp only [h]
      simp only [Bool.false_eq_true, if_false]
      by_cases h2 : isContainer v = true
      · simp only [h2, if_true]
        exact JFrameFields.consKeep (jframe_data tr v) (jframe_fields tr rest)
      · simp only [h2]
        simp only [Bool.false_eq_true, if_false]
        exact JFrameFields.consKeep (JFrame.base v) (jframe_fields tr rest)
end

/-- Claim C10: document-level translation only rewrites, at any depth, the
values of `TARGET_FIELDS` dictionary entries holding non-blank strings
(and rewrites them to strings); every other key, value and the nesting
structure of the document are unchanged. -/
theorem translate_json_data_frame (tr : Str → Str) (v : JValue) :
    JFrame v (translateJsonData tr v) :=
  jframe_data tr v

theorem splitChAux_ne_nil (sep : Char) : ∀ (s acc : Str), splitChAux sep s acc ≠ []
  | [], acc => by simp [splitChAux]
  | c :: cs, acc => by
    simp only [splitChAux]
    split <;> simp [splitChAux_ne_nil sep cs]

theorem joinSepC_cons_cons (sep : Char) (x y : Str) (xs : List Str) :
    joinSepC sep (x :: y :: xs) = x ++ sep :: joinSepC sep (y :: xs) := rfl

theorem joinSepC_splitChAux (sep : Char) : ∀ (s acc : Str),
    joinSepC sep (splitChAux sep s acc) = acc.reverse ++ s
  | [], acc => by simp [splitChAux, joinSepC]
  | c :: cs, acc => by
    simp only [splitChAux]
    by_cases h : c = sep
    · rw [if_pos h]
      have hne := splitChAux_ne_nil sep cs ([] : Str)
      obtain ⟨z, zs, hz⟩ : ∃ z zs, splitChAux sep cs [] = z :: zs := by
        cases hzz : splitChAux sep cs [] with
        | nil => exact absurd hzz hne
        | cons z zs => exact ⟨z, zs, rfl⟩
      rw [hz, joinSepC_cons_cons, ← hz, joinSepC_splitChAux sep cs []]
      simp [h]
    · rw [if_neg h]
      rw [joinSepC_splitChAux sep cs (c :: acc)]
      simp

theorem joinSepC_splitCh (sep : Char) (s : Str) :
    joinSepC sep (splitCh sep s) = s := by
  simpa using joinSepC_splitChAux sep s []

theorem splitChAux_no_sep (sep : Char) : ∀ (s acc : Str), (sep ∉ acc) →
    ∀ x ∈ splitChAux sep s acc, sep ∉ x
  | [], acc => by
    intro hacc x hx
    simp only [splitChAux, List.mem_singleton] at hx
    subst hx
    simpa using hacc
  | c :: cs, acc => by
    intro hacc x hx
    simp only [splitChAux] at hx
    by_cases h : c = sep
    · rw [if_pos h] at hx
      rcases List.mem_cons.mp hx with rfl | hx
      · simpa using hacc
      · exact splitChAux_no_sep sep cs [] (by simp) x hx
    · rw [if_neg h] at hx
      refine splitChAux_no_sep sep cs (c :: acc) ?_ x hx
      simp only [List.mem_cons, not_or]
      exact ⟨fun hc => h hc.symm, hacc⟩

theorem splitCh_no_sep (sep : Char) (s : Str) : ∀ x ∈ splitCh sep s, sep ∉ x :=
  splitChAux_no_sep sep s [] (by simp)

theorem joinAll_rawChunks : ∀ (ls : List Str),
    joinAll (rawChunks ls) = joinSepC '\n' ls
  | [] => rfl
  | [l] => by
    simp only [rawChunks]
    by_cases h : l = []
    · rw [if_pos h, h]; rfl
    · rw [if_neg h]; simp [joinAll, joinSepC]
  | l :: l₂ :: ls => by
    have ih := joinAll_rawChunks (l₂ :: ls)
    simp only [rawChunks]
    rw [joinSepC_cons_cons]
    by_cases h : l = []
    · rw [if_pos h, h]
      simp only [List.nil_append, joinAll, List.flatten_cons] at ih ⊢
      rw [ih]
      rfl
    · rw [if_neg h]
      simp only [joinAll, List.cons_append, List.nil_append, List.flatten_cons] at ih ⊢
      rw [ih]

theorem rawChunks_mem : ∀ (ls : List Str) (x : Str), x ∈ rawChunks ls →
    x = ['\n'] ∨ (x ∈ ls ∧ x ≠ [])
  | [], x => by simp [rawChunks]
  | [l], x => by
    intro hx
    simp only [rawChunks] at hx
    by_cases h : l = []
    · rw [if_pos h] at hx; simp at hx
    · rw [if_neg h] at hx
      rcases List.mem_singleton.mp hx with rfl
      exact Or.inr ⟨List.mem_singleton.mpr rfl, h⟩
  | l :: l₂ :: ls, x => by
    intro hx
    simp only [rawChunks] at hx
    by_cases h : l = []
    · rw [if_pos h] at hx
      simp only [List.nil_append, List.mem_cons] at hx
      rcases hx with rfl | hx
      · exact Or.inl rfl
      · have hrec := rawChunks_mem (l₂ :: ls) x hx
        rcases hrec with h1 | ⟨h1, h2⟩
        · exact Or.inl h1
        · exact Or.inr ⟨List.mem_cons_of_mem l h1, h2⟩
    · rw [if_neg h] at hx
      simp only [List.cons_append, List.nil_append, List.mem_cons] at hx
      rcases hx with rfl | rfl | hx
      · exact Or.inr ⟨List.mem_cons_self x _, h⟩
      · exact Or.inl rfl
      · have hrec := rawChunks_mem (l₂ :: ls) x hx
        rcases hrec with h1 | ⟨h1, h2⟩
        · exact Or.inl h1
        · exact Or.inr ⟨List.mem_cons_of_mem l h1, h2⟩

theorem procChunk_line (m : Nat) (l : Str) (hnl : '\n' ∉ l)
    (hwords : (splitCh ' ' l).length ≤ m) : procChunk m l = [l] := by
  have hne : l ≠ ['\n'] := by rintro rfl; simp at hnl
  simp [procChunk, hne, hwords]

/-- Under the per-line word-count hypothesis the preset chunker keeps each
line whole, so concatenation reproduces the text. -/
theorem presetChunks_join (m : Nat) (text : Str)
    (h : ∀ l ∈ splitCh '\n' text, (splitCh ' ' l).length ≤ m) :
    joinAll (presetChunks m text) = text := by
  by_cases hempty : text = []
  · simp [presetChunks, hempty, joinAll]
  · have hmap : ((rawChunks (splitCh '\n' text)).map (procChunk m)).flatten
        = rawChunks (splitCh '\n' text) := by
      have hgen : ∀ rs : List Str,
          (∀ x ∈ rs, x = ['\n'] ∨ (x ∈ splitCh '\n' text ∧ x ≠ [])) →
          (rs.map (procChunk m)).flatten = rs := by
        intro rs
        induction rs with
        | nil => intro _; rfl
        | cons r rest ih =>
          intro hmem
          have hr := hmem r (List.mem_cons_self r rest)
          have hrest := ih (fun x hx => hmem x (List.mem_cons_of_mem r hx))
          rcases hr with hr | ⟨h1, h2⟩
          · rw [List.map_cons, List.flatten_cons, hr]
            rw [show procChunk m ['\n'] = [['\n']] from by simp [procChunk]]
            rw [hrest]
            rfl
          · rw [List.map_cons, List.flatten_cons,
              procChunk_line m r (splitCh_no_sep '\n' text r h1) (h r h1)]
            rw [hrest]
            rfl
      exact hgen _ (rawChunks_mem (splitCh '\n' text))
    have hfilter : (rawChunks (splitCh '\n' text)).filter (fun c => c ≠ []) =
        rawChunks (splitCh '\n' text) := by
      rw [List.filter_eq_self]
      intro x hx
      rcases rawChunks_mem (splitCh '\n' text) x hx with rfl | ⟨_, h2⟩
      · simp
      · simpa using h2
    rw [presetChunks, if_neg hempty, hmap, hfilter, joinAll_rawChunks,
      joinSepC_splitCh]

theorem splitWsAux_join : ∀ (s acc : Str),
    joinAll (splitWsAux s acc) = acc.reverse ++ nonWs s
  | [], acc => by
    by_cases h : acc = [] <;> simp [splitWsAux, h, joinAll, nonWs]
  | c :: cs, acc => by
    simp only [splitWsAux]
    by_cases h : isSpc c = true
    · rw [if_pos h]
      by_cases ha : acc = []
      · rw [if_pos ha, splitWsAux_join cs [], ha]
        simp [nonWs, h]
      · rw [if_neg ha]
        have hj : joinAll (List.reverse acc :: splitWsAux cs []) =
            List.reverse acc ++ joinAll (splitWsAux cs []) := by
          simp [joinAll]
        rw [hj, splitWsAux_join cs []]
        simp [nonWs, h]
    · rw [if_neg h, splitWsAux_join cs (c :: acc)]
      simp [nonWs, h]

theorem splitWsAux_mem_nonspc : ∀ (s acc : Str), (∀ c ∈ acc, isSpc c = false) →
    ∀ w ∈ splitWsAux s acc, ∀ c ∈ w, isSpc c = false
  | [], acc => by
    intro hacc w hw
    simp only [splitWsAux] at hw
    split at hw
    · simp at hw
    · simp only [List.mem_singleton] at hw
      subst hw
      intro c hc
      exact hacc c (by simpa using hc)
  | c :: cs, acc => by
    intro hacc w hw
    simp only [splitWsAux] at hw
    by_cases h : isSpc c = true
    · rw [if_pos h] at hw
      by_cases ha : acc = []
      · rw [if_pos ha] at hw
        exact splitWsAux_mem_nonspc cs [] (by simp) w hw
      · rw [if_neg ha] at hw
        rcases List.mem_cons.mp hw with rfl | hw
        · intro d hd; exact hacc d (by simpa using hd)
        · exact splitWsAux_mem_nonspc cs [] (by simp) w hw
    · rw [if_neg h] at hw
      refine splitWsAux_mem_nonspc cs (c :: acc) ?_ w hw
      intro d hd
      rcases List.mem_cons.mp hd with rfl | hd
      · simpa using h
      · exact hacc d hd

theorem nonWs_eq_self {w : Str} (h : ∀ c ∈ w, isSpc c = false) : nonWs w = w := by
  rw [nonWs, List.filter_eq_self]
  intro c hc
  simp [h c hc]

theorem hardBreak_join (k : Nat) (hk : k ≠ 0) : ∀ (w : Str),
    joinAll (hardBreak k w) = w
  | [] => by rw [hardBreak]; simp [hk, joinAll]
  | c :: cs => by
    rw [hardBreak]
    simp only [if_neg hk]
    have ih := hardBreak_join k hk ((c :: cs).drop k)
    simp only [joinAll, List.flatten_cons] at ih ⊢
    rw [ih, List.take_append_drop]
termination_by w => w.length
decreasing_by simp only [List.length_drop, List.length_cons]; omega

theorem nonWs_append (a b : Str) : nonWs (a ++ b) = nonWs a ++ nonWs b := by
  simp [nonWs, List.filter_append]

theorem mmLoop_nonWs (k : Nat) (hk : k ≠ 0) : ∀ (ws : List Str) (cur : Str),
    (∀ w ∈ ws, ∀ c ∈ w, isSpc c = false) →
    nonWs (joinAll (mmLoop k ws cur)) = nonWs cur ++ joinAll ws
  | [], cur => by
    intro _
    simp only [mmLoop]
    by_cases h : cur = []
    · rw [if_pos h, h]; rfl
    · rw [if_neg h]; simp [joinAll, nonWs]
  | w :: ws, cur => by
    intro hws
    have hw : ∀ c ∈ w, isSpc c = false := hws w (List.mem_cons_self w ws)
    have hws2 : ∀ x ∈ ws, ∀ c ∈ x, isSpc c = false :=
      fun x hx => hws x (List.mem_cons_of_mem w hx)
    have ihnil := mmLoop_nonWs k hk ws [] hws2
    have ihw := mmLoop_nonWs k hk ws w hws2
    simp only [mmLoop]
    by_cases h1 : w.length > k
    · rw [if_pos h1]
      by_cases h2 : cur = []
      · rw [if_pos h2, h2]
        have hsplit : joinAll (([] : List Str) ++ hardBreak k w ++ mmLoop k ws []) =
            joinAll (hardBreak k w) ++ joinAll (mmLoop k ws []) := by
          simp [joinAll, List.flatten_append]
        rw [hsplit, nonWs_append, hardBreak_join k hk w, ihnil, nonWs_eq_self hw]
        simp [joinAll, nonWs]
      · rw [if_neg h2]
        have hsplit : joinAll ([cur] ++ hardBreak k w ++ mmLoop k ws []) =
            cur ++ (joinAll (hardBreak k w) ++ joinAll (mmLoop k ws [])) := by
          simp [joinAll, List.flatten_append]
        rw [hsplit, nonWs_append, nonWs_append, hardBreak_join k hk w, ihnil,
          nonWs_eq_self hw]
        simp [joinAll, nonWs]
    · rw [if_neg h1]
      by_cases h2 : cur ≠ []
      · rw [if_pos h2]
        by_cases h3 : cur.length + w.length + 1 ≤ k
        · rw [if_pos h3]
          rw [mmLoop_nonWs k hk ws (cur ++ ' ' :: w) hws2, nonWs_append]
          have hsw : nonWs (' ' :: w) = w := by
            rw [show (' ' :: w : Str) = [' '] ++ w from rfl, nonWs_append,
              nonWs_eq_self hw]
            simp [nonWs, isSpc]
          rw [hsw]
          simp [joinAll]
        · rw [if_neg h3]
          have hsplit : joinAll (cur :: mmLoop k ws w) =
              cur ++ joinAll (mmLoop k ws w) := by
            simp [joinAll]
          rw [hsplit, nonWs_append, ihw, nonWs_eq_self hw]
          simp [joinAll]
      · rw [if_neg h2]
        have hcur : cur = [] := by simpa using h2
        rw [ihw, hcur, nonWs_eq_self hw]
        simp [joinAll, nonWs]

/-- Claim C2 counterexample: `split_text("a b", 1)` yields `["a","b"]`,
whose concatenation `"ab"` drops the separating space; the preset chunker
with word limit 1 does the same. -/
theorem chunk_concat_cex :
    joinAll (splitTextMM 1 "a b".toList) ≠ "a b".toList ∧
      joinAll (presetChunks 1 "a b".toList) ≠ "a b".toList := by
  constructor <;> decide

/-- Claim C2 (amended): the preset chunker reproduces the text exactly
when every newline-separated line is within the word limit; the MyMemory
chunker in general only preserves the sequence of non-whitespace
characters (separator whitespace can be dropped at chunk boundaries). -/
theorem chunk_concat_amended :
    (∀ (m : Nat) (text : Str),
      (∀ l ∈ splitCh '\n' text, (splitCh ' ' l).length ≤ m) →
      joinAll (presetChunks m text) = text) ∧
    (∀ (k : Nat) (text : Str), k ≠ 0 →
      nonWs (joinAll (splitTextMM k text)) = nonWs text) := by
  constructor
  · exact presetChunks_join
  · intro k text hk
    rw [splitTextMM, mmLoop_nonWs k hk (pySplitWs text) []
      (splitWsAux_mem_nonspc text [] (by simp))]
    rw [show pySplitWs text = splitWsAux text [] from rfl]
    rw [show joinAll (splitWsAux text []) = List.reverse [] ++ nonWs text from
      splitWsAux_join text []]
    simp [nonWs]

/-- Witness for C2 at concrete inputs. -/
theorem chunk_concat_amended_witness :
    joinAll (presetChunks 5 "ab cd\nef".toList) = "ab cd\nef".toList ∧
      nonWs (joinAll (splitTextMM 2 "a b".toList)) = nonWs "a b".toList := by
  refine ⟨chunk_concat_amended.1 5 "ab cd\nef".toList (by decide),
    chunk_concat_amended.2 2 "a b".toList (by decide)⟩


theorem googleLoop_map (b : Str → Option Str) : ∀ (ss : List Str) (cur : Str),
    googleLoop b ss cur = (googlePieces ss cur).map (translateNow b)
  | [], cur => by
    simp only [googleLoop, googlePieces]
    by_cases h : cur = []
    · rw [if_pos h, if_pos h]; rfl
    · rw [if_neg h, if_neg h]; rfl
  | sentence :: rest, cur => by
    simp only [googleLoop, googlePieces]
    by_cases h1 : sentence.length > maxChunkCharLimit
    · rw [if_pos h1, if_pos h1]
      rw [googleLoop_map b rest []]
      by_cases h2 : cur = []
      · rw [if_pos h2, if_pos h2]
        simp [List.map_append]
      · rw [if_neg h2, if_neg h2]
        simp [List.map_append]
    · rw [if_neg h1, if_neg h1]
      by_cases h2 : cur.length + sentence.length > maxChunkCharLimit
      · rw [if_pos h2, if_pos h2]
        rw [googleLoop_map b rest (sentence ++ [' '])]
        simp
      · rw [if_neg h2, if_neg h2]
        exact googleLoop_map b rest (cur ++ sentence ++ [' '])

/-- Claim C4 counterexample: with the LLM path selected, a backend API
error makes `translate_text` raise `ConnectionError` to its caller
instead of falling back. -/
theorem engine_llm_raises_cex :
    engineTranslateText id (fun _ => none) (fun _ => .apiError) true true true false
      "French".toList (.str "hello".toList) = .error .connectionError := by
  rfl

/-- Claim C4 (amended): in the Google chunking path every chunk whose
backend call raises falls back to its own original text, the field result
is the joined per-chunk results, and the path never raises (it always
returns a value); the preset LLM path instead propagates backend errors. -/
theorem backend_failure_fallback :
    (∀ (b : Str → Option Str) (text : Str),
      translateWithGoogle b text =
        pyStrip (joinSp ((googlePieces (sentences text) []).map (translateNow b)))) ∧
    (∀ (b : Str → Option Str) (t : Str), b (pyStrip t) = none → translateNow b t = t) ∧
    (∀ (cleanFn : Str → Str) (bg : Str → Option Str) (bl : Str → LlmOutcome)
       (clientOk haveLlm ta : Bool) (lang : Str) (v : JValue),
      ∃ w, engineTranslateText cleanFn bg bl clientOk false haveLlm ta lang v = .ok w) := by
  refine ⟨?_, ?_, ?_⟩
  · intro b text
    rw [translateWithGoogle, googleLoop_map b (sentences text) []]
  · intro b t hb
    by_cases h : isBlank t = true
    · simp [translateNow, h]
    · simp [translateNow, h, hb]
  · intro cleanFn bg bl clientOk haveLlm ta lang v
    cases v with
    | str text =>
      by_cases h : isBlank text = true
      · exact ⟨.str text, by simp [engineTranslateText, h]⟩
      · refine ⟨.str (engineNorm (engineRestore
          (translateWithGoogle bg (engineExtract text).1) (engineExtract text).2)), ?_⟩
        simp [engineTranslateText, h]
    | null => exact ⟨.null, rfl⟩
    | bool x => exact ⟨.bool x, rfl⟩
    | num x => exact ⟨.num x, rfl⟩
    | arr x => exact ⟨.arr x, rfl⟩
    | obj x => exact ⟨.obj x, rfl⟩

/-- Witness for C4 at concrete inputs. -/
theorem backend_failure_fallback_witness :
    translateWithGoogle (fun _ => none) "One. Two.".toList =
      pyStrip (joinSp ((googlePieces (sentences "One. Two.".toList) []).map
        (translateNow (fun _ => none)))) ∧
      translateNow (fun _ => none) "ab".toList = "ab".toList := by
  refine ⟨backend_failure_fallback.1 (fun _ => none) "One. Two.".toList,
    backend_failure_fallback.2.1 (fun _ => none) "ab".toList rfl⟩

/-- Claim C9 counterexample: the card translator guards only empty or
non-string inputs, so a whitespace-only string goes through the LLM path:
the backend is called once and the result is not the input. -/
theorem card_blank_reaches_backend_cex :
    ((cardTranslateTextLLM (fun _ => some "RESP".toList) "French".toList false false
      [] "   ".toList none).2.2 = 1) ∧
    ((cardTranslateTextLLM (fun _ => some "RESP".toList) "French".toList false false
      [] "   ".toList none).1 ≠ "   ".toList) := by
  constructor <;> decide

/-- Claim C9 (amended): the preset engine entry point returns non-string,
empty and whitespace-only values unchanged, for every backend and
configuration (so no shielding, chunking or backend call can influence the
result); the card translator guards only empty or non-string values. -/
theorem engine_blank_guard (cleanFn : Str → Str) (bg : Str → Option Str)
    (bl : Str → LlmOutcome) (clientOk useLlm haveLlm ta : Bool) (lang : Str)
    (v : JValue) (h : isStrNonBlank v = false) :
    engineTranslateText cleanFn bg bl clientOk useLlm haveLlm ta lang v = .ok v := by
  cases v with
  | str text =>
    have hb : isBlank text = true := by simpa [isStrNonBlank] using h
    simp [engineTranslateText, hb]
  | null => rfl
  | bool x => rfl
  | num x => rfl
  | arr x => rfl
  | obj x => rfl

/-- Witness for C9 at concrete inputs. -/
theorem engine_blank_guard_witness :
    engineTranslateText id (fun _ => none) (fun _ => .apiError) true true true false
      "French".toList (.str " \t ".toList) = .ok (.str " \t ".toList) ∧
    engineTranslateText id (fun _ => none) (fun _ => .apiError) true false true false
      "French".toList (.num 7) = .ok (.num 7) := by
  refine ⟨engine_blank_guard id (fun _ => none) (fun _ => .apiError) true true true
      false "French".toList (.str " \t ".toList) (by decide),
    engine_blank_guard id (fun _ => none) (fun _ => .apiError) true false true
      false "French".toList (.num 7) (by decide)⟩

theorem findRunAux_mem (ch : Char) : ∀ (s : Str) (i : Nat) (r : Nat × Nat),
    findRunAux ch s i = some r → ch ∈ s
  | [], i, r => by simp [findRunAux]
  | c :: cs, i, r => by
    intro h
    simp only [findRunAux] at h
    by_cases hc : c = ch
    · exact hc ▸ List.mem_cons_self c cs
    · rw [if_neg hc] at h
      exact List.mem_cons_of_mem c (findRunAux_mem ch cs (i + 1) r h)

theorem findRunAux_decomp (ch : Char) : ∀ (s : Str) (i p L : Nat),
    findRunAux ch s i = some (p, L) →
    i ≤ p ∧ 1 ≤ L ∧ List.replicate L ch <+: s.drop (p - i)
  | [], i, p, L, h => by simp [findRunAux] at h
  | c :: cs, i, p, L, h => by
    simp only [findRunAux] at h
    by_cases hc : c = ch
    · rw [if_pos hc] at h
      simp only [Option.some.injEq, Prod.mk.injEq] at h
      obtain ⟨hip, hL⟩ := h
      subst hip
      subst hL
      refine ⟨Nat.le_refl i, Nat.le_add_right 1 _, ?_⟩
      simp only [Nat.sub_self, List.drop_zero]
      have htw : cs.takeWhile (fun x => decide (x = ch)) =
          List.replicate (cs.takeWhile (fun x => decide (x = ch))).length ch :=
        List.eq_replicate_of_mem
          (fun b hb => by simpa using List.mem_takeWhile_imp hb)
      have h1K : List.replicate (1 + (cs.takeWhile (fun x => decide (x = ch))).length) ch =
          ch :: List.replicate (cs.takeWhile (fun x => decide (x = ch))).length ch := by
        rw [Nat.add_comm]
        rfl
      refine ⟨cs.dropWhile (fun x => decide (x = ch)), ?_⟩
      rw [h1K, hc]
      show ch :: (List.replicate (cs.takeWhile (fun x => decide (x = ch))).length ch ++
        cs.dropWhile (fun x => decide (x = ch))) = ch :: cs
      rw [← htw, List.takeWhile_append_dropWhile]
    · rw [if_neg hc] at h
      obtain ⟨hip, hL, hpre⟩ := findRunAux_decomp ch cs (i + 1) p L h
      refine ⟨by omega, hL, ?_⟩
      have he : p - i = (p - (i + 1)) + 1 := by omega
      rw [he, List.drop_succ_cons]
      exact hpre

theorem findSubAux_decomp (pat : Str) : ∀ (s : Str) (i j : Nat),
    findSubAux pat s i = some j → i ≤ j ∧ pat <+: s.drop (j - i)
  | [], i, j, h => by
    simp only [findSubAux] at h
    by_cases hp : pat = []
    · rw [if_pos hp] at h
      simp only [Option.some.injEq] at h
      subst h
      exact ⟨Nat.le_refl i, by rw [hp]; exact List.nil_prefix⟩
    · rw [if_neg hp] at h
      exact absurd h (by simp)
  | c :: cs, i, j, h => by
    simp only [findSubAux] at h
    by_cases hp : pat.isPrefixOf (c :: cs) = true
    · rw [if_pos hp] at h
      simp only [Option.some.injEq] at h
      subst h
      refine ⟨Nat.le_refl i, ?_⟩
      simp only [Nat.sub_self, List.drop_zero]
      exact List.isPrefixOf_iff_prefix.mp hp
    · rw [if_neg hp] at h
      obtain ⟨hij, hpre⟩ := findSubAux_decomp pat cs (i + 1) j h
      refine ⟨by omega, ?_⟩
      have he : j - i = (j - (i + 1)) + 1 := by omega
      rw [he, List.drop_succ_cons]
      exact hpre

theorem tryPattern_decomp (ch : Char) (t : Str) {i L cs : Nat}
    (h : tryPattern ch t = some (i, L, cs)) :
    1 ≤ L ∧
    t = t.take i ++ (List.replicate L ch ++ ((t.drop (i + L)).take cs
        ++ (List.replicate L ch ++ t.drop (i + L + cs + L)))) := by
  rw [tryPattern] at h
  split at h
  · exact absurd h (by simp)
  · next p L0 hR =>
    split at h
    · exact absurd h (by simp)
    · next j hS =>
      simp only [Option.some.injEq, Prod.mk.injEq] at h
      obtain ⟨hpi, hLL, hjc⟩ := h
      subst hpi
      subst hLL
      subst hjc
      obtain ⟨_, hL1, hrun⟩ := findRunAux_decomp ch t 0 p L0 hR
      obtain ⟨_, hsub⟩ :=
        findSubAux_decomp (List.replicate L0 ch) (t.drop (p + L0)) 0 j hS
      refine ⟨hL1, ?_⟩
      have hrun2 : List.replicate L0 ch <+: t.drop p := by simpa using hrun
      have hsub2 : List.replicate L0 ch <+: (t.drop (p + L0)).drop j := by
        simpa using hsub
      conv_lhs => rw [← List.take_append_drop p t]
      congr 1
      have e2 : t.drop p = List.replicate L0 ch ++ (t.drop p).drop L0 := by
        have he := List.prefix_iff_eq_append.mp hrun2
        rw [List.length_replicate] at he
        exact he.symm
      have edd : (t.drop p).drop L0 = t.drop (p + L0) := by
        rw [List.drop_drop]
      rw [e2, edd]
      congr 1
      conv_lhs => rw [← List.take_append_drop j (t.drop (p + L0))]
      congr 1
      have e4 : (t.drop (p + L0)).drop j =
          List.replicate L0 ch ++ ((t.drop (p + L0)).drop j).drop L0 := by
        have he := List.prefix_iff_eq_append.mp hsub2
        rw [List.length_replicate] at he
        exact he.symm
      have edd2 : ((t.drop (p + L0)).drop j).drop L0 =
          t.drop (p + L0 + j + L0) := by
        rw [List.drop_drop, List.drop_drop]
        congr 1
        omega
      rw [e4, edd2]

theorem recTrAux_star (seg : Str → Str) (b : Str → Option Str) (fuel : Nat)
    (text : Str) (i L cs : Nat) (hne : ¬ text = [])
    (hns : pyIsSpace text = false) (h4 : ¬ text.length > 4000)
    (h1 : tryPattern '*' text = some (i, L, cs)) :
    recTrAux seg b (fuel + 1) text =
      (if isBlank (text.take i) then text.take i
       else match b (text.take i) with | some r => r | none => text.take i)
      ++ List.replicate L '*'
      ++ recTrAux seg b fuel ((text.drop (i + L)).take cs)
      ++ List.replicate L '*'
      ++ recTrAux seg b fuel (text.drop (i + L + cs + L)) := by
  simp only [recTrAux]
  rw [if_neg (by simp [hne, hns]), if_neg h4, h1]

theorem recTrAux_quote (seg : Str → Str) (b : Str → Option Str) (fuel : Nat)
    (text : Str) (i L cs : Nat) (hne : ¬ text = [])
    (hns : pyIsSpace text = false) (h4 : ¬ text.length > 4000)
    (h0 : tryPattern '*' text = none)
    (h1 : tryPattern (Char.ofNat 34) text = some (i, L, cs)) :
    recTrAux seg b (fuel + 1) text =
      (if isBlank (text.take i) then text.take i
       else match b (text.take i) with | some r => r | none => text.take i)
      ++ List.replicate L (Char.ofNat 34)
      ++ recTrAux seg b fuel ((text.drop (i + L)).take cs)
      ++ List.replicate L (Char.ofNat 34)
      ++ recTrAux seg b fuel (text.drop (i + L + cs + L)) := by
  simp only [recTrAux]
  rw [if_neg (by simp [hne, hns]), if_neg h4, h0, h1]

theorem recTrAux_bottom (seg : Str → Str) (b : Str → Option Str) (fuel : Nat)
    (text : Str) (hne : ¬ text = [])
    (hns : pyIsSpace text = false) (h4 : ¬ text.length > 4000)
    (h0 : tryPattern '*' text = none)
    (h1 : tryPattern (Char.ofNat 34) text = none) :
    recTrAux seg b (fuel + 1) text = rtBottom b text := by
  simp only [recTrAux]
  rw [if_neg (by simp [hne, hns]), if_neg h4, h0, h1]

theorem rtBottom_pres (b : Str → Option Str) (text : Str)
    (hb : b text = none ∨ b text = some text) : rtBottom b text = text := by
  rcases hb with h | h
  · rw [rtBottom, h]
  · simp only [rtBottom, h]
    have hfix : fixNl text text = text := by simp [fixNl]
    rw [hfix]
    split <;> rfl

theorem recTr_pres (seg : Str → Str) (b : Str → Option Str)
    (hb : ∀ s, b s = none ∨ b s = some s) :
    ∀ (fuel : Nat) (text : Str), text.length < fuel → text.length ≤ 4000 →
      recTrAux seg b fuel text = text
  | 0, _, hf, _ => by omega
  | fuel + 1, text, hf, hl4 => by
    by_cases hne : text = []
    · subst hne
      simp only [recTrAux]
      rw [if_pos (by simp)]
    · by_cases hsp : pyIsSpace text = true
      · simp only [recTrAux]
        rw [if_pos (by simp [hsp])]
      · have hns : pyIsSpace text = false := by
          cases h : pyIsSpace text
          · rfl
          · exact absurd h hsp
        have h4 : ¬ text.length > 4000 := by omega
        have htlen : 1 ≤ text.length := by
          cases text with
          | nil => exact absurd rfl hne
          | cons a as => simp
        have htb : ∀ u : Str, (if isBlank u then u
            else match b u with | some r => r | none => u) = u := by
          intro u
          split
          · rfl
          · rcases hb u with h | h <;> rw [h]
        cases hT1 : tryPattern '*' text with
        | some v =>
          obtain ⟨i, L, cs⟩ := v
          obtain ⟨hL1, hdec⟩ := tryPattern_decomp '*' text hT1
          rw [recTrAux_star seg b fuel text i L cs hne hns h4 hT1]
          have hlc : ((text.drop (i + L)).take cs).length < text.length := by
            simp only [List.length_take, List.length_drop]
            omega
          have hla : (text.drop (i + L + cs + L)).length < text.length := by
            simp only [List.length_drop]
            omega
          rw [recTr_pres seg b hb fuel _ (by omega) (by omega),
            recTr_pres seg b hb fuel _ (by omega) (by omega), htb]
          simp only [List.append_assoc]
          exact hdec.symm
        | none =>
          cases hT2 : tryPattern (Char.ofNat 34) text with
          | some v =>
            obtain ⟨i, L, cs⟩ := v
            obtain ⟨hL1, hdec⟩ := tryPattern_decomp (Char.ofNat 34) text hT2
            rw [recTrAux_quote seg b fuel text i L cs hne hns h4 hT1 hT2]
            have hlc : ((text.drop (i + L)).take cs).length < text.length := by
              simp only [List.length_take, List.length_drop]
              omega
            have hla : (text.drop (i + L + cs + L)).length < text.length := by
              simp only [List.length_drop]
              omega
            rw [recTr_pres seg b hb fuel _ (by omega) (by omega),
              recTr_pres seg b hb fuel _ (by omega) (by omega), htb]
            simp only [List.append_assoc]
            exact hdec.symm
          | none =>
            rw [recTrAux_bottom seg b fuel text hne hns h4 hT1 hT2]
            exact rtBottom_pres b text (hb text)
termination_by fuel _ _ _ => fuel
decreasing_by
  all_goals omega

/-- Claim C7: over every input at most 4000 characters long (the bound at
which `recursive_translate` defers to `translate_segment` instead of the
delimiter loop) — whether it contains an unmatched opening asterisk run, an
unmatched opening quote run, matched delimiter pairs, or any mix — the
delimiter segmentation never raises: for any backend that either echoes its
input or raises on every call (an exception is modelled by `none` and is
caught with the original text as fallback), the algorithm returns the input
text itself.  In particular every unmatched opening delimiter of either
kind appears verbatim in the output as plain literal text. -/
theorem unmatched_delimiter_plain (seg : Str → Str) (b : Str → Option Str)
    (text : Str) (hb : ∀ s, b s = none ∨ b s = some s)
    (hlen : text.length ≤ 4000) :
    recursiveTranslate seg b text = text := by
  rw [recursiveTranslate]
  exact recTr_pres seg b hb (text.length + 1) text (by omega) hlen

/-- Witness for C7: a text with an unmatched opening asterisk run, a
matched asterisk pair and an unmatched opening quote, under the echoing
backend and under the always-raising backend. -/
theorem unmatched_delimiter_plain_witness :
    recursiveTranslate id (fun s => some s)
        ("**a ".toList ++ [Char.ofNat 34] ++ "q".toList ++ [Char.ofNat 34]
          ++ " *b* ".toList ++ [Char.ofNat 34] ++ "c".toList) =
      ("**a ".toList ++ [Char.ofNat 34] ++ "q".toList ++ [Char.ofNat 34]
          ++ " *b* ".toList ++ [Char.ofNat 34] ++ "c".toList) ∧
    recursiveTranslate id (fun _ => none)
        ("**a ".toList ++ [Char.ofNat 34] ++ "q".toList ++ [Char.ofNat 34]
          ++ " *b* ".toList ++ [Char.ofNat 34] ++ "c".toList) =
      ("**a ".toList ++ [Char.ofNat 34] ++ "q".toList ++ [Char.ofNat 34]
          ++ " *b* ".toList ++ [Char.ofNat 34] ++ "c".toList) :=
  ⟨unmatched_delimiter_plain id (fun s => some s) _ (fun _ => Or.inr rfl)
      (by decide),
   unmatched_delimiter_plain id (fun _ => none) _ (fun _ => Or.inl rfl)
      (by decide)⟩

/-- Claim C6 counterexample: the restore step replaces only the exact
stand-in strings; upper- and lower-case variants of either stand-in (as
e.g. produced by the wholesale upper-casing of translated all-caps
segments) are left in place and neither template variable is restored. -/
theorem restore_case_variant_cex :
    engineRestore "JAMES".toList [] = "JAMES".toList ∧
      engineRestore "james".toList [] = "james".toList ∧
      engineRestore "JANE".toList [] = "JANE".toList ∧
      engineRestore "jane".toList [] = "jane".toList ∧
      hasSub userVar (engineRestore "JAMES".toList []) = false ∧
      hasSub charVar (engineRestore "JANE".toList []) = false := by
  have h1 : engineRestore "JAMES".toList [] = "JAMES".toList := by
    simp only [engineRestore, pySortLenDesc, List.foldl_nil]
    rw [pyReplace_no_inf charVar (by decide) (by decide),
      pyReplace_no_inf userVar (by decide) (by decide)]
  have h2 : engineRestore "james".toList [] = "james".toList := by
    simp only [engineRestore, pySortLenDesc, List.foldl_nil]
    rw [pyReplace_no_inf charVar (by decide) (by decide),
      pyReplace_no_inf userVar (by decide) (by decide)]
  have h3 : engineRestore "JANE".toList [] = "JANE".toList := by
    simp only [engineRestore, pySortLenDesc, List.foldl_nil]
    rw [pyReplace_no_inf charVar (by decide) (by decide),
      pyReplace_no_inf userVar (by decide) (by decide)]
  have h4 : engineRestore "jane".toList [] = "jane".toList := by
    simp only [engineRestore, pySortLenDesc, List.foldl_nil]
    rw [pyReplace_no_inf charVar (by decide) (by decide),
      pyReplace_no_inf userVar (by decide) (by decide)]
  refine ⟨h1, h2, h3, h4, ?_, ?_⟩
  · rw [h1]
    decide
  · rw [h3]
    decide

/-- Claim C8 counterexample: the non-LLM path stores results in
`_translation_cache` but never consults it, so two calls with the same
text invoke the underlying translation twice. -/
theorem card_cache_write_only_cex :
    (cardTranslateTextGoogle (fun s => (s, 1)) [] "hi".toList).2.2 +
      (cardTranslateTextGoogle (fun s => (s, 1))
        (cardTranslateTextGoogle (fun s => (s, 1)) [] "hi".toList).2.1
        "hi".toList).2.2 = 2 := by
  decide

/-- Claim C8 (amended): the LLM path of `translate_text` memoizes by
`(text, char_name)`: after a first successfully computed call, a second
call with the same key makes no backend call and returns the stored
result unchanged. -/
theorem card_llm_cache_single (b : Str → Option Str) (langLabel : Str)
    (ta tn : Bool) (cache : List ((Str × Option Str) × Str)) (text : Str)
    (charName : Option Str) (resp : Str)
    (hne : text ≠ [])
    (hmiss : lookupCache cache (text, charName) = none)
    (hok : b (cardPrompt langLabel ta tn charName text) = some resp) :
    (cardTranslateTextLLM b langLabel ta tn cache text charName).2.2 = 1 ∧
    (cardTranslateTextLLM b langLabel ta tn
        (cardTranslateTextLLM b langLabel ta tn cache text charName).2.1
        text charName).2.2 = 0 ∧
    (cardTranslateTextLLM b langLabel ta tn
        (cardTranslateTextLLM b langLabel ta tn cache text charName).2.1
        text charName).1 =
      (cardTranslateTextLLM b langLabel ta tn cache text charName).1 := by
  obtain ⟨r, h1⟩ : ∃ r, cardTranslateTextLLM b langLabel ta tn cache text charName =
      (r, ((text, charName), r) :: cache, 1) := by
    rw [cardTranslateTextLLM, if_neg hne, hmiss, hok]
    exact ⟨_, rfl⟩
  rw [h1]
  have h2 : cardTranslateTextLLM b langLabel ta tn
      (((text, charName), r) :: cache) text charName = (r, ((text, charName), r) :: cache, 0) := by
    rw [cardTranslateTextLLM, if_neg hne]
    simp [lookupCache]
  rw [h2]
  exact ⟨rfl, rfl, rfl⟩

/-- Witness for C8 at concrete inputs. -/
theorem card_llm_cache_single_witness :
    (cardTranslateTextLLM (fun _ => some "ok".toList) "French".toList false false
      [] "hi".toList none).2.2 = 1 ∧
    (cardTranslateTextLLM (fun _ => some "ok".toList) "French".toList false false
      (cardTranslateTextLLM (fun _ => some "ok".toList) "French".toList false false
        [] "hi".toList none).2.1 "hi".toList none).2.2 = 0 ∧
    (cardTranslateTextLLM (fun _ => some "ok".toList) "French".toList false false
      (cardTranslateTextLLM (fun _ => some "ok".toList) "French".toList false false
        [] "hi".toList none).2.1 "hi".toList none).1 =
    (cardTranslateTextLLM (fun _ => some "ok".toList) "French".toList false false
      [] "hi".toList none).1 := by
  exact card_llm_cache_single (fun _ => some "ok".toList) "French".toList false false
    [] "hi".toList none "ok".toList (by decide) rfl rfl


theorem prefix_append_cases {p x y : Str} (h : p <+: x ++ y) :
    p <+: x ∨ ∃ v, p = x ++ v ∧ v <+: y := by
  induction x generalizing p with
  | nil => exact Or.inr ⟨p, rfl, by simpa using h⟩
  | cons a x' ih =>
    cases p with
    | nil => exact Or.inl List.nil_prefix
    | cons b p' =>
      rw [List.cons_append] at h
      have hb : b = a := by
        obtain ⟨t, ht⟩ := h
        simp only [List.cons_append, List.cons.injEq] at ht
        exact ht.1
      subst hb
      have h' : p' <+: x' ++ y := by
        obtain ⟨t, ht⟩ := h
        exact ⟨t, by simpa using ht⟩
      rcases ih h' with h1 | ⟨v, rfl, hv⟩
      · exact Or.inl ((List.prefix_cons_inj b).mpr h1)
      · exact Or.inr ⟨v, by simp, hv⟩

theorem suffix_cons_of_suffix {u x' : Str} (a : Char) (h : u <:+ x') : u <:+ a :: x' := by
  obtain ⟨t, rfl⟩ := h
  exact ⟨a :: t, rfl⟩

theorem infix_append_split {ph x y : Str} (h : ph <:+: x ++ y) :
    ph <:+: x ∨ ph <:+: y ∨
      ∃ u v, ph = u ++ v ∧ u ≠ [] ∧ v ≠ [] ∧ u <:+ x ∧ v <+: y := by
  induction x generalizing ph with
  | nil => exact Or.inr (Or.inl (by simpa using h))
  | cons a x' ih =>
    rw [List.cons_append] at h
    rcases List.infix_cons_iff.mp h with hpre | hinf
    · rw [← List.cons_append] at hpre
      rcases prefix_append_cases hpre with h1 | ⟨v, rfl, hv⟩
      · exact Or.inl h1.isInfix
      · by_cases hv0 : v = []
        · subst hv0
          exact Or.inl (by simpa using (List.prefix_rfl : a :: x' <+: a :: x').isInfix)
        · exact Or.inr (Or.inr ⟨a :: x', v, rfl, by simp, hv0, List.suffix_rfl, hv⟩)
    · rcases ih hinf with h1 | h1 | ⟨u, v, rfl, hu, hv, hux, hvy⟩
      · exact Or.inl (List.infix_cons h1)
      · exact Or.inr (Or.inl h1)
      · exact Or.inr (Or.inr ⟨u, v, rfl, hu, hv, suffix_cons_of_suffix a hux, hvy⟩)

theorem prefix_getElem {p q : Str} (h : p <+: q) (i : Nat) (hi : i < p.length) :
    p[i]? = q[i]? := by
  obtain ⟨t, rfl⟩ := h
  rw [List.getElem?_append, if_pos hi]

theorem not_prefix_of_mismatch {pat w : Str} (i : Nat) (hiw : i < w.length)
    (hip : i < pat.length) (hne : pat[i]? ≠ w[i]?) (r : Str) :
    ¬ pat <+: (w ++ r) := by
  intro h
  have h1 : pat[i]? = (w ++ r)[i]? := prefix_getElem h i hip
  rw [List.getElem?_append, if_pos hiw] at h1
  exact hne h1

theorem pyReplace_through {pat : Str} (rep : Str) (hp : pat ≠ []) :
    ∀ (w s' : Str), (∀ p, p < w.length → ¬ pat <+: (w.drop p ++ s')) →
      pyReplace (w ++ s') pat rep = w ++ pyReplace s' pat rep
  | [], s', _ => by simp
  | c :: w', s', h => by
    have h0 : ¬ pat <+: (c :: (w' ++ s')) := by
      have := h 0 (by simp)
      simpa using this
    have hpre : pat.isPrefixOf (c :: (w' ++ s')) = false := by
      by_contra hc
      exact h0 ((List.isPrefixOf_iff_prefix).mp (by simpa using hc))
    rw [List.cons_append, pyReplace_cons_neg rep c (w' ++ s') hp hpre]
    rw [pyReplace_through rep hp w' s' (fun p hps => by
      have := h (p + 1) (by simpa using Nat.succ_lt_succ hps)
      simpa using this)]
    rfl

theorem pyReplace_exact_once {pat : Str} (rep : Str) (hp : pat ≠ [])
    (hnt : ¬ pat <:+: ([] : Str)) :
    pyReplace pat pat rep = rep := by
  have := @pyReplace_step pat rep hp [] [] (by simp)
  simpa [pyReplace_nil] using this


theorem varSegs_nil : varSegs [] = [] := by
  rw [varSegs.eq_def]

theorem varSegs_char_eq (c : Char) (cs : Str)
    (h : charVar.isPrefixOf (c :: cs) = true) :
    varSegs (c :: cs) = .vchar :: varSegs ((c :: cs).drop 8) := by
  rw [varSegs.eq_def]
  simp [h]

theorem varSegs_user_eq (c : Char) (cs : Str)
    (h1 : charVar.isPrefixOf (c :: cs) = false)
    (h2 : userVar.isPrefixOf (c :: cs) = true) :
    varSegs (c :: cs) = .vuser :: varSegs ((c :: cs).drop 8) := by
  rw [varSegs.eq_def]
  simp [h1, h2]

theorem varSegs_txt_eq (c : Char) (cs : Str)
    (h1 : charVar.isPrefixOf (c :: cs) = false)
    (h2 : userVar.isPrefixOf (c :: cs) = false) :
    varSegs (c :: cs) = .txt [c] :: varSegs cs := by
  rw [varSegs.eq_def]
  simp [h1, h2]

theorem charVar_len : charVar.length = 8 := by decide

theorem userVar_len : userVar.length = 8 := by decide

theorem prefix_decomp {p s : Str} (h : p.isPrefixOf s = true) :
    s = p ++ s.drop p.length := by
  obtain ⟨t, rfl⟩ := (List.isPrefixOf_iff_prefix).mp h
  rw [List.drop_left]

theorem vR0_varSegs : ∀ (s : Str), vRender0 (varSegs s) = s
  | [] => by rw [varSegs_nil]; rfl
  | c :: cs => by
    cases h1 : charVar.isPrefixOf (c :: cs) with
    | true =>
      rw [varSegs_char_eq c cs h1]
      have hrec := vR0_varSegs ((c :: cs).drop 8)
      show charVar ++ vRender0 (varSegs ((c :: cs).drop 8)) = c :: cs
      rw [hrec]
      have hd := prefix_decomp h1
      rw [charVar_len] at hd
      exact hd.symm
    | false =>
      cases h2 : userVar.isPrefixOf (c :: cs) with
      | true =>
        rw [varSegs_user_eq c cs h1 h2]
        have hrec := vR0_varSegs ((c :: cs).drop 8)
        show userVar ++ vRender0 (varSegs ((c :: cs).drop 8)) = c :: cs
        rw [hrec]
        have hd := prefix_decomp h2
        rw [userVar_len] at hd
        exact hd.symm
      | false =>
        rw [varSegs_txt_eq c cs h1 h2]
        have hrec := vR0_varSegs cs
        show [c] ++ vRender0 (varSegs cs) = c :: cs
        rw [hrec]
        rfl
termination_by s => s.length
decreasing_by
  all_goals simp only [List.length_drop, List.length_cons]
  all_goals omega

theorem vC_nil : vC [] = [] := by
  rw [vC, varSegs_nil]
  rfl

theorem vC_char_eq (c : Char) (cs : Str)
    (h : charVar.isPrefixOf (c :: cs) = true) :
    vC (c :: cs) = janeS ++ vC ((c :: cs).drop 8) := by
  rw [vC, varSegs_char_eq c cs h]
  rfl

theorem vC_user_eq (c : Char) (cs : Str)
    (h1 : charVar.isPrefixOf (c :: cs) = false)
    (h2 : userVar.isPrefixOf (c :: cs) = true) :
    vC (c :: cs) = userVar ++ vC ((c :: cs).drop 8) := by
  rw [vC, varSegs_user_eq c cs h1 h2]
  rfl

theorem vC_txt_eq (c : Char) (cs : Str)
    (h1 : charVar.isPrefixOf (c :: cs) = false)
    (h2 : userVar.isPrefixOf (c :: cs) = false) :
    vC (c :: cs) = c :: vC cs := by
  rw [vC, varSegs_txt_eq c cs h1 h2]
  rfl

theorem vJJ_nil : vJJ [] = [] := by
  rw [vJJ, varSegs_nil]
  rfl

theorem vJJ_char_eq (c : Char) (cs : Str)
    (h : charVar.isPrefixOf (c :: cs) = true) :
    vJJ (c :: cs) = janeS ++ vJJ ((c :: cs).drop 8) := by
  rw [vJJ, varSegs_char_eq c cs h]
  rfl

theorem vJJ_user_eq (c : Char) (cs : Str)
    (h1 : charVar.isPrefixOf (c :: cs) = false)
    (h2 : userVar.isPrefixOf (c :: cs) = true) :
    vJJ (c :: cs) = jamesS ++ vJJ ((c :: cs).drop 8) := by
  rw [vJJ, varSegs_user_eq c cs h1 h2]
  rfl

theorem vJJ_txt_eq (c : Char) (cs : Str)
    (h1 : charVar.isPrefixOf (c :: cs) = false)
    (h2 : userVar.isPrefixOf (c :: cs) = false) :
    vJJ (c :: cs) = c :: vJJ cs := by
  rw [vJJ, varSegs_txt_eq c cs h1 h2]
  rfl

theorem vCh_nil : vCh [] = [] := by
  rw [vCh, varSegs_nil]
  rfl

theorem vCh_char_eq (c : Char) (cs : Str)
    (h : charVar.isPrefixOf (c :: cs) = true) :
    vCh (c :: cs) = charVar ++ vCh ((c :: cs).drop 8) := by
  rw [vCh, varSegs_char_eq c cs h]
  rfl

theorem vCh_user_eq (c : Char) (cs : Str)
    (h1 : charVar.isPrefixOf (c :: cs) = false)
    (h2 : userVar.isPrefixOf (c :: cs) = true) :
    vCh (c :: cs) = jamesS ++ vCh ((c :: cs).drop 8) := by
  rw [vCh, varSegs_user_eq c cs h1 h2]
  rfl

theorem vCh_txt_eq (c : Char) (cs : Str)
    (h1 : charVar.isPrefixOf (c :: cs) = false)
    (h2 : userVar.isPrefixOf (c :: cs) = false) :
    vCh (c :: cs) = c :: vCh cs := by
  rw [vCh, varSegs_txt_eq c cs h1 h2]
  rfl


theorem prefix_cons_cases {q : Str} {a : Char} {x : Str} (h : q <+: a :: x) :
    q = [] ∨ ∃ qt, q = a :: qt ∧ qt <+: x := by
  cases q with
  | nil => exact Or.inl rfl
  | cons b qt =>
    obtain ⟨t, ht⟩ := h
    simp only [List.cons_append, List.cons.injEq] at ht
    exact Or.inr ⟨qt, by rw [ht.1], ⟨t, ht.2⟩⟩

theorem prefix_append_left {x y : Str} (u : Str) (h : x <+: y) :
    u ++ x <+: u ++ y := by
  obtain ⟨t, rfl⟩ := h
  exact ⟨t, by rw [List.append_assoc]⟩

theorem infix_of_infix_drop {t s : Str} (n : Nat) (h : t <:+: s.drop n) :
    t <:+: s :=
  h.trans (List.drop_suffix n s).isInfix

theorem janeS_cons : janeS = 'J' :: "ane".toList := rfl

theorem jamesS_cons : jamesS = 'J' :: "ames".toList := rfl

theorem vC_prefix_transfer : ∀ (s q : Str), 'J' ∉ q → q <+: vC s → q <+: s
  | [], q => by
    intro hJ h
    rw [vC_nil] at h
    rw [List.prefix_nil.mp h]
  | c :: cs, q => by
    intro hJ h
    cases h1 : charVar.isPrefixOf (c :: cs) with
    | true =>
      rw [vC_char_eq c cs h1] at h
      have hsplit : janeS ++ vC ((c :: cs).drop 8) =
          'J' :: ("ane".toList ++ vC ((c :: cs).drop 8)) := rfl
      rw [hsplit] at h
      rcases prefix_cons_cases h with rfl | ⟨qt, rfl, _⟩
      · exact List.nil_prefix
      · exact absurd (by simp : 'J' ∈ 'J' :: qt) hJ
    | false =>
      cases h2 : userVar.isPrefixOf (c :: cs) with
      | true =>
        rw [vC_user_eq c cs h1 h2] at h
        rcases prefix_append_cases h with hq | ⟨q', rfl, hq'⟩
        · exact hq.trans ((List.isPrefixOf_iff_prefix).mp h2)
        · have hJ' : 'J' ∉ q' := fun hc => hJ (by simp [hc])
          have hrec := vC_prefix_transfer ((c :: cs).drop 8) q' hJ' hq'
          have hd := prefix_decomp h2
          rw [userVar_len] at hd
          rw [hd]
          exact prefix_append_left userVar hrec
      | false =>
        rw [vC_txt_eq c cs h1 h2] at h
        rcases prefix_cons_cases h with rfl | ⟨qt, rfl, hqt⟩
        · exact List.nil_prefix
        · have hJ' : 'J' ∉ qt := fun hc => hJ (by simp [hc])
          have hrec := vC_prefix_transfer cs qt hJ' hqt
          exact (List.prefix_cons_inj c).mpr hrec
termination_by s => s.length
decreasing_by
  all_goals simp only [List.length_drop, List.length_cons]
  all_goals omega

theorem vJJ_prefix_transfer : ∀ (s q : Str), 'J' ∉ q → q <+: vJJ s → q <+: s
  | [], q => by
    intro hJ h
    rw [vJJ_nil] at h
    rw [List.prefix_nil.mp h]
  | c :: cs, q => by
    intro hJ h
    cases h1 : charVar.isPrefixOf (c :: cs) with
    | true =>
      rw [vJJ_char_eq c cs h1] at h
      have hsplit : janeS ++ vJJ ((c :: cs).drop 8) =
          'J' :: ("ane".toList ++ vJJ ((c :: cs).drop 8)) := rfl
      rw [hsplit] at h
      rcases prefix_cons_cases h with rfl | ⟨qt, rfl, _⟩
      · exact List.nil_prefix
      · exact absurd (by simp : 'J' ∈ 'J' :: qt) hJ
    | false =>
      cases h2 : userVar.isPrefixOf (c :: cs) with
      | true =>
        rw [vJJ_user_eq c cs h1 h2] at h
        have hsplit : jamesS ++ vJJ ((c :: cs).drop 8) =
            'J' :: ("ames".toList ++ vJJ ((c :: cs).drop 8)) := rfl
        rw [hsplit] at h
        rcases prefix_cons_cases h with rfl | ⟨qt, rfl, _⟩
        · exact List.nil_prefix
        · exact absurd (by simp : 'J' ∈ 'J' :: qt) hJ
      | false =>
        rw [vJJ_txt_eq c cs h1 h2] at h
        rcases prefix_cons_cases h with rfl | ⟨qt, rfl, hqt⟩
        · exact List.nil_prefix
        · have hJ' : 'J' ∉ qt := fun hc => hJ (by simp [hc])
          have hrec := vJJ_prefix_transfer cs qt hJ' hqt
          exact (List.prefix_cons_inj c).mpr hrec
termination_by s => s.length
decreasing_by
  all_goals simp only [List.length_drop, List.length_cons]
  all_goals omega

theorem vCh_prefix_transfer : ∀ (s q : Str), 'J' ∉ q → q <+: vCh s → q <+: s
  | [], q => by
    intro hJ h
    rw [vCh_nil] at h
    rw [List.prefix_nil.mp h]
  | c :: cs, q => by
    intro hJ h
    cases h1 : charVar.isPrefixOf (c :: cs) with
    | true =>
      rw [vCh_char_eq c cs h1] at h
      rcases prefix_append_cases h with hq | ⟨q', rfl, hq'⟩
      · exact hq.trans ((List.isPrefixOf_iff_prefix).mp h1)
      · have hJ' : 'J' ∉ q' := fun hc => hJ (by simp [hc])
        have hrec := vCh_prefix_transfer ((c :: cs).drop 8) q' hJ' hq'
        have hd := prefix_decomp h1
        rw [charVar_len] at hd
        rw [hd]
        exact prefix_append_left charVar hrec
    | false =>
      cases h2 : userVar.isPrefixOf (c :: cs) with
      | true =>
        rw [vCh_user_eq c cs h1 h2] at h
        have hsplit : jamesS ++ vCh ((c :: cs).drop 8) =
            'J' :: ("ames".toList ++ vCh ((c :: cs).drop 8)) := rfl
        rw [hsplit] at h
        rcases prefix_cons_cases h with rfl | ⟨qt, rfl, _⟩
        · exact List.nil_prefix
        · exact absurd (by simp : 'J' ∈ 'J' :: qt) hJ
      | false =>
        rw [vCh_txt_eq c cs h1 h2] at h
        rcases prefix_cons_cases h with rfl | ⟨qt, rfl, hqt⟩
        · exact List.nil_prefix
        · have hJ' : 'J' ∉ qt := fun hc => hJ (by simp [hc])
          have hrec := vCh_prefix_transfer cs qt hJ' hqt
          exact (List.prefix_cons_inj c).mpr hrec
termination_by s => s.length
decreasing_by
  all_goals simp only [List.length_drop, List.length_cons]
  all_goals omega

theorem no_charVar_in_userVar (p : Nat) (hp : p < 8) (r : Str) :
    ¬ charVar <+: (userVar.drop p ++ r) := by
  interval_cases p
  · exact not_prefix_of_mismatch 2 (by decide) (by decide) (by decide) r
  · exact not_prefix_of_mismatch 1 (by decide) (by decide) (by decide) r
  · exact not_prefix_of_mismatch 0 (by decide) (by decide) (by decide) r
  · exact not_prefix_of_mismatch 0 (by decide) (by decide) (by decide) r
  · exact not_prefix_of_mismatch 0 (by decide) (by decide) (by decide) r
  · exact not_prefix_of_mismatch 0 (by decide) (by decide) (by decide) r
  · exact not_prefix_of_mismatch 0 (by decide) (by decide) (by decide) r
  · exact not_prefix_of_mismatch 0 (by decide) (by decide) (by decide) r

theorem no_userVar_in_janeS (p : Nat) (hp : p < 4) (r : Str) :
    ¬ userVar <+: (janeS.drop p ++ r) := by
  interval_cases p
  · exact not_prefix_of_mismatch 0 (by decide) (by decide) (by decide) r
  · exact not_prefix_of_mismatch 0 (by decide) (by decide) (by decide) r
  · exact not_prefix_of_mismatch 0 (by decide) (by decide) (by decide) r
  · exact not_prefix_of_mismatch 0 (by decide) (by decide) (by decide) r

theorem no_janeS_in_jamesS (p : Nat) (hp : p < 5) (r : Str) :
    ¬ janeS <+: (jamesS.drop p ++ r) := by
  interval_cases p
  · exact not_prefix_of_mismatch 2 (by decide) (by decide) (by decide) r
  · exact not_prefix_of_mismatch 0 (by decide) (by decide) (by decide) r
  · exact not_prefix_of_mismatch 0 (by decide) (by decide) (by decide) r
  · exact not_prefix_of_mismatch 0 (by decide) (by decide) (by decide) r
  · exact not_prefix_of_mismatch 0 (by decide) (by decide) (by decide) r

theorem no_jamesS_in_charVar (p : Nat) (hp : p < 8) (r : Str) :
    ¬ jamesS <+: (charVar.drop p ++ r) := by
  interval_cases p
  · exact not_prefix_of_mismatch 0 (by decide) (by decide) (by decide) r
  · exact not_prefix_of_mismatch 0 (by decide) (by decide) (by decide) r
  · exact not_prefix_of_mismatch 0 (by decide) (by decide) (by decide) r
  · exact not_prefix_of_mismatch 0 (by decide) (by decide) (by decide) r
  · exact not_prefix_of_mismatch 0 (by decide) (by decide) (by decide) r
  · exact not_prefix_of_mismatch 0 (by decide) (by decide) (by decide) r
  · exact not_prefix_of_mismatch 0 (by decide) (by decide) (by decide) r
  · exact not_prefix_of_mismatch 0 (by decide) (by decide) (by decide) r

theorem pyReplace_charVar : ∀ (s : Str), pyReplace s charVar janeS = vC s
  | [] => by rw [pyReplace_nil, vC_nil]
  | c :: cs => by
    cases h1 : charVar.isPrefixOf (c :: cs) with
    | true =>
      rw [vC_char_eq c cs h1, pyReplace_cons_pos janeS c cs (by decide) h1,
        charVar_len, pyReplace_charVar ((c :: cs).drop 8)]
    | false =>
      cases h2 : userVar.isPrefixOf (c :: cs) with
      | true =>
        rw [vC_user_eq c cs h1 h2]
        have hd := prefix_decomp h2
        rw [userVar_len] at hd
        conv_lhs => rw [hd]
        rw [pyReplace_through janeS (by decide) userVar ((c :: cs).drop 8)
          (fun p hp => no_charVar_in_userVar p (by rw [userVar_len] at hp; exact hp) _),
          pyReplace_charVar ((c :: cs).drop 8)]
      | false =>
        rw [vC_txt_eq c cs h1 h2, pyReplace_cons_neg janeS c cs (by decide) h1,
          pyReplace_charVar cs]
termination_by s => s.length
decreasing_by
  all_goals simp only [List.length_drop, List.length_cons]
  all_goals omega

theorem pyReplace_userVar : ∀ (s : Str), pyReplace (vC s) userVar jamesS = vJJ s
  | [] => by rw [vC_nil, pyReplace_nil, vJJ_nil]
  | c :: cs => by
    cases h1 : charVar.isPrefixOf (c :: cs) with
    | true =>
      rw [vC_char_eq c cs h1, vJJ_char_eq c cs h1,
        pyReplace_through jamesS (by decide) janeS (vC ((c :: cs).drop 8))
          (fun p hp => no_userVar_in_janeS p (by simpa using hp) _),
        pyReplace_userVar ((c :: cs).drop 8)]
    | false =>
      cases h2 : userVar.isPrefixOf (c :: cs) with
      | true =>
        rw [vC_user_eq c cs h1 h2, vJJ_user_eq c cs h1 h2]
        have hstep := @pyReplace_step userVar jamesS (by decide) []
          (vC ((c :: cs).drop 8)) (by intro i hi; simp at hi)
        simp only [List.nil_append] at hstep
        rw [hstep, pyReplace_userVar ((c :: cs).drop 8)]
      | false =>
        rw [vC_txt_eq c cs h1 h2, vJJ_txt_eq c cs h1 h2]
        have hpre : userVar.isPrefixOf (c :: vC cs) = false := by
          by_contra hc
          have hq : userVar <+: (c :: vC cs) :=
            (List.isPrefixOf_iff_prefix).mp (by simpa using hc)
          have hq2 : userVar <+: vC (c :: cs) := by
            rw [vC_txt_eq c cs h1 h2]; exact hq
          have := (List.isPrefixOf_iff_prefix).mpr
            (vC_prefix_transfer (c :: cs) userVar (by decide) hq2)
          rw [h2] at this
          exact Bool.noConfusion this
        rw [pyReplace_cons_neg jamesS c (vC cs) (by decide) hpre,
          pyReplace_userVar cs]
termination_by s => s.length
decreasing_by
  all_goals simp only [List.length_drop, List.length_cons]
  all_goals omega

theorem pyReplace_restore_jane : ∀ (s : Str), ¬ janeS <:+: s →
    pyReplace (vJJ s) janeS charVar = vCh s
  | [], _ => by rw [vJJ_nil, pyReplace_nil, vCh_nil]
  | c :: cs, hj => by
    cases h1 : charVar.isPrefixOf (c :: cs) with
    | true =>
      rw [vJJ_char_eq c cs h1, vCh_char_eq c cs h1]
      have hstep := @pyReplace_step janeS charVar (by decide) []
        (vJJ ((c :: cs).drop 8)) (by intro i hi; simp at hi)
      simp only [List.nil_append] at hstep
      rw [hstep, pyReplace_restore_jane ((c :: cs).drop 8)
        (fun hc => hj (infix_of_infix_drop 8 hc))]
    | false =>
      cases h2 : userVar.isPrefixOf (c :: cs) with
      | true =>
        rw [vJJ_user_eq c cs h1 h2, vCh_user_eq c cs h1 h2,
          pyReplace_through charVar (by decide) jamesS (vJJ ((c :: cs).drop 8))
            (fun p hp => no_janeS_in_jamesS p (by simpa using hp) _),
          pyReplace_restore_jane ((c :: cs).drop 8)
            (fun hc => hj (infix_of_infix_drop 8 hc))]
      | false =>
        rw [vJJ_txt_eq c cs h1 h2, vCh_txt_eq c cs h1 h2]
        have hpre : janeS.isPrefixOf (c :: vJJ cs) = false := by
          by_contra hc
          have hq : janeS <+: (c :: vJJ cs) :=
            (List.isPrefixOf_iff_prefix).mp (by simpa using hc)
          rw [janeS_cons] at hq
          obtain ⟨t, ht⟩ := hq
          simp only [List.cons_append, List.cons.injEq] at ht
          have hane : "ane".toList <+: vJJ cs := ⟨t, ht.2⟩
          have hcs := vJJ_prefix_transfer cs "ane".toList (by decide) hane
          obtain ⟨u, rfl⟩ := hcs
          refine hj ?_
          refine List.IsPrefix.isInfix ?_
          rw [janeS_cons, ht.1]
          exact ⟨u, by simp⟩
        rw [pyReplace_cons_neg charVar c (vJJ cs) (by decide) hpre,
          pyReplace_restore_jane cs (fun hc => hj (List.infix_cons hc))]
termination_by s => s.length
decreasing_by
  all_goals simp only [List.length_drop, List.length_cons]
  all_goals omega

theorem pyReplace_restore_james : ∀ (s : Str), ¬ jamesS <:+: s →
    pyReplace (vCh s) jamesS userVar = s
  | [], _ => by rw [vCh_nil, pyReplace_nil]
  | c :: cs, hm => by
    cases h1 : charVar.isPrefixOf (c :: cs) with
    | true =>
      rw [vCh_char_eq c cs h1,
        pyReplace_through userVar (by decide) charVar (vCh ((c :: cs).drop 8))
          (fun p hp => no_jamesS_in_charVar p (by rw [charVar_len] at hp; exact hp) _),
        pyReplace_restore_james ((c :: cs).drop 8)
          (fun hc => hm (infix_of_infix_drop 8 hc))]
      have hd := prefix_decomp h1
      rw [charVar_len] at hd
      exact hd.symm
    | false =>
      cases h2 : userVar.isPrefixOf (c :: cs) with
      | true =>
        rw [vCh_user_eq c cs h1 h2]
        have hstep := @pyReplace_step jamesS userVar (by decide) []
          (vCh ((c :: cs).drop 8)) (by intro i hi; simp at hi)
        simp only [List.nil_append] at hstep
        rw [hstep, pyReplace_restore_james ((c :: cs).drop 8)
          (fun hc => hm (infix_of_infix_drop 8 hc))]
        have hd := prefix_decomp h2
        rw [userVar_len] at hd
        exact hd.symm
      | false =>
        rw [vCh_txt_eq c cs h1 h2]
        have hpre : jamesS.isPrefixOf (c :: vCh cs) = false := by
          by_contra hc
          have hq : jamesS <+: (c :: vCh cs) :=
            (List.isPrefixOf_iff_prefix).mp (by simpa using hc)
          rw [jamesS_cons] at hq
          obtain ⟨t, ht⟩ := hq
          simp only [List.cons_append, List.cons.injEq] at ht
          have hames : "ames".toList <+: vCh cs := ⟨t, ht.2⟩
          have hcs := vCh_prefix_transfer cs "ames".toList (by decide) hames
          obtain ⟨u, rfl⟩ := hcs
          refine hm ?_
          refine List.IsPrefix.isInfix ?_
          rw [jamesS_cons, ht.1]
          exact ⟨u, by simp⟩
        rw [pyReplace_cons_neg userVar c (vCh cs) (by decide) hpre,
          pyReplace_restore_james cs (fun hc => hm (List.infix_cons hc))]
termination_by s => s.length
decreasing_by
  all_goals simp only [List.length_drop, List.length_cons]
  all_goals omega


/-- Claim C6 (amended): unshielding reverses the stand-in substitution by
literal replacement of every exact occurrence of either stand-in name
(`Jane` back to the character variable and `James` back to the user
variable), for any number of occurrences, which also covers possessive
forms written after the exact name; the hypotheses only exclude sources
that already contain a stand-in name verbatim.  Case variants of the
stand-ins are not replaced (see the counterexample). -/
theorem restore_exact_standin (s : Str)
    (hj : ¬ janeS <:+: s) (hm : ¬ jamesS <:+: s) :
    engineRestore (vJJ s) [] = s := by
  simp only [engineRestore, pySortLenDesc, List.foldl_nil]
  rw [pyReplace_restore_jane s hj, pyReplace_restore_james s hm]

/-- Witness for C6: a text with one `\x7b\x7bchar\x7d\x7d`, two
`\x7b\x7buser\x7d\x7d` occurrences and a possessive restores exactly. -/
theorem restore_exact_standin_witness :
    engineRestore (vJJ ("\x7b\x7bchar\x7d\x7d met \x7b\x7buser\x7d\x7d and \x7b\x7buser\x7d\x7d".toList
        ++ (Char.ofNat 39 :: "s cat".toList))) [] =
      "\x7b\x7bchar\x7d\x7d met \x7b\x7buser\x7d\x7d and \x7b\x7buser\x7d\x7d".toList
        ++ (Char.ofNat 39 :: "s cat".toList) :=
  restore_exact_standin _ (by decide) (by decide)

theorem natRepr_lt10 {n : Nat} (h : n < 10) : natRepr n = [Char.ofNat (48 + n)] := by
  rw [natRepr.eq_def, dif_pos h]

theorem phStr_eq_phD (b : Bool) {d : Nat} (hd : d < 10) : phStr b d = phD b d := by
  cases b <;> · rw [phStr, natRepr_lt10 hd]; rfl

theorem phD_len_le (b : Bool) (d : Fin 10) : (phD b d.val).length ≤ 15 := by
  cases b <;> simp [phD, cbPre, icPre]

theorem phD_ne_nil (b : Bool) (d : Nat) : phD b d ≠ [] := by
  cases b <;> simp [phD]

theorem KD1 : ∀ (b1 b2 : Bool) (d1 d2 : Fin 10),
    phD b1 d1.val <:+: phD b2 d2.val → b1 = b2 ∧ d1 = d2 := by decide

theorem KD2 : ∀ (b1 b2 : Bool) (d1 d2 : Fin 10) (m : Nat), m < 15 → 0 < m →
    m < (phD b1 d1.val).length →
    ¬ ((phD b1 d1.val).drop m <+: phD b2 d2.val) ∧
      ¬ (phD b2 d2.val <+: (phD b1 d1.val).drop m) := by decide

theorem cleanStr_of_infix {t T : Str} (h : t <:+: T) (hc : cleanStr T) :
    cleanStr t :=
  ⟨fun hx => hc.1 (hx.trans h), fun hx => hc.2 (hx.trans h)⟩

theorem no_ph_in_clean {ph t : Str} (hok : phOKp ph) (hc : cleanStr t) :
    ¬ ph <:+: t := by
  obtain ⟨b, d, hd, rfl⟩ := hok
  intro hinf
  rw [phStr_eq_phD b hd] at hinf
  cases b with
  | true =>
    have hpre : cbPre <+: phD true d := List.prefix_append cbPre _
    exact hc.1 (hpre.isInfix.trans hinf)
  | false =>
    have hpre : icPre <+: phD false d := List.prefix_append icPre _
    exact hc.2 (hpre.isInfix.trans hinf)

theorem phOKp_ne_nil {ph : Str} (h : phOKp ph) : ph ≠ [] := by
  obtain ⟨b, d, hd, rfl⟩ := h
  rw [phStr_eq_phD b hd]
  exact phD_ne_nil b d

theorem renderS_append : ∀ (a b : List SPiece),
    renderS (a ++ b) = renderS a ++ renderS b
  | [], b => rfl
  | .orig s :: r, b => by
    show s ++ renderS (r ++ b) = (s ++ renderS r) ++ renderS b
    rw [renderS_append r b, List.append_assoc]
  | .slot ph c :: r, b => by
    show ph ++ renderS (r ++ b) = (ph ++ renderS r) ++ renderS b
    rw [renderS_append r b, List.append_assoc]

theorem flattenS_append : ∀ (a b : List SPiece),
    flattenS (a ++ b) = flattenS a ++ flattenS b
  | [], b => rfl
  | .orig s :: r, b => by
    show s ++ flattenS (r ++ b) = (s ++ flattenS r) ++ flattenS b
    rw [flattenS_append r b, List.append_assoc]
  | .slot ph c :: r, b => by
    show c ++ flattenS (r ++ b) = (c ++ flattenS r) ++ flattenS b
    rw [flattenS_append r b, List.append_assoc]

theorem slotsOf_append : ∀ (a b : List SPiece),
    slotsOf (a ++ b) = slotsOf a ++ slotsOf b
  | [], b => rfl
  | .orig s :: r, b => by
    show slotsOf (r ++ b) = slotsOf r ++ slotsOf b
    exact slotsOf_append r b
  | .slot ph c :: r, b => by
    show (ph, c) :: slotsOf (r ++ b) = ((ph, c) :: slotsOf r) ++ slotsOf b
    rw [slotsOf_append r b]
    rfl

theorem suffix_drop_form {u x : Str} (h : u <:+ x) :
    ∃ m, m ≤ x.length ∧ u = x.drop m := by
  obtain ⟨t, rfl⟩ := h
  exact ⟨t.length, by simp, by rw [List.drop_left]⟩

theorem drop_append_le {a : Str} (b : Str) {i : Nat} (hi : i ≤ a.length) :
    (a ++ b).drop i = a.drop i ++ b := by
  rw [List.drop_append_eq_append_drop]
  have h0 : i - a.length = 0 := by omega
  rw [h0, List.drop_zero]

theorem prefix_append_short {w x y : Str} (h : w <+: x ++ y)
    (hl : w.length ≤ x.length) : w <+: x := by
  rcases prefix_append_cases h with h1 | ⟨v, rfl, _⟩
  · exact h1
  · have hv0 : v = [] := by
      rw [List.length_append] at hl
      have : v.length = 0 := by omega
      exact List.eq_nil_of_length_eq_zero this
    subst hv0
    simp

theorem ph_straddle_kill {ph ph2 : Str} (hok : phOKp ph) (hok2 : phOKp ph2)
    {u v : Str} (hphuv : ph = u ++ v) (hu : u ≠ []) (hv : v ≠ [])
    (R : Str) (hvpre : v <+: ph2 ++ R) : False := by
  obtain ⟨b, d, hd, rfl⟩ := hok
  obtain ⟨b2, d2, hd2, rfl⟩ := hok2
  rw [phStr_eq_phD b hd] at hphuv
  rw [phStr_eq_phD b2 hd2] at hvpre
  have hm0 : 0 < u.length := List.length_pos.mpr hu
  have hveq : v = (phD b d).drop u.length := by
    rw [hphuv, List.drop_left]
  have hmlen : u.length < (phD b d).length := by
    rw [hphuv, List.length_append]
    have : 0 < v.length := List.length_pos.mpr hv
    omega
  have hub : u.length < 15 :=
    Nat.lt_of_lt_of_le hmlen (phD_len_le b ⟨d, hd⟩)
  have hkd := KD2 b b2 ⟨d, hd⟩ ⟨d2, hd2⟩ u.length hub hm0 hmlen
  rcases prefix_append_cases hvpre with h1 | ⟨w, hw1, _⟩
  · exact hkd.1 (hveq ▸ h1)
  · have h2 : phD b2 d2 <+: v := hw1 ▸ List.prefix_append _ _
    exact hkd.2 (hveq ▸ h2)

theorem ph_slot_head_kill {ph ph2 : Str} (hok : phOKp ph) (hok2 : phOKp ph2)
    (hne : ph2 ≠ ph) {u v : Str} (hphuv : ph = u ++ v) (hu : u ≠ []) (hv : v ≠ [])
    (husuf : u <:+ ph2) : False := by
  obtain ⟨b, d, hd, rfl⟩ := hok
  obtain ⟨b2, d2, hd2, rfl⟩ := hok2
  rw [phStr_eq_phD b hd] at hphuv hne
  rw [phStr_eq_phD b2 hd2] at hne husuf
  obtain ⟨m, hmle, rfl⟩ := suffix_drop_form husuf
  by_cases hm0 : m = 0
  · subst hm0
    rw [List.drop_zero] at hphuv
    have hpre : phD b2 d2 <+: phD b d := hphuv ▸ List.prefix_append _ _
    obtain ⟨hb, hdeq⟩ := KD1 b2 b ⟨d2, hd2⟩ ⟨d, hd⟩ hpre.isInfix
    subst hb
    have hdv : d2 = d := by
      have := congrArg Fin.val hdeq
      simpa using this
    subst hdv
    have : v = [] := by
      have hlen := congrArg List.length hphuv
      rw [List.length_append] at hlen
      have : v.length = 0 := by omega
      exact List.eq_nil_of_length_eq_zero this
    exact hv this
  · have hmlt : m < (phD b2 d2).length := by
      by_contra hc
      exact hu (List.drop_eq_nil_iff.mpr (by omega))
    have hub : m < 15 := Nat.lt_of_lt_of_le hmlt (phD_len_le b2 ⟨d2, hd2⟩)
    have hupre : (phD b2 d2).drop m <+: phD b d := hphuv ▸ List.prefix_append _ _
    exact (KD2 b2 b ⟨d2, hd2⟩ ⟨d, hd⟩ m hub (Nat.pos_of_ne_zero hm0) hmlt).1 hupre

theorem ph_in_slot_kill {ph ph2 : Str} (hok : phOKp ph) (hok2 : phOKp ph2)
    (hne : ph2 ≠ ph) (h : ph <:+: ph2) : False := by
  obtain ⟨b, d, hd, rfl⟩ := hok
  obtain ⟨b2, d2, hd2, rfl⟩ := hok2
  rw [phStr_eq_phD b hd] at h hne
  rw [phStr_eq_phD b2 hd2] at h hne
  obtain ⟨hb, hdeq⟩ := KD1 b b2 ⟨d, hd⟩ ⟨d2, hd2⟩ h
  subst hb
  have hdv : d = d2 := by
    have := congrArg Fin.val hdeq
    simpa using this
  subst hdv
  exact hne rfl


theorem ni_render : ∀ (ss : List SPiece),
    cleanStr (flattenS ss) →
    (∀ pc ∈ slotsOf ss, phOKp pc.1) →
    ∀ ph, phOKp ph → (∀ pc ∈ slotsOf ss, pc.1 ≠ ph) →
    ¬ ph <:+: renderS ss
  | [] => by
    intro _ _ ph hok _ hinf
    have h0 : ph = [] := List.sublist_nil.mp hinf.sublist
    exact phOKp_ne_nil hok h0
  | [.orig s] => by
    intro hclean _ ph hok _ hinf
    have hinf2 : ph <:+: s ++ [] := hinf
    rw [List.append_nil] at hinf2
    have hcs : cleanStr s := by
      have hcl2 : cleanStr (s ++ []) := hclean
      rw [List.append_nil] at hcl2
      exact hcl2
    exact no_ph_in_clean hok hcs hinf2
  | .orig s :: .orig s2 :: rest2 => by
    intro hclean hslots ph hok hne hinf
    have hr : ph <:+: renderS (SPiece.orig (s ++ s2) :: rest2) := by
      have : renderS (SPiece.orig (s ++ s2) :: rest2) =
          s ++ (s2 ++ renderS rest2) := by
        show (s ++ s2) ++ renderS rest2 = s ++ (s2 ++ renderS rest2)
        rw [List.append_assoc]
      rw [this]
      exact hinf
    have hf : cleanStr (flattenS (SPiece.orig (s ++ s2) :: rest2)) := by
      have : flattenS (SPiece.orig (s ++ s2) :: rest2) =
          s ++ (s2 ++ flattenS rest2) := by
        show (s ++ s2) ++ flattenS rest2 = s ++ (s2 ++ flattenS rest2)
        rw [List.append_assoc]
      rw [this]
      exact hclean
    exact ni_render (SPiece.orig (s ++ s2) :: rest2) hf hslots ph hok hne hr
  | .orig s :: .slot ph2 c2 :: rest2 => by
    intro hclean hslots ph hok hne hinf
    have hinf2 : ph <:+: s ++ renderS (SPiece.slot ph2 c2 :: rest2) := hinf
    rcases infix_append_split hinf2 with h | h | ⟨u, v, hphuv, hu, hv, husuf, hvpre⟩
    · have hscl : cleanStr s :=
        cleanStr_of_infix
          (List.prefix_append s (flattenS (SPiece.slot ph2 c2 :: rest2))).isInfix
          hclean
      exact no_ph_in_clean hok hscl h
    · refine ni_render (SPiece.slot ph2 c2 :: rest2) ?_ hslots ph hok hne h
      exact cleanStr_of_infix (List.IsSuffix.isInfix ⟨s, rfl⟩) hclean
    · have hph2ok : phOKp ph2 := hslots (ph2, c2) (List.mem_cons_self _ _)
      have hvpre2 : v <+: ph2 ++ renderS rest2 := hvpre
      exact ph_straddle_kill hok hph2ok hphuv hu hv _ hvpre2
  | .slot ph2 c2 :: rest => by
    intro hclean hslots ph hok hne hinf
    have hph2ok : phOKp ph2 := hslots (ph2, c2) (List.mem_cons_self _ _)
    have hph2ne : ph2 ≠ ph := hne (ph2, c2) (List.mem_cons_self _ _)
    have hinf2 : ph <:+: ph2 ++ renderS rest := hinf
    rcases infix_append_split hinf2 with h | h | ⟨u, v, hphuv, hu, hv, husuf, hvpre⟩
    · exact ph_in_slot_kill hok hph2ok hph2ne h
    · refine ni_render rest ?_ ?_ ph hok ?_ h
      · exact cleanStr_of_infix (List.IsSuffix.isInfix ⟨c2, rfl⟩) hclean
      · intro pc hpc
        exact hslots pc (List.mem_cons_of_mem _ hpc)
      · intro pc hpc
        exact hne pc (List.mem_cons_of_mem _ hpc)
    · exact ph_slot_head_kill hok hph2ok hph2ne hphuv hu hv husuf
termination_by ss => ss.length
decreasing_by
  all_goals simp only [List.length_cons]
  all_goals omega


theorem render_eq_flatten_no_slots : ∀ (ss : List SPiece), slotsOf ss = [] →
    renderS ss = flattenS ss
  | [], _ => rfl
  | .orig s :: r, h => by
    show s ++ renderS r = s ++ flattenS r
    rw [render_eq_flatten_no_slots r h]
  | .slot ph c :: r, h => by
    have h2 : (ph, c) :: slotsOf r = [] := h
    exact absurd h2 (List.cons_ne_nil _ _)

theorem slots_mem_split : ∀ (ss : List SPiece) {ph c : Str},
    (ph, c) ∈ slotsOf ss → ∃ ss1 ss2, ss = ss1 ++ SPiece.slot ph c :: ss2
  | [], ph, c, h => absurd h (List.not_mem_nil _)
  | .orig s :: r, ph, c, h => by
    obtain ⟨ss1, ss2, rfl⟩ := slots_mem_split r h
    exact ⟨.orig s :: ss1, ss2, rfl⟩
  | .slot ph2 c2 :: r, ph, c, h => by
    have h2 : (ph, c) ∈ (ph2, c2) :: slotsOf r := h
    rcases List.mem_cons.mp h2 with heq | hmem
    · have h1 : ph = ph2 := congrArg Prod.fst heq
      have hc1 : c = c2 := congrArg Prod.snd heq
      subst h1
      subst hc1
      exact ⟨[], r, rfl⟩
    · obtain ⟨ss1, ss2, rfl⟩ := slots_mem_split r hmem
      exact ⟨.slot ph2 c2 :: ss1, ss2, rfl⟩

theorem fold_step_no_match {ph : Str} (hok : phOKp ph)
    (ss1 ss2 : List SPiece)
    (hclean1 : cleanStr (flattenS ss1))
    (hsl1 : ∀ pc ∈ slotsOf ss1, phOKp pc.1)
    (hne1 : ∀ pc ∈ slotsOf ss1, pc.1 ≠ ph) :
    ∀ i, i < (renderS ss1).length →
      ¬ ph <+: ((renderS ss1 ++ ph ++ renderS ss2).drop i) := by
  intro i hi hcon
  have hdrop : ((renderS ss1 ++ ph) ++ renderS ss2).drop i =
      (renderS ss1).drop i ++ (ph ++ renderS ss2) := by
    rw [List.append_assoc, drop_append_le _ (le_of_lt hi)]
  rw [hdrop] at hcon
  have hanil : (renderS ss1).drop i ≠ [] := by
    intro hc
    rw [List.drop_eq_nil_iff] at hc
    omega
  have hAsuf : (renderS ss1).drop i <:+ renderS ss1 := List.drop_suffix i _
  have hniA : ¬ ph <:+: renderS ss1 := ni_render ss1 hclean1 hsl1 ph hok hne1
  rcases prefix_append_cases hcon with h1 | ⟨w, hweq, hw⟩
  · exact hniA (h1.isInfix.trans hAsuf.isInfix)
  · by_cases hw0 : w = []
    · subst hw0
      rw [List.append_nil] at hweq
      exact hniA (hweq ▸ hAsuf.isInfix)
    · have hlw : w.length < ph.length := by
        have hl := congrArg List.length hweq
        rw [List.length_append] at hl
        have hpos : 0 < ((renderS ss1).drop i).length := List.length_pos.mpr hanil
        omega
      have hwph : w <+: ph := prefix_append_short hw (le_of_lt hlw)
      obtain ⟨b, d, hd, rfl⟩ := hok
      rw [phStr_eq_phD b hd] at hweq hwph
      have hwdrop : w = (phD b d).drop ((renderS ss1).drop i).length := by
        rw [hweq, List.drop_left]
      have hm0 : 0 < ((renderS ss1).drop i).length := List.length_pos.mpr hanil
      have hmlen : ((renderS ss1).drop i).length < (phD b d).length := by
        have hl := congrArg List.length hweq
        rw [List.length_append] at hl
        have hwpos : 0 < w.length := List.length_pos.mpr hw0
        omega
      have hm15 : ((renderS ss1).drop i).length < 15 :=
        Nat.lt_of_lt_of_le hmlen (phD_len_le b ⟨d, hd⟩)
      exact (KD2 b b ⟨d, hd⟩ ⟨d, hd⟩ _ hm15 hm0 hmlen).1 (hwdrop ▸ hwph)

theorem insDesc_perm (x : Str × Str) : ∀ (l : List (Str × Str)),
    List.Perm (insDesc x l) (x :: l)
  | [] => List.Perm.refl _
  | y :: ys => by
    rw [insDesc]
    by_cases h : y.1.length ≥ x.1.length
    · rw [if_pos h]
      exact (List.Perm.cons y (insDesc_perm x ys)).trans (List.Perm.swap x y ys)
    · rw [if_neg h]

theorem foldl_insDesc_perm : ∀ (l acc : List (Str × Str)),
    List.Perm (l.foldl (fun acc x => insDesc x acc) acc) (l ++ acc)
  | [], acc => by simp
  | x :: l, acc => by
    have h1 := foldl_insDesc_perm l (insDesc x acc)
    have h2 : List.Perm (l ++ insDesc x acc) (l ++ (x :: acc)) :=
      List.Perm.append_left l (insDesc_perm x acc)
    have h3 : List.Perm (l ++ x :: acc) (x :: (l ++ acc)) := List.perm_middle
    exact ((h1.trans h2).trans h3).trans (List.Perm.refl _)

theorem pySortLenDesc_perm (l : List (Str × Str)) :
    List.Perm (pySortLenDesc l) l := by
  have h := foldl_insDesc_perm l []
  rw [List.append_nil] at h
  exact h

theorem restore_fold : ∀ (items : List (Str × Str)) (ss : List SPiece),
    List.Perm (slotsOf ss) items →
    cleanStr (flattenS ss) →
    (∀ pc ∈ slotsOf ss, phOKp pc.1) →
    List.Pairwise (fun pc qd => pc.1 ≠ qd.1) (slotsOf ss) →
    items.foldl (fun t pc => pyReplace t pc.1 pc.2) (renderS ss) = flattenS ss
  | [], ss, hperm, hclean, _, _ => by
    have hnil : slotsOf ss = [] := List.Perm.eq_nil hperm
    simp only [List.foldl_nil]
    exact render_eq_flatten_no_slots ss hnil
  | (ph, c) :: rest, ss, hperm, hclean, hok, hpw => by
    have hmem : (ph, c) ∈ slotsOf ss := hperm.symm.subset (List.mem_cons_self _ _)
    obtain ⟨ss1, ss2, rfl⟩ := slots_mem_split ss hmem
    have hphok : phOKp ph := hok (ph, c) hmem
    have hslots_eq : slotsOf (ss1 ++ SPiece.slot ph c :: ss2) =
        slotsOf ss1 ++ (ph, c) :: slotsOf ss2 := by
      rw [slotsOf_append]
      rfl
    have hflat : flattenS (ss1 ++ SPiece.slot ph c :: ss2) =
        flattenS ss1 ++ (c ++ flattenS ss2) := by
      rw [flattenS_append]
      rfl
    have hrender : renderS (ss1 ++ SPiece.slot ph c :: ss2) =
        renderS ss1 ++ (ph ++ renderS ss2) := by
      rw [renderS_append]
      rfl
    rw [hslots_eq] at hok hpw hperm
    have hpw_parts := List.pairwise_append.mp hpw
    have hclean1 : cleanStr (flattenS ss1) := by
      rw [hflat] at hclean
      exact cleanStr_of_infix (List.prefix_append _ _).isInfix hclean
    have hclean2 : cleanStr (flattenS ss2) := by
      rw [hflat] at hclean
      refine cleanStr_of_infix (List.IsSuffix.isInfix ?_) hclean
      exact ⟨flattenS ss1 ++ c, by rw [List.append_assoc]⟩
    have hsl1 : ∀ pc ∈ slotsOf ss1, phOKp pc.1 := fun pc hpc =>
      hok pc (List.mem_append.mpr (Or.inl hpc))
    have hsl2 : ∀ pc ∈ slotsOf ss2, phOKp pc.1 := fun pc hpc =>
      hok pc (List.mem_append.mpr (Or.inr (List.mem_cons_of_mem _ hpc)))
    have hne1 : ∀ pc ∈ slotsOf ss1, pc.1 ≠ ph := fun pc hpc =>
      hpw_parts.2.2 pc hpc (ph, c) (List.mem_cons_self _ _)
    have hne2 : ∀ pc ∈ slotsOf ss2, pc.1 ≠ ph := fun pc hpc =>
      ((List.pairwise_cons.mp hpw_parts.2.1).1 pc hpc).symm
    have hni2 : ¬ ph <:+: renderS ss2 := ni_render ss2 hclean2 hsl2 ph hphok hne2
    have hphne : ph ≠ [] := phOKp_ne_nil hphok
    have hstep : pyReplace (renderS ss1 ++ ph ++ renderS ss2) ph c =
        renderS ss1 ++ c ++ renderS ss2 := by
      rw [pyReplace_step c hphne (renderS ss1) (renderS ss2)
        (fold_step_no_match hphok ss1 ss2 hclean1 hsl1 hne1),
        pyReplace_no_inf c hphne hni2]
    rw [List.foldl_cons]
    have hnewrender : pyReplace (renderS (ss1 ++ SPiece.slot ph c :: ss2)) ph c =
        renderS (ss1 ++ SPiece.orig c :: ss2) := by
      rw [hrender, ← List.append_assoc, hstep, renderS_append]
      show renderS ss1 ++ c ++ renderS ss2 = renderS ss1 ++ (c ++ renderS ss2)
      rw [List.append_assoc]
    rw [hnewrender]
    have heq2 : flattenS (ss1 ++ SPiece.orig c :: ss2) =
        flattenS (ss1 ++ SPiece.slot ph c :: ss2) := by
      rw [flattenS_append, flattenS_append]
      rfl
    rw [← heq2]
    have hperm2 : List.Perm (slotsOf (ss1 ++ SPiece.orig c :: ss2)) rest := by
      rw [slotsOf_append]
      show List.Perm (slotsOf ss1 ++ slotsOf ss2) rest
      have h1 : List.Perm ((ph, c) :: (slotsOf ss1 ++ slotsOf ss2)) ((ph, c) :: rest) :=
        (List.perm_middle.symm).trans hperm
      exact List.Perm.cons_inv h1
    have hclean' : cleanStr (flattenS (ss1 ++ SPiece.orig c :: ss2)) := by
      rw [heq2]
      exact hclean
    have hok' : ∀ pc ∈ slotsOf (ss1 ++ SPiece.orig c :: ss2), phOKp pc.1 := by
      intro pc hpc
      rw [slotsOf_append] at hpc
      have hpc2 : pc ∈ slotsOf ss1 ++ slotsOf ss2 := hpc
      rcases List.mem_append.mp hpc2 with h | h
      · exact hsl1 pc h
      · exact hsl2 pc h
    have hpw' : List.Pairwise (fun pc qd => pc.1 ≠ qd.1)
        (slotsOf (ss1 ++ SPiece.orig c :: ss2)) := by
      rw [slotsOf_append]
      show List.Pairwise _ (slotsOf ss1 ++ slotsOf ss2)
      exact hpw.sublist
        (List.Sublist.append_left (List.sublist_cons_self _ _) _)
    exact restore_fold rest (ss1 ++ SPiece.orig c :: ss2) hperm2 hclean' hok' hpw'


theorem vJJ_infix_transfer : ∀ (s q : Str), q ≠ [] →
    (∀ c ∈ q, c ∉ janeS ∧ c ∉ jamesS) → q <:+: vJJ s → q <:+: s
  | [], q => by
    intro hq _ h
    rw [vJJ_nil] at h
    exact absurd (List.sublist_nil.mp h.sublist) hq
  | c :: cs, q => by
    intro hq hdisj h
    cases h1 : charVar.isPrefixOf (c :: cs) with
    | true =>
      rw [vJJ_char_eq c cs h1] at h
      rcases infix_append_split h with hj | hrest | ⟨u, v, hquv, hu, hv, husuf, hvpre⟩
      · obtain ⟨a, ha⟩ := List.exists_mem_of_ne_nil q hq
        exact absurd (hj.subset ha) (hdisj a ha).1
      · have hrec := vJJ_infix_transfer ((c :: cs).drop 8) q hq hdisj hrest
        exact infix_of_infix_drop 8 hrec
      · obtain ⟨a, ha⟩ := List.exists_mem_of_ne_nil u hu
        have haj : a ∈ janeS := husuf.subset ha
        have haq : a ∈ q := by
          rw [hquv]
          exact List.mem_append.mpr (Or.inl ha)
        exact absurd haj (hdisj a haq).1
    | false =>
      cases h2 : userVar.isPrefixOf (c :: cs) with
      | true =>
        rw [vJJ_user_eq c cs h1 h2] at h
        rcases infix_append_split h with hj | hrest | ⟨u, v, hquv, hu, hv, husuf, hvpre⟩
        · obtain ⟨a, ha⟩ := List.exists_mem_of_ne_nil q hq
          exact absurd (hj.subset ha) (hdisj a ha).2
        · have hrec := vJJ_infix_transfer ((c :: cs).drop 8) q hq hdisj hrest
          exact infix_of_infix_drop 8 hrec
        · obtain ⟨a, ha⟩ := List.exists_mem_of_ne_nil u hu
          have haj : a ∈ jamesS := husuf.subset ha
          have haq : a ∈ q := by
            rw [hquv]
            exact List.mem_append.mpr (Or.inl ha)
          exact absurd haj (hdisj a haq).2
      | false =>
        rw [vJJ_txt_eq c cs h1 h2] at h
        rcases List.infix_cons_iff.mp h with hpre | hinf
        · have hpre2 : q <+: vJJ (c :: cs) := by
            rw [vJJ_txt_eq c cs h1 h2]
            exact hpre
          have hJ : 'J' ∉ q := fun hc => (hdisj 'J' hc).1 (by decide)
          exact (vJJ_prefix_transfer (c :: cs) q hJ hpre2).isInfix
        · exact List.infix_cons (vJJ_infix_transfer cs q hq hdisj hinf)
termination_by s => s.length
decreasing_by
  all_goals simp only [List.length_drop, List.length_cons]
  all_goals omega

theorem renderS_piecesOf : ∀ (segs : List Seg) (total seen : Nat),
    renderS (piecesOf total segs seen) = shieldSegs total segs seen
  | [], _, _ => rfl
  | .plain s :: r, total, seen => by
    show s ++ renderS (piecesOf total r seen) = s ++ shieldSegs total r seen
    rw [renderS_piecesOf r total seen]
  | .code c blk :: r, total, seen => by
    show phStr blk (total - 1 - seen) ++ renderS (piecesOf total r (seen + 1)) =
      phStr blk (total - 1 - seen) ++ shieldSegs total r (seen + 1)
    rw [renderS_piecesOf r total (seen + 1)]

theorem flattenS_piecesOf : ∀ (segs : List Seg) (total seen : Nat),
    flattenS (piecesOf total segs seen) = segsText segs
  | [], _, _ => rfl
  | .plain s :: r, total, seen => by
    show s ++ flattenS (piecesOf total r seen) = s ++ segsText r
    rw [flattenS_piecesOf r total seen]
  | .code c blk :: r, total, seen => by
    show c ++ flattenS (piecesOf total r (seen + 1)) = c ++ segsText r
    rw [flattenS_piecesOf r total (seen + 1)]

theorem slotsOf_piecesOf : ∀ (segs : List Seg) (total seen : Nat),
    slotsOf (piecesOf total segs seen) = pairsOf total segs seen
  | [], _, _ => rfl
  | .plain s :: r, total, seen => slotsOf_piecesOf r total seen
  | .code c blk :: r, total, seen => by
    show (phStr blk (total - 1 - seen), c) :: slotsOf (piecesOf total r (seen + 1)) =
      (phStr blk (total - 1 - seen), c) :: pairsOf total r (seen + 1)
    rw [slotsOf_piecesOf r total (seen + 1)]

theorem codeSegs_nil : codeSegs [] = [] := by
  rw [codeSegs.eq_def]

theorem codeSegs_triple (c : Char) (cs : Str) (hn : tripleLen (c :: cs) ≠ 0) :
    codeSegs (c :: cs) = .code ((c :: cs).take (tripleLen (c :: cs))) true ::
      codeSegs ((c :: cs).drop (tripleLen (c :: cs))) := by
  rw [codeSegs.eq_def]
  simp only [hn]
  rw [dif_pos hn]

theorem codeSegs_inline (c : Char) (cs : Str) (hn : tripleLen (c :: cs) = 0)
    (hm : inlineLen (c :: cs) ≠ 0) :
    codeSegs (c :: cs) = .code ((c :: cs).take (inlineLen (c :: cs))) false ::
      codeSegs ((c :: cs).drop (inlineLen (c :: cs))) := by
  rw [codeSegs.eq_def]
  simp only [hn]
  rw [dif_neg (by simp), dif_pos hm]

theorem codeSegs_plain (c : Char) (cs : Str) (hn : tripleLen (c :: cs) = 0)
    (hm : inlineLen (c :: cs) = 0) :
    codeSegs (c :: cs) = .plain [c] :: codeSegs cs := by
  rw [codeSegs.eq_def]
  simp only [hn, hm]
  rw [dif_neg (by simp), dif_neg (by simp)]

theorem segsText_codeSegs : ∀ (s : Str), segsText (codeSegs s) = s
  | [] => by rw [codeSegs_nil]; rfl
  | c :: cs => by
    by_cases hn : tripleLen (c :: cs) = 0
    · by_cases hm : inlineLen (c :: cs) = 0
      · rw [codeSegs_plain c cs hn hm]
        show [c] ++ segsText (codeSegs cs) = c :: cs
        rw [segsText_codeSegs cs]
        rfl
      · rw [codeSegs_inline c cs hn hm]
        show (c :: cs).take (inlineLen (c :: cs)) ++
          segsText (codeSegs ((c :: cs).drop (inlineLen (c :: cs)))) = c :: cs
        rw [segsText_codeSegs ((c :: cs).drop (inlineLen (c :: cs)))]
        exact List.take_append_drop _ _
    · rw [codeSegs_triple c cs hn]
      show (c :: cs).take (tripleLen (c :: cs)) ++
        segsText (codeSegs ((c :: cs).drop (tripleLen (c :: cs)))) = c :: cs
      rw [segsText_codeSegs ((c :: cs).drop (tripleLen (c :: cs)))]
      exact List.take_append_drop _ _
termination_by s => s.length
decreasing_by
  all_goals simp only [List.length_drop, List.length_cons]
  all_goals omega

theorem codeCount_foldl_shift : ∀ (segs : List Seg) (n : Nat),
    segs.foldl (fun k sg => match sg with | .code _ _ => k + 1 | _ => k) n =
      n + codeCount segs
  | [], n => by simp [codeCount]
  | .plain s :: r, n => codeCount_foldl_shift r n
  | .code s b :: r, n => by
    show r.foldl _ (n + 1) = n + codeCount (Seg.code s b :: r)
    rw [codeCount_foldl_shift r (n + 1),
      show codeCount (Seg.code s b :: r) = 1 + codeCount r from codeCount_foldl_shift r 1]
    omega

theorem codeCount_cons_code (s : Str) (b : Bool) (r : List Seg) :
    codeCount (Seg.code s b :: r) = codeCount r + 1 := by
  rw [show codeCount (Seg.code s b :: r) = 1 + codeCount r from codeCount_foldl_shift r 1]
  omega

theorem pairsOf_mem : ∀ (segs : List Seg) (total seen : Nat) (pc : Str × Str),
    pc ∈ pairsOf total segs seen →
    ∃ blk k, seen ≤ k ∧ k < seen + codeCount segs ∧ pc.1 = phStr blk (total - 1 - k)
  | [], _, _, pc, h => absurd h (List.not_mem_nil _)
  | .plain s :: r, total, seen, pc, h => pairsOf_mem r total seen pc h
  | .code cc blk2 :: r, total, seen, pc, h => by
    have h2 : pc ∈ (phStr blk2 (total - 1 - seen), cc) :: pairsOf total r (seen + 1) := h
    have hcc := codeCount_cons_code cc blk2 r
    rcases List.mem_cons.mp h2 with heq | hmem
    · exact ⟨blk2, seen, le_refl _, by omega, by rw [heq]⟩
    · obtain ⟨blk, k, h1, h2', h3⟩ := pairsOf_mem r total (seen + 1) pc hmem
      exact ⟨blk, k, by omega, by omega, h3⟩

theorem pairsOf_phOK (segs : List Seg) (total seen : Nat) (htot : total ≤ 10) :
    ∀ pc ∈ pairsOf total segs seen, phOKp pc.1 := by
  intro pc hpc
  obtain ⟨blk, k, _, _, h3⟩ := pairsOf_mem segs total seen pc hpc
  exact ⟨blk, total - 1 - k, by omega, h3⟩

theorem pairsOf_pairwise : ∀ (segs : List Seg) (total seen : Nat), total ≤ 10 →
    seen + codeCount segs ≤ total →
    List.Pairwise (fun pc qd => pc.1 ≠ qd.1) (pairsOf total segs seen)
  | [], _, _, _, _ => List.Pairwise.nil
  | .plain s :: r, total, seen, htot, h => pairsOf_pairwise r total seen htot h
  | .code cc blk2 :: r, total, seen, htot, h => by
    have hcc := codeCount_cons_code cc blk2 r
    show List.Pairwise _ ((phStr blk2 (total - 1 - seen), cc) :: pairsOf total r (seen + 1))
    refine List.pairwise_cons.mpr ⟨?_, pairsOf_pairwise r total (seen + 1) htot (by omega)⟩
    intro qd hqd
    obtain ⟨blk, k, hk1, hk2, h3⟩ := pairsOf_mem r total (seen + 1) qd hqd
    rw [h3]
    intro hcon
    have hd2 : total - 1 - seen < 10 := by omega
    have hd : total - 1 - k < 10 := by omega
    rw [phStr_eq_phD blk2 hd2, phStr_eq_phD blk hd] at hcon
    have hkd := KD1 blk2 blk ⟨total - 1 - seen, hd2⟩ ⟨total - 1 - k, hd⟩
      (hcon ▸ List.infix_rfl)
    have hv := congrArg Fin.val hkd.2
    simp only [] at hv
    have hseen : seen < total := by omega
    have hktot : k < total := by omega
    have : total - 1 - seen = total - 1 - k := hv
    omega


theorem engine_fold_core (t1 : Str) (hclean : cleanStr t1)
    (hcount : codeCount (codeSegs t1) ≤ 10) :
    (pySortLenDesc ((pairsOf (codeCount (codeSegs t1)) (codeSegs t1) 0).reverse)).foldl
      (fun t pc => pyReplace t pc.1 pc.2)
      (shieldSegs (codeCount (codeSegs t1)) (codeSegs t1) 0) = t1 := by
  have hslots := slotsOf_piecesOf (codeSegs t1) (codeCount (codeSegs t1)) 0
  have hflat : flattenS (piecesOf (codeCount (codeSegs t1)) (codeSegs t1) 0) = t1 := by
    rw [flattenS_piecesOf, segsText_codeSegs]
  have hperm : List.Perm
      (slotsOf (piecesOf (codeCount (codeSegs t1)) (codeSegs t1) 0))
      (pySortLenDesc ((pairsOf (codeCount (codeSegs t1)) (codeSegs t1) 0).reverse)) := by
    rw [hslots]
    exact ((pySortLenDesc_perm _).trans (List.reverse_perm _)).symm
  have hok : ∀ pc ∈ slotsOf (piecesOf (codeCount (codeSegs t1)) (codeSegs t1) 0),
      phOKp pc.1 := by
    rw [hslots]
    exact pairsOf_phOK _ _ 0 hcount
  have hpw : List.Pairwise (fun pc qd => pc.1 ≠ qd.1)
      (slotsOf (piecesOf (codeCount (codeSegs t1)) (codeSegs t1) 0)) := by
    rw [hslots]
    exact pairsOf_pairwise _ _ 0 hcount (by omega)
  have hres := restore_fold _ _ hperm (by rw [hflat]; exact hclean) hok hpw
  rw [renderS_piecesOf, hflat] at hres
  exact hres

theorem engineExtract_eq (text : Str) :
    engineExtract text =
      (shieldSegs (codeCount (codeSegs (vJJ text))) (codeSegs (vJJ text)) 0,
       (pairsOf (codeCount (codeSegs (vJJ text))) (codeSegs (vJJ text)) 0).reverse) := by
  simp only [engineExtract]
  rw [pyReplace_charVar, pyReplace_userVar]

theorem vJJ_chars : ∀ (s : Str) (c : Char), c ∈ vJJ s →
    c ∈ s ∨ c ∈ janeS ∨ c ∈ jamesS
  | [], c, h => by
    rw [vJJ_nil] at h
    exact absurd h (List.not_mem_nil c)
  | x :: cs, c, h => by
    cases h1 : charVar.isPrefixOf (x :: cs) with
    | true =>
      rw [vJJ_char_eq x cs h1] at h
      rcases List.mem_append.mp h with h | h
      · exact Or.inr (Or.inl h)
      · rcases vJJ_chars ((x :: cs).drop 8) c h with h | h | h
        · exact Or.inl (List.drop_subset _ _ h)
        · exact Or.inr (Or.inl h)
        · exact Or.inr (Or.inr h)
    | false =>
      cases h2 : userVar.isPrefixOf (x :: cs) with
      | true =>
        rw [vJJ_user_eq x cs h1 h2] at h
        rcases List.mem_append.mp h with h | h
        · exact Or.inr (Or.inr h)
        · rcases vJJ_chars ((x :: cs).drop 8) c h with h | h | h
          · exact Or.inl (List.drop_subset _ _ h)
          · exact Or.inr (Or.inl h)
          · exact Or.inr (Or.inr h)
      | false =>
        rw [vJJ_txt_eq x cs h1 h2] at h
        rcases List.mem_cons.mp h with h | h
        · exact Or.inl (by rw [h]; exact List.mem_cons_self x cs)
        · rcases vJJ_chars cs c h with h | h | h
          · exact Or.inl (List.mem_cons_of_mem x h)
          · exact Or.inr (Or.inl h)
          · exact Or.inr (Or.inr h)
termination_by s => s.length
decreasing_by
  all_goals simp only [List.length_drop, List.length_cons]
  all_goals omega

theorem codeSegs_no_bq : ∀ (s : Str), (∀ c ∈ s, c ≠ bq) →
    codeSegs s = s.map (fun c => Seg.plain [c])
  | [], _ => by rw [codeSegs_nil]; rfl
  | c :: cs, h => by
    have hc : c ≠ bq := h c (List.mem_cons_self c cs)
    have hpre : tbt.isPrefixOf (c :: cs) = false := by
      by_contra hcon
      have hp : tbt <+: c :: cs :=
        (List.isPrefixOf_iff_prefix).mp (by simpa using hcon)
      obtain ⟨t, ht⟩ := hp
      rw [show tbt = bq :: [bq, bq] from rfl] at ht
      simp only [List.cons_append, List.cons.injEq] at ht
      exact hc ht.1.symm
    have hn : tripleLen (c :: cs) = 0 := by
      simp only [tripleLen]
      rw [hpre]
      rfl
    have hm : inlineLen (c :: cs) = 0 := by
      simp only [inlineLen]
      rw [if_neg hc]
    rw [codeSegs_plain c cs hn hm,
      codeSegs_no_bq cs (fun x hx => h x (List.mem_cons_of_mem c hx))]
    rfl

theorem codeCount_map_plain : ∀ (s : Str),
    codeCount (s.map (fun c => Seg.plain [c])) = 0
  | [] => rfl
  | _ :: cs => codeCount_map_plain cs

theorem pairsOf_map_plain : ∀ (s : Str) (total seen : Nat),
    pairsOf total (s.map (fun c => Seg.plain [c])) seen = []
  | [], _, _ => rfl
  | _ :: cs, total, seen => pairsOf_map_plain cs total seen

theorem shieldSegs_map_plain : ∀ (s : Str) (total seen : Nat),
    shieldSegs total (s.map (fun c => Seg.plain [c])) seen = s
  | [], _, _ => rfl
  | c :: cs, total, seen => by
    show [c] ++ shieldSegs total (cs.map _) seen = c :: cs
    rw [shieldSegs_map_plain cs total seen]
    rfl

/-- Claim C1 counterexample input: the text `"James"` contains the stand-in
name for the user variable; extraction protects nothing, but restoration
replaces the literal `James` by the template variable, so the
extract/restore roundtrip does not reconstruct the input. -/
theorem engine_roundtrip_cex :
    engineRestore (engineExtract jamesS).1 (engineExtract jamesS).2 ≠ jamesS := by
  have hvjj : vJJ jamesS = jamesS := by
    have e1 : pyReplace jamesS charVar janeS = jamesS :=
      pyReplace_no_inf janeS (by decide) (by decide)
    have e2 : vC jamesS = jamesS := by
      rw [← pyReplace_charVar]
      exact e1
    have e3 : vJJ jamesS = pyReplace (vC jamesS) userVar jamesS :=
      (pyReplace_userVar jamesS).symm
    rw [e3, e2]
    exact pyReplace_no_inf jamesS (by decide) (by decide)
  have hsegs : codeSegs (vJJ jamesS) = jamesS.map (fun c => Seg.plain [c]) := by
    rw [hvjj]
    exact codeSegs_no_bq jamesS (by decide)
  have hext : engineExtract jamesS = (jamesS, []) := by
    rw [engineExtract_eq jamesS, hsegs, codeCount_map_plain, pairsOf_map_plain,
      shieldSegs_map_plain]
    rfl
  rw [hext]
  show pyReplace (pyReplace jamesS janeS charVar) jamesS userVar ≠ jamesS
  have e4 : pyReplace jamesS janeS charVar = jamesS :=
    pyReplace_no_inf charVar (by decide) (by decide)
  have e5 : pyReplace jamesS jamesS userVar = userVar := by
    have hstep := @pyReplace_step jamesS userVar (by decide) [] []
      (by intro i hi; simp at hi)
    simpa [pyReplace_nil] using hstep
  rw [e4, e5]
  decide

/-- Claim C1 (amended): the extract/restore roundtrip of
`_extract_and_protect` / `_restore_protected` reconstructs the original
text exactly provided the text contains neither of the stand-in names
`Jane` / `James` nor either placeholder prefix, and at most ten code spans
are protected (so that every placeholder keeps a single digit); the
unconditional roundtrip of the specification fails on texts containing a
stand-in name, such as `"James"`. -/
theorem engine_roundtrip_amended (text : Str)
    (h1 : hasSub janeS text = false) (h2 : hasSub jamesS text = false)
    (h3 : hasSub cbPre text = false) (h4 : hasSub icPre text = false)
    (h5 : codeCount (codeSegs (vJJ text)) ≤ 10) :
    engineRestore (engineExtract text).1 (engineExtract text).2 = text := by
  have hj : ¬ janeS <:+: text := by
    simp only [hasSub] at h1
    exact of_decide_eq_false h1
  have hm : ¬ jamesS <:+: text := by
    simp only [hasSub] at h2
    exact of_decide_eq_false h2
  have hcb : ¬ cbPre <:+: text := by
    simp only [hasSub] at h3
    exact of_decide_eq_false h3
  have hic : ¬ icPre <:+: text := by
    simp only [hasSub] at h4
    exact of_decide_eq_false h4
  have hclean : cleanStr (vJJ text) := by
    constructor
    · intro hc
      exact hcb (vJJ_infix_transfer text cbPre (by decide) (by decide) hc)
    · intro hc
      exact hic (vJJ_infix_transfer text icPre (by decide) (by decide) hc)
  rw [engineExtract_eq]
  show pyReplace (pyReplace
    ((pySortLenDesc ((pairsOf (codeCount (codeSegs (vJJ text))) (codeSegs (vJJ text)) 0).reverse)).foldl
      (fun t pc => pyReplace t pc.1 pc.2)
      (shieldSegs (codeCount (codeSegs (vJJ text))) (codeSegs (vJJ text)) 0))
    janeS charVar) jamesS userVar = text
  rw [engine_fold_core (vJJ text) hclean h5,
    pyReplace_restore_jane text hj, pyReplace_restore_james text hm]

/-- Witness for C1: the text `"hi {{user}} ok"` satisfies all hypotheses
and survives the roundtrip. -/
theorem engine_roundtrip_amended_witness :
    hasSub janeS "hi \x7b\x7buser\x7d\x7d ok".toList = false ∧
    hasSub jamesS "hi \x7b\x7buser\x7d\x7d ok".toList = false ∧
    hasSub cbPre "hi \x7b\x7buser\x7d\x7d ok".toList = false ∧
    hasSub icPre "hi \x7b\x7buser\x7d\x7d ok".toList = false ∧
    codeCount (codeSegs (vJJ "hi \x7b\x7buser\x7d\x7d ok".toList)) ≤ 10 ∧
    engineRestore (engineExtract "hi \x7b\x7buser\x7d\x7d ok".toList).1
      (engineExtract "hi \x7b\x7buser\x7d\x7d ok".toList).2 =
      "hi \x7b\x7buser\x7d\x7d ok".toList := by
  have hcount : codeCount (codeSegs (vJJ "hi \x7b\x7buser\x7d\x7d ok".toList)) = 0 := by
    rw [codeSegs_no_bq _ ?_, codeCount_map_plain]
    intro c hc
    rcases vJJ_chars _ c hc with h | h | h
    · exact (by decide : ∀ x ∈ "hi \x7b\x7buser\x7d\x7d ok".toList, x ≠ bq) c h
    · exact (by decide : ∀ x ∈ janeS, x ≠ bq) c h
    · exact (by decide : ∀ x ∈ jamesS, x ≠ bq) c h
  exact ⟨by decide, by decide, by decide, by decide, by rw [hcount]; decide,
    engine_roundtrip_amended _ (by decide) (by decide) (by decide) (by decide)
      (by rw [hcount]; decide)⟩


theorem isSpc_not_P1 {c : Char} (h : isSpc c = true) : isP1 c = false := by
  simp only [isSpc, Bool.or_eq_true, decide_eq_true_eq] at h
  rcases h with ((((h | h) | h) | h) | h) | h <;> subst h <;> decide

theorem isSpc_not_P2 {c : Char} (h : isSpc c = true) : isP2 c = false := by
  simp only [isSpc, Bool.or_eq_true, decide_eq_true_eq] at h
  rcases h with ((((h | h) | h) | h) | h) | h <;> subst h <;> decide

theorem isP1_not_spc {c : Char} (h : isP1 c = true) : isSpc c = false := by
  simp only [isP1, Bool.or_eq_true, decide_eq_true_eq] at h
  rcases h with ((h | h) | h) | h <;> subst h <;> decide

theorem isP2_not_spc {c : Char} (h : isP2 c = true) : isSpc c = false := by
  simp only [isP2, Bool.or_eq_true, decide_eq_true_eq] at h
  rcases h with (h | h) | h <;> subst h <;> decide

theorem isP1_not_exclE {c : Char} (h : isP1 c = true) : exclE c = false := by
  simp only [isP1, Bool.or_eq_true, decide_eq_true_eq] at h
  rcases h with ((h | h) | h) | h <;> subst h <;> decide

theorem isSpc_exclE {c : Char} (h : isSpc c = true) : exclE c = true := by
  simp only [exclE, h, Bool.true_or]

theorem collapseSp_nil : collapseSp [] = [] := by
  rw [collapseSp.eq_def]

theorem collapseSp_cons_sp (cs : Str) :
    collapseSp (' ' :: cs) = ' ' :: collapseSp (cs.dropWhile (fun x => x = ' ')) := by
  rw [collapseSp.eq_def]
  simp

theorem collapseSp_cons {c : Char} (cs : Str) (h : ¬ c = ' ') :
    collapseSp (c :: cs) = c :: collapseSp cs := by
  rw [collapseSp.eq_def]
  simp [h]

theorem collapseSp_id : ∀ (t : Str), noDupSp t = true → collapseSp t = t
  | [], _ => collapseSp_nil
  | [c], _ => by
    by_cases h : c = ' '
    · subst h
      rw [collapseSp_cons_sp]
      simp [collapseSp_nil]
    · rw [collapseSp_cons [] h, collapseSp_nil]
  | c :: d :: r, hnd => by
    simp only [noDupSp, Bool.and_eq_true, Bool.not_eq_true', Bool.and_eq_false_iff,
      beq_eq_false_iff_ne, ne_eq] at hnd
    by_cases hc : c = ' '
    · subst hc
      have hd : ¬ d = ' ' := by
        rcases hnd.1 with h | h
        · exact absurd rfl h
        · exact h
      rw [collapseSp_cons_sp, List.dropWhile_cons_of_neg (by simpa using hd)]
      rw [collapseSp_id (d :: r) hnd.2]
    · rw [collapseSp_cons (d :: r) hc, collapseSp_id (d :: r) hnd.2]

theorem capAfterAux_id : ∀ (st : Nat) (t : Str), capOK st t = true →
    capAfterAux st t = t
  | _, [], _ => rfl
  | st, c :: cs, h => by
    simp only [capOK, Bool.and_eq_true, Bool.not_eq_true'] at h
    show (if st = 2 && isLow c then upChar c else c) :: capAfterAux (capStep st c) cs =
      c :: cs
    rw [if_neg (by rw [h.1]; exact Bool.false_ne_true), capAfterAux_id (capStep st c) cs h.2]

theorem dropWhile_eq_self_of_head {p : Char → Bool} : ∀ (t : Str),
    (match t.head? with | some c => !p c | none => true) = true → t.dropWhile p = t
  | [], _ => rfl
  | c :: cs, h => by
    simp only [List.head?, Bool.not_eq_true'] at h
    rw [List.dropWhile_cons_of_neg (by rw [h]; exact Bool.false_ne_true)]

theorem pyStrip_id (t : Str) (h : strippedB t = true) : pyStrip t = t := by
  simp only [strippedB, Bool.and_eq_true] at h
  rw [pyStrip, dropWhile_eq_self_of_head t h.1, dropWhile_eq_self_of_head t.reverse
    (by rw [List.head?_reverse]; exact h.2), List.reverse_reverse]

theorem delRB_nil (P : Char → Bool) : delRunBefore P [] = [] := by
  rw [delRunBefore.eq_def]

theorem delRB_cons (P : Char → Bool) {c : Char} (cs : Str) (h : isSpc c = false) :
    delRunBefore P (c :: cs) = c :: delRunBefore P cs := by
  rw [delRunBefore.eq_def]
  simp [h]

theorem delRB_sp (P : Char → Bool) {c : Char} (cs : Str) (h : isSpc c = true) :
    delRunBefore P (c :: cs) =
      (match (c :: cs).dropWhile isSpc with
       | d :: _ => if P d then [] else (c :: cs).takeWhile isSpc
       | [] => (c :: cs).takeWhile isSpc) ++
        delRunBefore P ((c :: cs).dropWhile isSpc) := by
  rw [delRunBefore.eq_def]
  simp only [h, if_true]


theorem delRB_keep (P : Char → Bool) : ∀ (cs : Str) (c : Char), isSpc c = true →
    (match cs.dropWhile isSpc with
     | e :: _ => P e = false
     | [] => True) →
    delRunBefore P (c :: cs) = c :: delRunBefore P cs := by
  intro cs c hc hcond
  cases cs with
  | nil =>
    rw [delRB_sp P [] hc, delRB_nil]
    simp [List.dropWhile_cons_of_pos hc, List.takeWhile_cons_of_pos hc, delRB_nil]
  | cons c2 cs2 =>
    cases h2 : isSpc c2 with
    | true =>
      rw [delRB_sp P (c2 :: cs2) hc, delRB_sp P cs2 h2]
      have hdrop : (c :: c2 :: cs2).dropWhile isSpc = (c2 :: cs2).dropWhile isSpc := by
        rw [List.dropWhile_cons_of_pos hc]
      have htake : (c :: c2 :: cs2).takeWhile isSpc = c :: (c2 :: cs2).takeWhile isSpc := by
        rw [List.takeWhile_cons_of_pos hc]
      rw [hdrop]
      rw [htake]
      simp only [List.dropWhile_cons_of_pos h2] at hcond ⊢
      match hm : cs2.dropWhile isSpc with
      | [] => simp
      | e :: rest2 =>
        rw [hm] at hcond
        have hPe : P e = false := hcond
        have hPe2 : ¬ P e = true := by rw [hPe]; exact Bool.false_ne_true
        dsimp only
        rw [if_neg hPe2, if_neg hPe2]
        simp
    | false =>
      have hdrop : (c2 :: cs2).dropWhile isSpc = c2 :: cs2 :=
        List.dropWhile_cons_of_neg (by rw [h2]; exact Bool.false_ne_true)
      rw [hdrop] at hcond
      have hPc2 : P c2 = false := hcond
      rw [delRB_sp P (c2 :: cs2) hc]
      have hdrop2 : (c :: c2 :: cs2).dropWhile isSpc = c2 :: cs2 := by
        rw [List.dropWhile_cons_of_pos hc, hdrop]
      have htake2 : (c :: c2 :: cs2).takeWhile isSpc = [c] := by
        rw [List.takeWhile_cons_of_pos hc,
          List.takeWhile_cons_of_neg (by rw [h2]; exact Bool.false_ne_true)]
      rw [hdrop2, htake2]
      dsimp only
      rw [if_neg (by rw [hPc2]; exact Bool.false_ne_true)]
      simp

theorem delRB_site (P : Char → Bool) {e : Char} (X : Str) (w : Char)
    (hw : isSpc w = true) (hsp : isSpc e = false) (hP : P e = true) :
    delRunBefore P (w :: e :: X) = delRunBefore P (e :: X) := by
  rw [delRB_sp P (e :: X) hw]
  have hdrop : (w :: e :: X).dropWhile isSpc = e :: X := by
    rw [List.dropWhile_cons_of_pos hw,
      List.dropWhile_cons_of_neg (by rw [hsp]; exact Bool.false_ne_true)]
  rw [hdrop]
  simp [hP]

theorem insA_nil (P excl : Char → Bool) (dollar : Bool) :
    insertAfterP P excl dollar [] = [] := rfl

theorem insA_not {P : Char → Bool} (excl : Char → Bool) (dollar : Bool) {c : Char}
    (cs : Str) (h : P c = false) :
    insertAfterP P excl dollar (c :: cs) = c :: insertAfterP P excl dollar cs := by
  cases cs with
  | nil => simp only [insertAfterP, h]; rfl
  | cons d ds => simp only [insertAfterP, h]; rfl

theorem insA_single {P : Char → Bool} (excl : Char → Bool) (dollar : Bool) {c : Char}
    (h : P c = true) :
    insertAfterP P excl dollar [c] = if dollar then [c, ' '] else [c] := by
  simp only [insertAfterP, h]
  rfl

theorem insA_ins {P excl : Char → Bool} {dollar : Bool} {c d : Char} (ds : Str)
    (h : P c = true) (hd : excl d = false) :
    insertAfterP P excl dollar (c :: d :: ds) =
      c :: ' ' :: insertAfterP P excl dollar (d :: ds) := by
  simp only [insertAfterP, h, hd]
  rfl

theorem insA_skip {P excl : Char → Bool} {c d : Char} (ds : Str)
    (h : P c = true) (hd : excl d = true) :
    insertAfterP P excl false (c :: d :: ds) =
      c :: insertAfterP P excl false (d :: ds) := by
  simp only [insertAfterP, h, hd]
  rfl

theorem insA_head {P excl : Char → Bool} {dollar : Bool} (c : Char) (cs : Str) :
    ∃ Y, insertAfterP P excl dollar (c :: cs) = c :: Y := by
  cases hP : P c with
  | false => exact ⟨insertAfterP P excl dollar cs, insA_not excl dollar cs hP⟩
  | true =>
    cases cs with
    | nil =>
      rw [insA_single excl dollar hP]
      cases dollar
      · exact ⟨[], rfl⟩
      · exact ⟨[' '], rfl⟩
    | cons d ds =>
      cases hd : excl d with
      | false => exact ⟨' ' :: insertAfterP P excl dollar (d :: ds), insA_ins ds hP hd⟩
      | true =>
        cases dollar with
        | false => exact ⟨insertAfterP P excl false (d :: ds), insA_skip ds hP hd⟩
        | true =>
          simp only [insertAfterP, hP, hd]
          by_cases hnl : d = '\n' ∧ ds = []
          · exact ⟨' ' :: insertAfterP P excl true (d :: ds), by simp [hnl.1, hnl.2]⟩
          · refine ⟨insertAfterP P excl true (d :: ds), ?_⟩
            have : (true && decide (d = '\n') && decide (ds = [])) = false := by
              by_cases h1 : d = '\n'
              · have h2 : ds ≠ [] := fun hc => hnl ⟨h1, hc⟩
                simp [h1, h2]
              · simp [h1]
            rw [this]
            rfl


theorem borE {a b : Bool} (h : (a || b) = true) : a = true ∨ b = true := by
  cases a
  · exact Or.inr (by simpa using h)
  · exact Or.inl rfl

theorem bnotE {b : Bool} (h : (!b) = true) : b = false := by
  cases b
  · rfl
  · exact absurd h (by decide)

theorem borFalse {a b : Bool} (h : (a || b) = false) : a = false ∧ b = false := by
  cases a
  · exact ⟨rfl, by simpa using h⟩
  · exact absurd h (by simp)

theorem bandE {a b : Bool} (h : (a && b) = true) : a = true ∧ b = true := by
  constructor
  · exact Bool.and_elim_left h
  · exact Bool.and_elim_right h

theorem nf3e_sp {c : Char} (d : Char) (r : Str) (h : isSpc c = true) :
    nf3e (c :: d :: r) =
      ((match (d :: r).dropWhile isSpc with
        | e :: _ => !isP1 e
        | [] => true) && nf3e (d :: r)) := by
  simp [nf3e, h]

theorem nf3e_plain {c : Char} (d : Char) (r : Str) (hsp : isSpc c = false)
    (hP : (isP1 c || isP2 c) = false) :
    nf3e (c :: d :: r) = nf3e (d :: r) := by
  simp [nf3e, hsp, hP]

theorem nf3e_punct_excl {c d : Char} (r : Str) (hsp : isSpc c = false)
    (hP : (isP1 c || isP2 c) = true) (hd : isSpc d = false) :
    nf3e (c :: d :: r) = (exclE d && nf3e (d :: r)) := by
  simp [nf3e, hsp, hP, hd]

theorem nf3e_punct_end {c d : Char} (hsp : isSpc c = false)
    (hP : (isP1 c || isP2 c) = true) (hd : isSpc d = true) :
    nf3e [c, d] = nf3e [d] := by
  simp [nf3e, hsp, hP, hd]

theorem nf3e_punct_site {c d e : Char} (r' : Str) (hsp : isSpc c = false)
    (hP : (isP1 c || isP2 c) = true) (hd : isSpc d = true) (he : isP1 e = true) :
    nf3e (c :: d :: e :: r') = ((d == ' ') && nf3e (e :: r')) := by
  simp [nf3e, hsp, hP, hd, he]

theorem nf3e_punct_nonsite {c d e : Char} (r' : Str) (hsp : isSpc c = false)
    (hP : (isP1 c || isP2 c) = true) (hd : isSpc d = true) (he : isP1 e = false) :
    nf3e (c :: d :: e :: r') = nf3e (d :: e :: r') := by
  simp [nf3e, hsp, hP, hd, he]

theorem engine_ins_del_id : ∀ (t : Str), nf3e t = true →
    insertAfterP isP2 exclE false (insertAfterP isP1 exclE false (delRunBefore isP1 t)) = t
  | [], _ => by rw [delRB_nil, insA_nil, insA_nil]
  | [c], _ => by
    have hdel : delRunBefore isP1 [c] = [c] := by
      cases hsp : isSpc c with
      | true => rw [delRB_keep isP1 [] c hsp (by simp), delRB_nil]
      | false => rw [delRB_cons isP1 [] hsp, delRB_nil]
    rw [hdel]
    have hins1 : insertAfterP isP1 exclE false [c] = [c] := by
      cases hP : isP1 c with
      | true => rw [insA_single exclE false hP]; rfl
      | false => rw [insA_not exclE false [] hP, insA_nil]
    rw [hins1]
    cases hP : isP2 c with
    | true => rw [insA_single exclE false hP]; rfl
    | false => rw [insA_not exclE false [] hP, insA_nil]
  | c :: d :: r, h => by
    cases hsp : isSpc c with
    | true =>
      rw [nf3e_sp d r hsp] at h
      obtain ⟨h1, h2⟩ := bandE h
      have hdel : delRunBefore isP1 (c :: d :: r) = c :: delRunBefore isP1 (d :: r) := by
        refine delRB_keep isP1 (d :: r) c hsp ?_
        match hm : (d :: r).dropWhile isSpc with
        | [] => trivial
        | e :: rest =>
          rw [hm] at h1
          exact bnotE h1
      rw [hdel, insA_not exclE false _ (isSpc_not_P1 hsp),
        insA_not exclE false _ (isSpc_not_P2 hsp),
        engine_ins_del_id (d :: r) h2]
    | false =>
      cases hP : (isP1 c || isP2 c) with
      | false =>
        have hP1 : isP1 c = false := (borFalse hP).1
        have hP2 : isP2 c = false := (borFalse hP).2
        rw [nf3e_plain d r hsp hP] at h
        rw [delRB_cons isP1 (d :: r) hsp, insA_not exclE false _ hP1,
          insA_not exclE false _ hP2, engine_ins_del_id (d :: r) h]
      | true =>
        cases hsd : isSpc d with
        | false =>
          rw [nf3e_punct_excl r hsp hP hsd] at h
          obtain ⟨hex, h2⟩ := bandE h
          rw [delRB_cons isP1 (d :: r) hsp]
          have hdel2 : delRunBefore isP1 (d :: r) = d :: delRunBefore isP1 r :=
            delRB_cons isP1 r hsd
          rw [hdel2]
          cases hP1 : isP1 c with
          | true =>
            rw [insA_skip _ hP1 hex]
            obtain ⟨Y, hY⟩ := @insA_head isP1 exclE false
              d (delRunBefore isP1 r)
            rw [hY]
            cases hP2 : isP2 c with
            | true =>
              rw [insA_skip _ hP2 hex, ← hY, ← hdel2, engine_ins_del_id (d :: r) h2]
            | false =>
              rw [insA_not exclE false _ hP2, ← hY, ← hdel2,
                engine_ins_del_id (d :: r) h2]
          | false =>
            have hP2 : isP2 c = true := by
              rcases borE hP with h' | h'
              · rw [hP1] at h'
                exact absurd h' Bool.false_ne_true
              · exact h'
            rw [insA_not exclE false _ hP1]
            obtain ⟨Y, hY⟩ := @insA_head isP1 exclE false
              d (delRunBefore isP1 r)
            rw [hY, insA_skip _ hP2 hex, ← hY, ← hdel2, engine_ins_del_id (d :: r) h2]
        | true =>
          match r with
          | [] =>
            rw [nf3e_punct_end hsp hP hsd] at h
            have hdel2 : delRunBefore isP1 [d] = [d] := by
              rw [delRB_keep isP1 [] d hsd (by simp), delRB_nil]
            rw [delRB_cons isP1 [d] hsp, hdel2]
            have hins1d : insertAfterP isP1 exclE false [d] = [d] := by
              rw [insA_not exclE false [] (isSpc_not_P1 hsd), insA_nil]
            have hins2d : insertAfterP isP2 exclE false [d] = [d] := by
              rw [insA_not exclE false [] (isSpc_not_P2 hsd), insA_nil]
            cases hP1 : isP1 c with
            | true =>
              rw [insA_skip [] hP1 (isSpc_exclE hsd), hins1d]
              cases hP2 : isP2 c with
              | true => rw [insA_skip [] hP2 (isSpc_exclE hsd), hins2d]
              | false => rw [insA_not exclE false [d] hP2, hins2d]
            | false =>
              rw [insA_not exclE false [d] hP1, hins1d]
              cases hP2 : isP2 c with
              | true => rw [insA_skip [] hP2 (isSpc_exclE hsd), hins2d]
              | false => rw [insA_not exclE false [d] hP2, hins2d]
          | e :: r' =>
            cases hPe : isP1 e with
            | true =>
              rw [nf3e_punct_site r' hsp hP hsd hPe] at h
              obtain ⟨hdsp, h2⟩ := bandE h
              have hd' : d = ' ' := by simpa using hdsp
              subst hd'
              have hspe : isSpc e = false := isP1_not_spc hPe
              rw [delRB_cons isP1 _ hsp, delRB_site isP1 r' ' ' (by decide) hspe hPe]
              have hdel2 : delRunBefore isP1 (e :: r') = e :: delRunBefore isP1 r' :=
                delRB_cons isP1 r' hspe
              rw [hdel2]
              have hexE : exclE e = false := isP1_not_exclE hPe
              cases hP1 : isP1 c with
              | true =>
                rw [insA_ins _ hP1 hexE]
                have hstep2 : insertAfterP isP2 exclE false
                    (c :: ' ' :: insertAfterP isP1 exclE false (e :: delRunBefore isP1 r')) =
                    c :: ' ' :: insertAfterP isP2 exclE false
                      (insertAfterP isP1 exclE false (e :: delRunBefore isP1 r')) := by
                  cases hP2 : isP2 c with
                  | true =>
                    rw [insA_skip _ hP2 (by decide : exclE ' ' = true),
                      insA_not exclE false _ (by decide : isP2 ' ' = false)]
                  | false =>
                    rw [insA_not exclE false _ hP2,
                      insA_not exclE false _ (by decide : isP2 ' ' = false)]
                rw [hstep2, ← hdel2, engine_ins_del_id (e :: r') h2]
              | false =>
                have hP2 : isP2 c = true := by
                  rcases borE hP with h' | h'
                  · rw [hP1] at h'
                    exact absurd h' Bool.false_ne_true
                  · exact h'
                rw [insA_not exclE false _ hP1]
                obtain ⟨Y, hY⟩ := @insA_head isP1 exclE false
                  e (delRunBefore isP1 r')
                rw [hY, insA_ins _ hP2 hexE, ← hY, ← hdel2, engine_ins_del_id (e :: r') h2]
            | false =>
              have horig : nf3e (d :: e :: r') = true := by
                rw [← nf3e_punct_nonsite r' hsp hP hsd hPe]
                exact h
              rw [nf3e_punct_nonsite r' hsp hP hsd hPe, nf3e_sp e r' hsd] at h
              obtain ⟨h1, h2⟩ := bandE h
              rw [delRB_cons isP1 _ hsp]
              have hdel2 : delRunBefore isP1 (d :: e :: r') =
                  d :: delRunBefore isP1 (e :: r') := by
                refine delRB_keep isP1 (e :: r') d hsd ?_
                match hm : (e :: r').dropWhile isSpc with
                | [] => trivial
                | e2 :: rest =>
                  rw [hm] at h1
                  exact bnotE h1
              rw [hdel2]
              have hexd : exclE d = true := isSpc_exclE hsd
              cases hP1 : isP1 c with
              | true =>
                rw [insA_skip _ hP1 hexd]
                obtain ⟨Y, hY⟩ := @insA_head isP1 exclE false
                  d (delRunBefore isP1 (e :: r'))
                rw [hY]
                cases hP2 : isP2 c with
                | true =>
                  rw [insA_skip _ hP2 hexd, ← hY, ← hdel2,
                    engine_ins_del_id (d :: e :: r') horig]
                | false =>
                  rw [insA_not exclE false _ hP2, ← hY, ← hdel2,
                    engine_ins_del_id (d :: e :: r') horig]
              | false =>
                rw [insA_not exclE false _ hP1]
                obtain ⟨Y, hY⟩ := @insA_head isP1 exclE false
                  d (delRunBefore isP1 (e :: r'))
                rw [hY]
                have hP2 : isP2 c = true := by
                  rcases borE hP with h' | h'
                  · rw [hP1] at h'
                    exact absurd h' Bool.false_ne_true
                  · exact h'
                rw [insA_skip _ hP2 hexd, ← hY, ← hdel2,
                  engine_ins_del_id (d :: e :: r') horig]
termination_by t => t.length
decreasing_by
  all_goals simp only [List.length_cons]
  all_goals omega


theorem insA_allnot {P excl : Char → Bool} {dollar : Bool} : ∀ (w z : Str),
    (∀ a ∈ w, P a = false) →
    insertAfterP P excl dollar (w ++ z) = w ++ insertAfterP P excl dollar z
  | [], _, _ => rfl
  | a :: w', z, h => by
    rw [List.cons_append, insA_not excl dollar _ (h a (List.mem_cons_self a w')),
      insA_allnot w' z (fun x hx => h x (List.mem_cons_of_mem a hx))]
    rfl

theorem comp2_excl {c d : Char} (ds : Str) (hd : exclE d = true) :
    insertAfterP isP2 exclE false (insertAfterP isP1 exclE false (c :: d :: ds)) =
      c :: insertAfterP isP2 exclE false (insertAfterP isP1 exclE false (d :: ds)) := by
  obtain ⟨Y, hY⟩ := @insA_head isP1 exclE false d ds
  cases hP1 : isP1 c with
  | true =>
    rw [insA_skip _ hP1 hd, hY]
    cases hP2 : isP2 c with
    | true => rw [insA_skip _ hP2 hd, ← hY]
    | false => rw [insA_not exclE false _ hP2, ← hY]
  | false =>
    rw [insA_not exclE false _ hP1, hY]
    cases hP2 : isP2 c with
    | true => rw [insA_skip _ hP2 hd, ← hY]
    | false => rw [insA_not exclE false _ hP2, ← hY]

theorem comp2_ins {c d : Char} (ds : Str) (hP : (isP1 c || isP2 c) = true)
    (hd : exclE d = false) :
    insertAfterP isP2 exclE false (insertAfterP isP1 exclE false (c :: d :: ds)) =
      c :: ' ' :: insertAfterP isP2 exclE false (insertAfterP isP1 exclE false (d :: ds)) := by
  cases hP1 : isP1 c with
  | true =>
    rw [insA_ins _ hP1 hd]
    cases hP2 : isP2 c with
    | true =>
      rw [insA_skip _ hP2 (by decide : exclE ' ' = true),
        insA_not exclE false _ (by decide : isP2 ' ' = false)]
    | false =>
      rw [insA_not exclE false _ hP2,
        insA_not exclE false _ (by decide : isP2 ' ' = false)]
  | false =>
    have hP2 : isP2 c = true := by
      rcases borE hP with h' | h'
      · rw [hP1] at h'
        exact absurd h' Bool.false_ne_true
      · exact h'
    rw [insA_not exclE false _ hP1]
    obtain ⟨Y, hY⟩ := @insA_head isP1 exclE false d ds
    rw [hY, insA_ins _ hP2 hd, ← hY]

theorem comp2_head (c : Char) (cs : Str) :
    ∃ Y, insertAfterP isP2 exclE false (insertAfterP isP1 exclE false (c :: cs)) =
      c :: Y := by
  obtain ⟨Y1, hY1⟩ := @insA_head isP1 exclE false c cs
  rw [hY1]
  exact insA_head c Y1

theorem nwb_tail {P : Char → Bool} {c : Char} {ys : Str}
    (h : noWsBefore P (c :: ys) = true) : noWsBefore P ys = true := by
  cases ys with
  | nil => rfl
  | cons d ds => exact (bandE h).2

theorem nwb_pair {P : Char → Bool} {c d : Char} {ds : Str}
    (h : noWsBefore P (c :: d :: ds) = true) : (isSpc c && P d) = false :=
  bnotE (bandE h).1

theorem nwb_follower {c : Char} : ∀ (ys : Str), noWsBefore isP1 (c :: ys) = true →
    isSpc c = true →
    (match ys.dropWhile isSpc with
     | e :: _ => isP1 e = false
     | [] => True)
  | [], _, _ => trivial
  | d :: ds, h, hc => by
    cases hd : isSpc d with
    | true =>
      have hrec := nwb_follower (c := d) ds (nwb_tail h) hd
      rw [List.dropWhile_cons_of_pos hd]
      exact hrec
    | false =>
      rw [List.dropWhile_cons_of_neg (by rw [hd]; exact Bool.false_ne_true)]
      have hp := nwb_pair h
      dsimp only
      cases hP : isP1 d with
      | false => rfl
      | true =>
        rw [hc, hP] at hp
        exact absurd hp (by decide)

theorem dropWhile_all {p : Char → Bool} : ∀ (w z : Str), (∀ a ∈ w, p a = true) →
    (w ++ z).dropWhile p = z.dropWhile p
  | [], _, _ => rfl
  | a :: w', z, h => by
    rw [List.cons_append, List.dropWhile_cons_of_pos (h a (List.mem_cons_self _ _))]
    exact dropWhile_all w' z (fun x hx => h x (List.mem_cons_of_mem _ hx))

theorem nf3e_tail_ws {c : Char} {ys : Str} (hc : isSpc c = true)
    (h : nf3e (c :: ys) = true) : nf3e ys = true := by
  cases ys with
  | nil => rfl
  | cons d r =>
    rw [nf3e_sp d r hc] at h
    exact (bandE h).2

theorem nf3e_ws_prefix : ∀ (w z : Str), (∀ a ∈ w, isSpc a = true) →
    (match z with
     | [] => True
     | f :: _ => isSpc f = false ∧ isP1 f = false) →
    nf3e z = true → nf3e (w ++ z) = true
  | [], _, _, _, hz => hz
  | a :: w', z, hw, hz, hnf => by
    have ha : isSpc a = true := hw a (List.mem_cons_self _ _)
    have hw' : ∀ x ∈ w', isSpc x = true := fun x hx => hw x (List.mem_cons_of_mem _ hx)
    have hrest := nf3e_ws_prefix w' z hw' hz hnf
    rw [show (a :: w') ++ z = a :: (w' ++ z) from rfl]
    match hwz : w' ++ z with
    | [] => rfl
    | b :: rest =>
      rw [nf3e_sp b rest ha]
      refine Bool.and_eq_true_iff.mpr ⟨?_, by rw [← hwz]; exact hrest⟩
      have hdw : (b :: rest).dropWhile isSpc = z.dropWhile isSpc := by
        rw [← hwz]
        exact dropWhile_all w' z hw'
      rw [hdw]
      match hz2 : z with
      | [] => rfl
      | f :: zr =>
        have hz' : isSpc f = false ∧ isP1 f = false := hz
        rw [List.dropWhile_cons_of_neg (by rw [hz'.1]; exact Bool.false_ne_true)]
        dsimp only
        rw [hz'.2]
        rfl


theorem bandI {a b : Bool} (h1 : a = true) (h2 : b = true) : (a && b) = true := by
  rw [h1, h2]
  rfl

theorem head_dropWhile {p : Char → Bool} : ∀ (z : Str),
    (match z.dropWhile p with
     | f :: _ => p f = false
     | [] => True)
  | [] => trivial
  | a :: z' => by
    cases ha : p a with
    | true =>
      rw [List.dropWhile_cons_of_pos ha]
      exact head_dropWhile z'
    | false =>
      rw [List.dropWhile_cons_of_neg (by rw [ha]; exact Bool.false_ne_true)]
      exact ha

theorem nwb_dropWhile {P : Char → Bool} : ∀ (y : Str), noWsBefore P y = true →
    noWsBefore P (y.dropWhile isSpc) = true
  | [], h => h
  | a :: y', h => by
    cases ha : isSpc a with
    | true =>
      rw [List.dropWhile_cons_of_pos ha]
      exact nwb_dropWhile y' (nwb_tail h)
    | false =>
      rw [List.dropWhile_cons_of_neg (by rw [ha]; exact Bool.false_ne_true)]
      exact h

theorem nf3e_comp2 : ∀ (y : Str), noWsBefore isP1 y = true →
    nf3e (insertAfterP isP2 exclE false (insertAfterP isP1 exclE false y)) = true
  | [], _ => rfl
  | [c], _ => by
    have h1 : insertAfterP isP1 exclE false [c] = [c] := by
      cases hP : isP1 c with
      | true => rw [insA_single exclE false hP]; rfl
      | false => rw [insA_not exclE false [] hP, insA_nil]
    have h2 : insertAfterP isP2 exclE false [c] = [c] := by
      cases hP : isP2 c with
      | true => rw [insA_single exclE false hP]; rfl
      | false => rw [insA_not exclE false [] hP, insA_nil]
    rw [h1, h2]
    rfl
  | c :: d :: r, h => by
    cases hsp : isSpc c with
    | true =>
      have hw : ∀ a ∈ (d :: r).takeWhile isSpc, isSpc a = true := fun a ha =>
        List.mem_takeWhile_imp ha
      have hsplit : (d :: r).takeWhile isSpc ++ (d :: r).dropWhile isSpc = d :: r :=
        List.takeWhile_append_dropWhile isSpc (d :: r)
      have hw0 : ∀ a ∈ c :: (d :: r).takeWhile isSpc, isSpc a = true := by
        intro a ha
        rcases List.mem_cons.mp ha with rfl | ha'
        · exact hsp
        · exact hw a ha'
      have hy : c :: d :: r = (c :: (d :: r).takeWhile isSpc) ++ (d :: r).dropWhile isSpc := by
        rw [List.cons_append, hsplit]
      rw [hy, insA_allnot _ _ (fun a ha => isSpc_not_P1 (hw0 a ha)),
        insA_allnot _ _ (fun a ha => isSpc_not_P2 (hw0 a ha))]
      refine nf3e_ws_prefix _ _ hw0 ?_ ?_
      · match hrest : (d :: r).dropWhile isSpc with
        | [] => exact trivial
        | f :: rest' =>
          obtain ⟨Y, hY⟩ := comp2_head f rest'
          rw [hY]
          dsimp only
          constructor
          · have hh := head_dropWhile (p := isSpc) (d :: r)
            rw [hrest] at hh
            exact hh
          · have hf := nwb_follower (c := c) (d :: r) h hsp
            rw [hrest] at hf
            exact hf
      · exact nf3e_comp2 ((d :: r).dropWhile isSpc) (nwb_dropWhile _ (nwb_tail h))
    | false =>
      cases hP : (isP1 c || isP2 c) with
      | false =>
        rw [insA_not exclE false _ (borFalse hP).1, insA_not exclE false _ (borFalse hP).2]
        obtain ⟨Y, hY⟩ := comp2_head d r
        rw [hY, nf3e_plain d Y hsp hP, ← hY]
        exact nf3e_comp2 (d :: r) (nwb_tail h)
      | true =>
        cases hex : exclE d with
        | true =>
          rw [comp2_excl r hex]
          cases hsd : isSpc d with
          | false =>
            obtain ⟨Y, hY⟩ := comp2_head d r
            rw [hY, nf3e_punct_excl Y hsp hP hsd]
            refine bandI hex ?_
            rw [← hY]
            exact nf3e_comp2 (d :: r) (nwb_tail h)
          | true =>
            match r with
            | [] =>
              have hid : insertAfterP isP2 exclE false
                  (insertAfterP isP1 exclE false [d]) = [d] := by
                rw [insA_not exclE false [] (isSpc_not_P1 hsd), insA_nil,
                  insA_not exclE false [] (isSpc_not_P2 hsd), insA_nil]
              rw [hid, nf3e_punct_end hsp hP hsd]
              rfl
            | e :: r' =>
              have hPe : isP1 e = false := by
                have hp := nwb_pair (nwb_tail h)
                cases hPe : isP1 e with
                | false => rfl
                | true =>
                  rw [hsd, hPe] at hp
                  exact absurd hp (by decide)
              have hzd : insertAfterP isP2 exclE false
                  (insertAfterP isP1 exclE false (d :: e :: r')) =
                  d :: insertAfterP isP2 exclE false
                    (insertAfterP isP1 exclE false (e :: r')) := by
                rw [insA_not exclE false _ (isSpc_not_P1 hsd),
                  insA_not exclE false _ (isSpc_not_P2 hsd)]
              rw [hzd]
              obtain ⟨Y2, hY2⟩ := comp2_head e r'
              rw [hY2, nf3e_punct_nonsite Y2 hsp hP hsd hPe, ← hY2, ← hzd]
              exact nf3e_comp2 (d :: e :: r') (nwb_tail h)
        | false =>
          have hsd : isSpc d = false := by
            cases hs : isSpc d with
            | false => rfl
            | true =>
              rw [isSpc_exclE hs] at hex
              exact absurd hex (by decide)
          rw [comp2_ins r hP hex]
          obtain ⟨Y, hY⟩ := comp2_head d r
          rw [hY]
          cases hPd : isP1 d with
          | true =>
            rw [nf3e_punct_site Y hsp hP (by decide : isSpc ' ' = true) hPd]
            refine bandI (by decide) ?_
            rw [← hY]
            exact nf3e_comp2 (d :: r) (nwb_tail h)
          | false =>
            rw [nf3e_punct_nonsite Y hsp hP (by decide : isSpc ' ' = true) hPd,
              nf3e_sp d Y (by decide : isSpc ' ' = true)]
            refine bandI ?_ ?_
            · rw [List.dropWhile_cons_of_neg (by rw [hsd]; exact Bool.false_ne_true)]
              dsimp only
              rw [hPd]
              rfl
            · rw [← hY]
              exact nf3e_comp2 (d :: r) (nwb_tail h)
termination_by y => y.length
decreasing_by
  all_goals simp only [List.length_cons]
  all_goals
    first
    | omega
    | (have h9 := (List.dropWhile_sublist (l := d :: r) (p := isSpc)).length_le
       simp only [List.length_cons] at h9
       omega)


theorem nwb_cons_nonspc {c : Char} {X : Str} (hc : isSpc c = false)
    (hX : noWsBefore isP1 X = true) : noWsBefore isP1 (c :: X) = true := by
  cases X with
  | nil => rfl
  | cons x xr =>
    show (!(isSpc c && isP1 x) && noWsBefore isP1 (x :: xr)) = true
    rw [hc, hX]
    rfl

theorem nwb_ws_append : ∀ (w X : Str), (∀ a ∈ w, isSpc a = true) →
    noWsBefore isP1 X = true →
    (match X with | [] => True | f :: _ => isP1 f = false) →
    noWsBefore isP1 (w ++ X) = true
  | [], _, _, hX, _ => hX
  | a :: w', X, hw, hX, hf => by
    have hrec := nwb_ws_append w' X (fun x hx => hw x (List.mem_cons_of_mem _ hx)) hX hf
    rw [List.cons_append]
    match hwx : w' ++ X with
    | [] => rfl
    | b :: rest =>
      show (!(isSpc a && isP1 b) && noWsBefore isP1 (b :: rest)) = true
      refine bandI ?_ (by rw [← hwx]; exact hrec)
      have hb : isP1 b = false := by
        cases w' with
        | nil =>
          have hX2 : X = b :: rest := by simpa using hwx
          rw [hX2] at hf
          exact hf
        | cons a2 w'' =>
          have hab : a2 = b := by
            have := hwx
            simp only [List.cons_append, List.cons.injEq] at this
            exact this.1
          subst hab
          exact isSpc_not_P1 (hw a2 (List.mem_cons_of_mem _ (List.mem_cons_self _ _)))
      rw [hb, Bool.and_false]
      rfl

theorem nwb_delRB : ∀ (s : Str), noWsBefore isP1 (delRunBefore isP1 s) = true
  | [] => by rw [delRB_nil]; rfl
  | c :: cs => by
    cases hsp : isSpc c with
    | false =>
      rw [delRB_cons isP1 cs hsp]
      exact nwb_cons_nonspc hsp (nwb_delRB cs)
    | true =>
      rw [delRB_sp isP1 cs hsp]
      have hdw : (c :: cs).dropWhile isSpc = cs.dropWhile isSpc :=
        List.dropWhile_cons_of_pos hsp
      rw [hdw]
      have hw : ∀ a ∈ (c :: cs).takeWhile isSpc, isSpc a = true := fun a ha =>
        List.mem_takeWhile_imp ha
      match hrest : cs.dropWhile isSpc with
      | [] =>
        rw [delRB_nil]
        exact nwb_ws_append _ [] hw rfl trivial
      | e :: rest' =>
        have he : isSpc e = false := by
          have hh := head_dropWhile (p := isSpc) cs
          rw [hrest] at hh
          exact hh
        have hdel : delRunBefore isP1 (e :: rest') = e :: delRunBefore isP1 rest' :=
          delRB_cons isP1 rest' he
        cases hPe : isP1 e with
        | true =>
          dsimp only
          rw [if_pos hPe, List.nil_append]
          exact nwb_delRB (e :: rest')
        | false =>
          dsimp only
          rw [if_neg (by rw [hPe]; exact Bool.false_ne_true)]
          refine nwb_ws_append _ _ hw (nwb_delRB (e :: rest')) ?_
          rw [hdel]
          exact hPe
termination_by s => s.length
decreasing_by
  all_goals simp only [List.length_cons]
  all_goals
    first
    | omega
    | (have h9 := (List.dropWhile_sublist (l := cs) (p := isSpc)).length_le
       rw [hrest] at h9
       simp only [List.length_cons] at h9
       omega)


theorem letter_classes {u : Char}
    (h : (65 ≤ u.toNat ∧ u.toNat ≤ 90) ∨ (97 ≤ u.toNat ∧ u.toNat ≤ 122)) :
    isSpc u = false ∧ isP1 u = false ∧ isP2 u = false ∧ exclE u = false ∧
      (u = ' ' → False) := by
  have hspc : isSpc u = false := by
    cases hs : isSpc u with
    | false => rfl
    | true =>
      simp only [isSpc, Bool.or_eq_true, decide_eq_true_eq] at hs
      rcases hs with ((((e | e) | e) | e) | e) | e <;> subst e <;>
        rcases h with ⟨h1, h2⟩ | ⟨h1, h2⟩ <;>
        first
        | exact absurd h1 (by decide)
        | exact absurd h2 (by decide)
  refine ⟨hspc, ?_, ?_, ?_, ?_⟩
  · cases hs : isP1 u with
    | false => rfl
    | true =>
      simp only [isP1, Bool.or_eq_true, decide_eq_true_eq] at hs
      rcases hs with ((e | e) | e) | e <;> subst e <;>
        rcases h with ⟨h1, h2⟩ | ⟨h1, h2⟩ <;>
        first
        | exact absurd h1 (by decide)
        | exact absurd h2 (by decide)
  · cases hs : isP2 u with
    | false => rfl
    | true =>
      simp only [isP2, Bool.or_eq_true, decide_eq_true_eq] at hs
      rcases hs with (e | e) | e <;> subst e <;>
        rcases h with ⟨h1, h2⟩ | ⟨h1, h2⟩ <;>
        first
        | exact absurd h1 (by decide)
        | exact absurd h2 (by decide)
  · cases hs : exclE u with
    | false => rfl
    | true =>
      simp only [exclE, Bool.or_eq_true, decide_eq_true_eq] at hs
      rcases hs with ((hs | e) | e) | e
      · rw [hspc] at hs
        exact absurd hs Bool.false_ne_true
      all_goals
        subst e <;>
        rcases h with ⟨h1, h2⟩ | ⟨h1, h2⟩ <;>
        first
        | exact absurd h1 (by decide)
        | exact absurd h2 (by decide)
  · intro e
    subst e
    rcases h with ⟨h1, _⟩ | ⟨h1, _⟩ <;> exact absurd h1 (by decide)

theorem isLow_range {c : Char} (h : isLow c = true) :
    97 ≤ c.toNat ∧ c.toNat ≤ 122 := by
  simp only [isLow, Bool.and_eq_true, decide_eq_true_eq] at h
  obtain ⟨ha, hz⟩ := h
  rw [Char.le_def] at ha hz
  exact ⟨ha, hz⟩

theorem upChar_toNat {c : Char} (h : isLow c = true) :
    (upChar c).toNat = c.toNat - 32 := by
  obtain ⟨h1, h2⟩ := isLow_range h
  rw [upChar, if_pos h, Char.ofNat, dif_pos (Or.inl (by omega))]
  rfl

theorem upChar_range {c : Char} (h : isLow c = true) :
    65 ≤ (upChar c).toNat ∧ (upChar c).toNat ≤ 90 := by
  obtain ⟨h1, h2⟩ := isLow_range h
  rw [upChar_toNat h]
  omega

theorem upChar_not_low {c : Char} (h : isLow c = true) :
    isLow (upChar c) = false := by
  obtain ⟨h1, h2⟩ := upChar_range h
  cases hs : isLow (upChar c) with
  | false => rfl
  | true =>
    obtain ⟨h3, _⟩ := isLow_range hs
    omega

theorem chEq_refl (c : Char) : chEq c c :=
  ⟨rfl, rfl, rfl, rfl, Iff.rfl⟩

theorem chEq_upChar {c : Char} (h : isLow c = true) : chEq c (upChar c) := by
  have hl := letter_classes (Or.inr (isLow_range h))
  have hu := letter_classes (Or.inl (upChar_range h))
  refine ⟨?_, ?_, ?_, ?_, ?_⟩
  · rw [hl.1, hu.1]
  · rw [hl.2.1, hu.2.1]
  · rw [hl.2.2.1, hu.2.2.1]
  · rw [hl.2.2.2.1, hu.2.2.2.1]
  · constructor
    · intro e
      exact absurd e (fun e2 => hl.2.2.2.2 e2)
    · intro e
      exact absurd e (fun e2 => hu.2.2.2.2 e2)

theorem capStep_chEq {c c' : Char} (st : Nat) (h : chEq c c') :
    capStep st c = capStep st c' := by
  rw [capStep, capStep, h.2.2.1, h.1]

theorem capAux_chEq : ∀ (st : Nat) (z : Str),
    List.Forall₂ chEq z (capAfterAux st z)
  | _, [] => List.Forall₂.nil
  | st, c :: cs => by
    show List.Forall₂ chEq (c :: cs)
      ((if st = 2 && isLow c then upChar c else c) :: capAfterAux (capStep st c) cs)
    refine List.Forall₂.cons ?_ (capAux_chEq (capStep st c) cs)
    by_cases hc : (decide (st = 2) && isLow c) = true
    · rw [if_pos hc]
      exact chEq_upChar (bandE hc).2
    · rw [if_neg hc]
      exact chEq_refl c


theorem forall2_dropWhile : ∀ {a b : Str}, List.Forall₂ chEq a b →
    List.Forall₂ chEq (a.dropWhile isSpc) (b.dropWhile isSpc)
  | _, _, List.Forall₂.nil => List.Forall₂.nil
  | x :: a', y :: b', List.Forall₂.cons hab h => by
    cases hx : isSpc x with
    | true =>
      rw [List.dropWhile_cons_of_pos hx,
        List.dropWhile_cons_of_pos (by rw [← hab.1]; exact hx)]
      exact forall2_dropWhile h
    | false =>
      rw [List.dropWhile_cons_of_neg (by rw [hx]; exact Bool.false_ne_true),
        List.dropWhile_cons_of_neg (by rw [← hab.1, hx]; exact Bool.false_ne_true)]
      exact List.Forall₂.cons hab h

theorem beqSp_congr {d d' : Char} (h : d = ' ' ↔ d' = ' ') :
    (d == ' ') = (d' == ' ') := by
  by_cases hd : d = ' '
  · rw [hd, beq_self_eq_true]
    have := h.mp hd
    rw [this, beq_self_eq_true]
  · have hd' : ¬ d' = ' ' := fun e => hd (h.mpr e)
    rw [beq_eq_false_iff_ne.mpr hd, beq_eq_false_iff_ne.mpr hd']

theorem nf3e_congr_aux : ∀ (n : Nat) (z z' : Str), z.length ≤ n →
    List.Forall₂ chEq z z' → nf3e z = nf3e z'
  | _, [], [], _, _ => rfl
  | _, [_], [_], _, _ => rfl
  | _, [], _ :: _, _, hf => by cases hf
  | _, _ :: _, [], _, hf => by cases hf
  | _, [_], _ :: _ :: _, _, hf => by
    cases hf with
    | cons _ h2 => cases h2
  | _, _ :: _ :: _, [_], _, hf => by
    cases hf with
    | cons _ h2 => cases h2
  | 0, _ :: _ :: _, _ :: _ :: _, hlen, _ => by
    simp only [List.length_cons] at hlen
    omega
  | n + 1, c :: d :: r, c' :: d' :: r', hlen, hf => by
    have hcc : chEq c c' := by cases hf with | cons h1 _ => exact h1
    have hf2 : List.Forall₂ chEq (d :: r) (d' :: r') := by
      cases hf with | cons _ h2 => exact h2
    have hdd : chEq d d' := by cases hf2 with | cons h1 _ => exact h1
    have hrr : List.Forall₂ chEq r r' := by cases hf2 with | cons _ h2 => exact h2
    cases hsp : isSpc c with
    | true =>
      have hsp' : isSpc c' = true := by rw [← hcc.1]; exact hsp
      rw [nf3e_sp d r hsp, nf3e_sp d' r' hsp',
        nf3e_congr_aux n (d :: r) (d' :: r')
          (by simp only [List.length_cons] at hlen ⊢; omega) hf2]
      congr 1
      have hdw := forall2_dropWhile hf2
      revert hdw
      generalize List.dropWhile isSpc (d :: r) = A
      generalize List.dropWhile isSpc (d' :: r') = B
      intro hdw
      cases hdw with
      | nil => rfl
      | cons he _ =>
        dsimp only
        rw [he.2.1]
    | false =>
      have hsp' : isSpc c' = false := by rw [← hcc.1]; exact hsp
      cases hP : (isP1 c || isP2 c) with
      | false =>
        have hP' : (isP1 c' || isP2 c') = false := by
          rw [← hcc.2.1, ← hcc.2.2.1]
          exact hP
        rw [nf3e_plain d r hsp hP, nf3e_plain d' r' hsp' hP',
          nf3e_congr_aux n (d :: r) (d' :: r')
            (by simp only [List.length_cons] at hlen ⊢; omega) hf2]
      | true =>
        have hP' : (isP1 c' || isP2 c') = true := by
          rw [← hcc.2.1, ← hcc.2.2.1]
          exact hP
        cases hsd : isSpc d with
        | false =>
          have hsd' : isSpc d' = false := by rw [← hdd.1]; exact hsd
          rw [nf3e_punct_excl r hsp hP hsd, nf3e_punct_excl r' hsp' hP' hsd',
            hdd.2.2.2.1,
            nf3e_congr_aux n (d :: r) (d' :: r')
              (by simp only [List.length_cons] at hlen ⊢; omega) hf2]
        | true =>
          have hsd' : isSpc d' = true := by rw [← hdd.1]; exact hsd
          cases hrr with
          | nil =>
            rw [nf3e_punct_end hsp hP hsd, nf3e_punct_end hsp' hP' hsd',
              nf3e_congr_aux n [d] [d']
                (by simp only [List.length_cons, List.length_nil] at hlen ⊢; omega)
                (List.Forall₂.cons hdd List.Forall₂.nil)]
          | @cons e e' rr rr' hee hrr2 =>
            cases hPe : isP1 e with
            | true =>
              have hPe' : isP1 e' = true := by rw [← hee.2.1]; exact hPe
              rw [nf3e_punct_site rr hsp hP hsd hPe,
                nf3e_punct_site rr' hsp' hP' hsd' hPe',
                beqSp_congr hdd.2.2.2.2,
                nf3e_congr_aux n (e :: rr) (e' :: rr')
                  (by simp only [List.length_cons] at hlen ⊢; omega)
                  (List.Forall₂.cons hee hrr2)]
            | false =>
              have hPe' : isP1 e' = false := by rw [← hee.2.1]; exact hPe
              rw [nf3e_punct_nonsite rr hsp hP hsd hPe,
                nf3e_punct_nonsite rr' hsp' hP' hsd' hPe',
                nf3e_congr_aux n (d :: e :: rr) (d' :: e' :: rr')
                  (by simp only [List.length_cons] at hlen ⊢; omega)
                  (List.Forall₂.cons hdd (List.Forall₂.cons hee hrr2))]
termination_by n _ _ _ _ => n
decreasing_by
  all_goals omega

theorem nf3e_congr (z z' : Str) (h : List.Forall₂ chEq z z') : nf3e z = nf3e z' :=
  nf3e_congr_aux z.length z z' le_rfl h

theorem capOK_capAux : ∀ (st : Nat) (z : Str), capOK st (capAfterAux st z) = true
  | _, [] => rfl
  | st, c :: cs => by
    show capOK st ((if st = 2 && isLow c then upChar c else c) ::
      capAfterAux (capStep st c) cs) = true
    by_cases hc : (decide (st = 2) && isLow c) = true
    · rw [if_pos hc]
      show (!(decide (st = 2) && isLow (upChar c)) &&
        capOK (capStep st (upChar c)) (capAfterAux (capStep st c) cs)) = true
      have hlow := (bandE hc).2
      rw [upChar_not_low hlow, ← capStep_chEq st (chEq_upChar hlow), Bool.and_false]
      exact bandI rfl (capOK_capAux (capStep st c) cs)
    · rw [if_neg hc]
      show (!(decide (st = 2) && isLow c) &&
        capOK (capStep st c) (capAfterAux (capStep st c) cs)) = true
      have h0 : (decide (st = 2) && isLow c) = false := by
        cases h2 : (decide (st = 2) && isLow c) with
        | false => rfl
        | true => exact absurd h2 hc
      rw [h0]
      exact bandI rfl (capOK_capAux (capStep st c) cs)

theorem nf3e_capAux (st : Nat) (z : Str) (h : nf3e z = true) :
    nf3e (capAfterAux st z) = true := by
  rw [← nf3e_congr z (capAfterAux st z) (capAux_chEq st z)]
  exact h


theorem collapse_head : ∀ (X : Str), (collapseSp X).head? = X.head?
  | [] => by rw [collapseSp_nil]
  | c :: cs => by
    by_cases hc : c = ' '
    · subst hc
      rw [collapseSp_cons_sp]
      rfl
    · rw [collapseSp_cons cs hc]
      rfl

theorem dropWhile_sp_spc : ∀ (X : Str),
    (X.dropWhile (fun x => x = ' ')).dropWhile isSpc = X.dropWhile isSpc
  | [] => rfl
  | a :: X' => by
    by_cases ha : a = ' '
    · rw [List.dropWhile_cons_of_pos (by simp [ha]),
        List.dropWhile_cons_of_pos (by rw [ha]; decide)]
      exact dropWhile_sp_spc X'
    · rw [List.dropWhile_cons_of_neg (by simpa using ha)]

theorem collapse_dropSpc : ∀ (X : Str),
    (collapseSp X).dropWhile isSpc = collapseSp (X.dropWhile isSpc)
  | [] => by simp [collapseSp_nil]
  | c :: cs => by
    by_cases hc : c = ' '
    · subst hc
      rw [collapseSp_cons_sp, List.dropWhile_cons_of_pos (by decide),
        List.dropWhile_cons_of_pos (by decide),
        collapse_dropSpc (cs.dropWhile (fun x => x = ' ')), dropWhile_sp_spc cs]
    · cases hs : isSpc c with
      | true =>
        rw [collapseSp_cons cs hc, List.dropWhile_cons_of_pos hs,
          List.dropWhile_cons_of_pos hs]
        exact collapse_dropSpc cs
      | false =>
        rw [collapseSp_cons cs hc,
          List.dropWhile_cons_of_neg (by rw [hs]; exact Bool.false_ne_true),
          List.dropWhile_cons_of_neg (by rw [hs]; exact Bool.false_ne_true),
          collapseSp_cons cs hc]
termination_by X => X.length
decreasing_by
  all_goals first
  | (simp only [List.length_cons]; omega)
  | (have h9 := (List.dropWhile_sublist (l := cs) (p := fun x => decide (x = ' '))).length_le
     simp only [List.length_cons]
     omega)

theorem nf3e_drop_sp : ∀ (X : Str), nf3e X = true →
    nf3e (X.dropWhile (fun x => x = ' ')) = true
  | [], h => h
  | a :: X', h => by
    by_cases ha : a = ' '
    · rw [List.dropWhile_cons_of_pos (by simp [ha])]
      exact nf3e_drop_sp X' (nf3e_tail_ws (by rw [ha]; decide) h)
    · rw [List.dropWhile_cons_of_neg (by simpa using ha)]
      exact h

theorem follow_sp_of_spc : ∀ (X : Str),
    (match X.dropWhile isSpc with | e :: _ => !isP1 e | [] => true) = true →
    (match X.dropWhile (fun x => x = ' ') with
     | e :: _ => !isP1 e | [] => true) = true := by
  intro X hyp
  cases hD : X.dropWhile (fun x => x = ' ') with
  | nil => rfl
  | cons f fs =>
    dsimp only
    cases hf : isSpc f with
    | true =>
      rw [isSpc_not_P1 hf]
      rfl
    | false =>
      have hX : X.dropWhile isSpc = f :: fs := by
        rw [← dropWhile_sp_spc X, hD,
          List.dropWhile_cons_of_neg (by rw [hf]; exact Bool.false_ne_true)]
      rw [hX] at hyp
      exact hyp

theorem capStep_sp_mem (st : Nat) : capStep st ' ' = 0 ∨ capStep st ' ' = 2 := by
  rw [capStep]
  split
  · next h => exact absurd h (by decide)
  · split
    · right
      rfl
    · left
      rfl

theorem capStep_sp_fix {st : Nat} (h : st = 0 ∨ st = 2) : capStep st ' ' = st := by
  rcases h with h | h <;> subst h <;> decide

theorem capOK_sp_run : ∀ (w rest : Str) (st : Nat), (st = 0 ∨ st = 2) →
    (∀ a ∈ w, a = ' ') → capOK st (w ++ rest) = capOK st rest
  | [], _, _, _, _ => rfl
  | a :: w', rest, st, hst, hw => by
    have ha : a = ' ' := hw a (List.mem_cons_self _ _)
    subst ha
    show (!(decide (st = 2) && isLow ' ') && capOK (capStep st ' ') (w' ++ rest)) =
      capOK st rest
    rw [capStep_sp_fix hst,
      capOK_sp_run w' rest st hst (fun x hx => hw x (List.mem_cons_of_mem _ hx)),
      (by decide : isLow ' ' = false), Bool.and_false, Bool.not_false, Bool.true_and]

theorem capOK_collapse : ∀ (z : Str) (st : Nat), capOK st z = true →
    capOK st (collapseSp z) = true
  | [], _, h => by rw [collapseSp_nil]; exact h
  | c :: cs, st, h => by
    have hh := bandE (show (!(decide (st = 2) && isLow c) &&
      capOK (capStep st c) cs) = true from h)
    by_cases hc : c = ' '
    · subst hc
      rw [collapseSp_cons_sp]
      show (!(decide (st = 2) && isLow ' ') &&
        capOK (capStep st ' ') (collapseSp (cs.dropWhile (fun x => x = ' ')))) = true
      refine bandI hh.1 ?_
      have hsplit : capOK (capStep st ' ') cs =
          capOK (capStep st ' ') (cs.dropWhile (fun x => x = ' ')) := by
        conv_lhs => rw [← List.takeWhile_append_dropWhile (fun x => decide (x = ' ')) cs]
        exact capOK_sp_run (cs.takeWhile (fun x => decide (x = ' '))) _ _
          (capStep_sp_mem st)
          (fun a hax => by simpa using List.mem_takeWhile_imp hax)
      exact capOK_collapse (cs.dropWhile (fun x => x = ' ')) (capStep st ' ')
        (by rw [← hsplit]; exact hh.2)
    · rw [collapseSp_cons cs hc]
      show (!(decide (st = 2) && isLow c) &&
        capOK (capStep st c) (collapseSp cs)) = true
      exact bandI hh.1 (capOK_collapse cs (capStep st c) hh.2)
termination_by z _ _ => z.length
decreasing_by
  all_goals first
  | (simp only [List.length_cons]; omega)
  | (have h9 := (List.dropWhile_sublist (l := cs) (p := fun x => decide (x = ' '))).length_le
     simp only [List.length_cons]
     omega)

theorem noDupSp_collapse : ∀ (z : Str), noDupSp (collapseSp z) = true
  | [] => by rw [collapseSp_nil]; rfl
  | c :: cs => by
    by_cases hc : c = ' '
    · subst hc
      rw [collapseSp_cons_sp]
      have hrec := noDupSp_collapse (cs.dropWhile (fun x => x = ' '))
      cases hY : collapseSp (cs.dropWhile (fun x => x = ' ')) with
      | nil => rfl
      | cons y ys =>
        rw [hY] at hrec
        show (!(' ' == ' ' && y == ' ') && noDupSp (y :: ys)) = true
        refine bandI ?_ hrec
        have hyhead : some y = (cs.dropWhile (fun x => x = ' ')).head? := by
          rw [← collapse_head, hY]
          rfl
        have hne : ¬ y = ' ' := by
          cases hD : cs.dropWhile (fun x => x = ' ') with
          | nil =>
            rw [hD] at hyhead
            exact absurd hyhead (by simp)
          | cons f fs =>
            have hdw := @head_dropWhile (fun x => decide (x = ' ')) cs
            rw [hD] at hdw hyhead
            dsimp only at hdw
            have hyf : y = f := by simpa using hyhead
            subst hyf
            intro hcon
            rw [hcon] at hdw
            simp at hdw
        simp [hne]
    · rw [collapseSp_cons cs hc]
      have hrec := noDupSp_collapse cs
      cases hY : collapseSp cs with
      | nil => rfl
      | cons y ys =>
        rw [hY] at hrec
        show (!(c == ' ' && y == ' ') && noDupSp (y :: ys)) = true
        refine bandI ?_ hrec
        simp [hc]
termination_by z => z.length
decreasing_by
  all_goals first
  | (simp only [List.length_cons]; omega)
  | (have h9 := (List.dropWhile_sublist (l := cs) (p := fun x => decide (x = ' '))).length_le
     simp only [List.length_cons]
     omega)


theorem follow_collapse : ∀ (W : Str),
    (match W with | e :: _ => !isP1 e | [] => true) = true →
    (match collapseSp W with | e :: _ => !isP1 e | [] => true) = true := by
  intro W hf
  cases W with
  | nil =>
    rw [collapseSp_nil]
  | cons f fs =>
    dsimp only at hf
    by_cases hfsp : f = ' '
    · subst hfsp
      rw [collapseSp_cons_sp]
      dsimp only
      exact hf
    · rw [collapseSp_cons fs hfsp]
      dsimp only
      exact hf

theorem nf3e_collapse_aux : ∀ (n : Nat) (z : Str), z.length ≤ n → nf3e z = true →
    nf3e (collapseSp z) = true
  | _, [], _, _ => by rw [collapseSp_nil]; rfl
  | _, [c], _, _ => by
    by_cases hc : c = ' '
    · subst hc
      rw [collapseSp_cons_sp, List.dropWhile_nil, collapseSp_nil]
      rfl
    · rw [collapseSp_cons [] hc, collapseSp_nil]
      rfl
  | 0, _ :: _ :: _, hlen, _ => by
    simp only [List.length_cons] at hlen
    omega
  | n + 1, c :: d :: r, hlen, h => by
    have hlen2 : (d :: r).length ≤ n := by
      simp only [List.length_cons] at hlen ⊢
      omega
    by_cases hc : c = ' '
    · subst hc
      have h' := h
      rw [nf3e_sp d r (by decide)] at h'
      have hfoll := (bandE h').1
      have hnfdr := (bandE h').2
      rw [collapseSp_cons_sp]
      have hlenD : ((d :: r).dropWhile (fun x => x = ' ')).length ≤ n := by
        have := (List.dropWhile_sublist (l := d :: r)
          (p := fun x => decide (x = ' '))).length_le
        simp only [List.length_cons] at hlen this ⊢
        omega
      have hY := nf3e_collapse_aux n ((d :: r).dropWhile (fun x => x = ' ')) hlenD
        (nf3e_drop_sp (d :: r) hnfdr)
      cases hYe : collapseSp ((d :: r).dropWhile (fun x => x = ' ')) with
      | nil => rfl
      | cons y ys =>
        rw [nf3e_sp y ys (by decide)]
        refine bandI ?_ (by rw [← hYe]; exact hY)
        have hkey : (y :: ys).dropWhile isSpc =
            collapseSp ((d :: r).dropWhile isSpc) := by
          rw [← hYe, collapse_dropSpc, dropWhile_sp_spc]
        rw [hkey]
        exact follow_collapse _ hfoll
    · cases hs : isSpc c with
      | true =>
        have h' := h
        rw [nf3e_sp d r hs] at h'
        have hfoll := (bandE h').1
        have hnfdr := (bandE h').2
        rw [collapseSp_cons (d :: r) hc]
        have hY := nf3e_collapse_aux n (d :: r) hlen2 hnfdr
        cases hYe : collapseSp (d :: r) with
        | nil => rfl
        | cons y ys =>
          rw [nf3e_sp y ys hs]
          refine bandI ?_ (by rw [← hYe]; exact hY)
          have hkey : (y :: ys).dropWhile isSpc =
              collapseSp ((d :: r).dropWhile isSpc) := by
            rw [← hYe, collapse_dropSpc]
          rw [hkey]
          exact follow_collapse _ hfoll
      | false =>
        cases hP : (isP1 c || isP2 c) with
        | false =>
          have h' := h
          rw [nf3e_plain d r hs hP] at h'
          rw [collapseSp_cons (d :: r) hc]
          have hY := nf3e_collapse_aux n (d :: r) hlen2 h'
          cases hYe : collapseSp (d :: r) with
          | nil => rfl
          | cons y ys =>
            rw [nf3e_plain y ys hs hP, ← hYe]
            exact hY
        | true =>
          rw [collapseSp_cons (d :: r) hc]
          cases hsd : isSpc d with
          | false =>
            have h' := h
            rw [nf3e_punct_excl r hs hP hsd] at h'
            have hed := (bandE h').1
            have hnf := (bandE h').2
            have hdne : ¬ d = ' ' := fun he => by
              rw [he] at hsd
              exact absurd hsd (by decide)
            rw [collapseSp_cons r hdne, nf3e_punct_excl (collapseSp r) hs hP hsd]
            refine bandI hed ?_
            have hY := nf3e_collapse_aux n (d :: r) hlen2 hnf
            rw [collapseSp_cons r hdne] at hY
            exact hY
          | true =>
            cases r with
            | nil =>
              by_cases hd' : d = ' '
              · subst hd'
                rw [collapseSp_cons_sp, List.dropWhile_nil, collapseSp_nil,
                  nf3e_punct_end hs hP (by decide)]
                rfl
              · rw [collapseSp_cons [] hd', collapseSp_nil,
                  nf3e_punct_end hs hP hsd]
                rfl
            | cons e rr =>
              have hlen3 : (e :: rr).length ≤ n := by
                simp only [List.length_cons] at hlen ⊢
                omega
              cases hPe : isP1 e with
              | true =>
                have h' := h
                rw [nf3e_punct_site rr hs hP hsd hPe] at h'
                have hdsp := (bandE h').1
                have hnfr := (bandE h').2
                have hd' : d = ' ' := eq_of_beq hdsp
                subst hd'
                have hene : ¬ e = ' ' := fun hEe => by
                  rw [hEe] at hPe
                  exact absurd hPe (by decide)
                rw [collapseSp_cons_sp,
                  List.dropWhile_cons_of_neg (by simpa using hene),
                  collapseSp_cons rr hene,
                  nf3e_punct_site (collapseSp rr) hs hP (by decide) hPe]
                refine bandI (by decide) ?_
                have hY := nf3e_collapse_aux n (e :: rr) hlen3 hnfr
                rw [collapseSp_cons rr hene] at hY
                exact hY
              | false =>
                have h' := h
                rw [nf3e_punct_nonsite rr hs hP hsd hPe] at h'
                have hY := nf3e_collapse_aux n (d :: e :: rr) hlen2 h'
                by_cases hd' : d = ' '
                · subst hd'
                  rw [collapseSp_cons_sp] at hY ⊢
                  cases hYD : collapseSp ((e :: rr).dropWhile (fun x => x = ' ')) with
                  | nil =>
                    rw [nf3e_punct_end hs hP (by decide)]
                    rfl
                  | cons y2 ys2 =>
                    have hfoll2 : (match (e :: rr).dropWhile (fun x => x = ' ') with
                        | f :: _ => !isP1 f | [] => true) = true := by
                      have h'' := h'
                      rw [nf3e_sp e rr (by decide)] at h''
                      exact follow_sp_of_spc (e :: rr) (bandE h'').1
                    have hP1y2 : isP1 y2 = false := by
                      have hhd : some y2 =
                          ((e :: rr).dropWhile (fun x => x = ' ')).head? := by
                        rw [← collapse_head, hYD]
                        rfl
                      cases hD2 : (e :: rr).dropWhile (fun x => x = ' ') with
                      | nil =>
                        rw [hD2] at hhd
                        exact absurd hhd (by simp)
                      | cons f fs =>
                        rw [hD2] at hhd hfoll2
                        have hyf : y2 = f := by simpa using hhd
                        subst hyf
                        dsimp only at hfoll2
                        exact bnotE hfoll2
                    rw [nf3e_punct_nonsite ys2 hs hP (by decide) hP1y2]
                    rw [hYD] at hY
                    exact hY
                · rw [collapseSp_cons (e :: rr) hd'] at hY ⊢
                  cases hYe : collapseSp (e :: rr) with
                  | nil =>
                    rw [nf3e_punct_end hs hP hsd]
                    rfl
                  | cons y2 ys2 =>
                    have hP1y2 : isP1 y2 = false := by
                      have hhd : some y2 = (e :: rr).head? := by
                        rw [← collapse_head, hYe]
                        rfl
                      have hy2e : y2 = e := by simpa using hhd
                      subst hy2e
                      exact hPe
                    rw [nf3e_punct_nonsite ys2 hs hP hsd hP1y2]
                    rw [hYe] at hY
                    exact hY
termination_by n _ _ _ => n
decreasing_by
  all_goals omega

theorem nf3e_collapse (z : Str) (h : nf3e z = true) : nf3e (collapseSp z) = true :=
  nf3e_collapse_aux z.length z le_rfl h


theorem nf3e_dropWhile_spc : ∀ (X : Str), nf3e X = true →
    nf3e (X.dropWhile isSpc) = true
  | [], h => h
  | a :: X', h => by
    cases ha : isSpc a with
    | true =>
      rw [List.dropWhile_cons_of_pos ha]
      exact nf3e_dropWhile_spc X' (nf3e_tail_ws ha h)
    | false =>
      rw [List.dropWhile_cons_of_neg (by rw [ha]; exact Bool.false_ne_true)]
      exact h

theorem capStep0_ws {a : Char} (ha : isSpc a = true) : capStep 0 a = 0 := by
  simp [capStep, isSpc_not_P2 ha]

theorem capOK0_dropWhile_spc : ∀ (X : Str), capOK 0 X = true →
    capOK 0 (X.dropWhile isSpc) = true
  | [], h => h
  | a :: X', h => by
    cases ha : isSpc a with
    | true =>
      rw [List.dropWhile_cons_of_pos ha]
      have hh := bandE (show (!(decide ((0 : Nat) = 2) && isLow a) &&
        capOK (capStep 0 a) X') = true from h)
      have h2 := hh.2
      rw [capStep0_ws ha] at h2
      exact capOK0_dropWhile_spc X' h2
    | false =>
      rw [List.dropWhile_cons_of_neg (by rw [ha]; exact Bool.false_ne_true)]
      exact h

theorem noDup_tail {c : Char} {cs : Str} (h : noDupSp (c :: cs) = true) :
    noDupSp cs = true := by
  cases cs with
  | nil => rfl
  | cons d ds =>
    exact (bandE (show (!(c == ' ' && d == ' ') && noDupSp (d :: ds)) = true from h)).2

theorem noDup_dropWhile_spc : ∀ (X : Str), noDupSp X = true →
    noDupSp (X.dropWhile isSpc) = true
  | [], h => h
  | a :: X', h => by
    cases ha : isSpc a with
    | true =>
      rw [List.dropWhile_cons_of_pos ha]
      exact noDup_dropWhile_spc X' (noDup_tail h)
    | false =>
      rw [List.dropWhile_cons_of_neg (by rw [ha]; exact Bool.false_ne_true)]
      exact h

theorem drop_append_cons : ∀ (X w : Str) {e : Char} {t : Str},
    X.dropWhile isSpc = e :: t → (X ++ w).dropWhile isSpc = e :: (t ++ w)
  | [], _, _, _, ht => by simp at ht
  | a :: X', w, e, t, ht => by
    cases ha : isSpc a with
    | true =>
      rw [List.dropWhile_cons_of_pos ha] at ht
      rw [List.cons_append, List.dropWhile_cons_of_pos ha]
      exact drop_append_cons X' w ht
    | false =>
      rw [List.dropWhile_cons_of_neg (by rw [ha]; exact Bool.false_ne_true)] at ht
      rw [List.cons_append,
        List.dropWhile_cons_of_neg (by rw [ha]; exact Bool.false_ne_true)]
      injection ht with h1 h2
      subst h1
      subst h2
      rfl

theorem nf3e_append_ws_aux : ∀ (n : Nat) (u w : Str), u.length ≤ n →
    (∀ a ∈ w, isSpc a = true) → nf3e (u ++ w) = true → nf3e u = true
  | _, [], _, _, _, _ => rfl
  | _, [_], _, _, _, _ => rfl
  | 0, _ :: _ :: _, _, hlen, _, _ => by
    simp only [List.length_cons] at hlen
    omega
  | n + 1, c :: d :: r, w, hlen, hw, h => by
    have hlen2 : (d :: r).length ≤ n := by
      simp only [List.length_cons] at hlen ⊢
      omega
    rw [List.cons_append, List.cons_append] at h
    cases hs : isSpc c with
    | true =>
      rw [nf3e_sp d (r ++ w) hs] at h
      have hfoll := (bandE h).1
      have htail := (bandE h).2
      rw [nf3e_sp d r hs]
      refine bandI ?_ (nf3e_append_ws_aux n (d :: r) w hlen2 hw
        (by rw [List.cons_append]; exact htail))
      cases hX : (d :: r).dropWhile isSpc with
      | nil => rfl
      | cons e t =>
        dsimp only
        have hX2 : (d :: (r ++ w)).dropWhile isSpc = e :: (t ++ w) := by
          rw [← List.cons_append]
          exact drop_append_cons (d :: r) w hX
        rw [hX2] at hfoll
        dsimp only at hfoll
        exact hfoll
    | false =>
      cases hP : (isP1 c || isP2 c) with
      | false =>
        rw [nf3e_plain d (r ++ w) hs hP] at h
        rw [nf3e_plain d r hs hP]
        exact nf3e_append_ws_aux n (d :: r) w hlen2 hw
          (by rw [List.cons_append]; exact h)
      | true =>
        cases hsd : isSpc d with
        | false =>
          rw [nf3e_punct_excl (r ++ w) hs hP hsd] at h
          rw [nf3e_punct_excl r hs hP hsd]
          exact bandI (bandE h).1 (nf3e_append_ws_aux n (d :: r) w hlen2 hw
            (by rw [List.cons_append]; exact (bandE h).2))
        | true =>
          cases r with
          | nil =>
            rw [nf3e_punct_end hs hP hsd]
            rfl
          | cons e rr =>
            have hlen3 : (e :: rr).length ≤ n := by
              simp only [List.length_cons] at hlen ⊢
              omega
            rw [List.cons_append] at h
            cases hPe : isP1 e with
            | true =>
              rw [nf3e_punct_site (rr ++ w) hs hP hsd hPe] at h
              rw [nf3e_punct_site rr hs hP hsd hPe]
              exact bandI (bandE h).1 (nf3e_append_ws_aux n (e :: rr) w hlen3 hw
                (by rw [List.cons_append]; exact (bandE h).2))
            | false =>
              rw [nf3e_punct_nonsite (rr ++ w) hs hP hsd hPe] at h
              rw [nf3e_punct_nonsite rr hs hP hsd hPe]
              exact nf3e_append_ws_aux n (d :: e :: rr) w hlen2 hw
                (by rw [List.cons_append, List.cons_append]; exact h)
termination_by n _ _ _ _ _ => n
decreasing_by
  all_goals omega

theorem nf3e_append_ws (u w : Str) (hw : ∀ a ∈ w, isSpc a = true)
    (h : nf3e (u ++ w) = true) : nf3e u = true :=
  nf3e_append_ws_aux u.length u w le_rfl hw h

theorem capOK_pref : ∀ (st : Nat) (X Y : Str), capOK st (X ++ Y) = true →
    capOK st X = true
  | _, [], _, _ => rfl
  | st, a :: X', Y, h => by
    have hh := bandE (show (!(decide (st = 2) && isLow a) &&
      capOK (capStep st a) (X' ++ Y)) = true from h)
    show (!(decide (st = 2) && isLow a) && capOK (capStep st a) X') = true
    exact bandI hh.1 (capOK_pref (capStep st a) X' Y hh.2)

theorem noDup_pref : ∀ (X Y : Str), noDupSp (X ++ Y) = true → noDupSp X = true
  | [], _, _ => rfl
  | [_], _, _ => rfl
  | c :: d :: r, Y, h => by
    have hh := bandE (show (!(c == ' ' && d == ' ') &&
      noDupSp (d :: (r ++ Y))) = true from h)
    show (!(c == ' ' && d == ' ') && noDupSp (d :: r)) = true
    exact bandI hh.1 (noDup_pref (d :: r) Y hh.2)

theorem strip_decomp (u : Str) :
    u = (u.reverse.dropWhile isSpc).reverse ++ (u.reverse.takeWhile isSpc).reverse ∧
    (∀ a ∈ (u.reverse.takeWhile isSpc).reverse, isSpc a = true) := by
  constructor
  · conv_lhs => rw [← List.reverse_reverse u,
      ← List.takeWhile_append_dropWhile isSpc u.reverse]
    rw [List.reverse_append]
  · intro a ha
    rw [List.mem_reverse] at ha
    exact List.mem_takeWhile_imp ha

theorem pyStrip_nf3e (x : Str) (h : nf3e x = true) : nf3e (pyStrip x) = true := by
  have hu : nf3e (x.dropWhile isSpc) = true := nf3e_dropWhile_spc x h
  have hd := strip_decomp (x.dropWhile isSpc)
  rw [pyStrip]
  exact nf3e_append_ws _ _ hd.2 (by rw [← hd.1]; exact hu)

theorem pyStrip_capOK (x : Str) (h : capOK 0 x = true) :
    capOK 0 (pyStrip x) = true := by
  have hu := capOK0_dropWhile_spc x h
  have hd := strip_decomp (x.dropWhile isSpc)
  rw [pyStrip]
  exact capOK_pref 0 _ _ (by rw [← hd.1]; exact hu)

theorem pyStrip_noDup (x : Str) (h : noDupSp x = true) :
    noDupSp (pyStrip x) = true := by
  have hu := noDup_dropWhile_spc x h
  have hd := strip_decomp (x.dropWhile isSpc)
  rw [pyStrip]
  exact noDup_pref _ _ (by rw [← hd.1]; exact hu)

theorem pyStrip_stripped (x : Str) : strippedB (pyStrip x) = true := by
  have hd := strip_decomp (x.dropWhile isSpc)
  rw [pyStrip, strippedB]
  refine bandI ?_ ?_
  · cases hv : ((x.dropWhile isSpc).reverse.dropWhile isSpc).reverse with
    | nil => rfl
    | cons y ys =>
      have hhead : (x.dropWhile isSpc).head? = some y := by
        rw [hd.1, hv]
        rfl
      have hdw := @head_dropWhile isSpc x
      cases hx : x.dropWhile isSpc with
      | nil =>
        rw [hx] at hhead
        exact absurd hhead (by simp)
      | cons f fs =>
        rw [hx] at hhead hdw
        dsimp only at hdw
        have hfy : f = y := by simpa using hhead
        subst hfy
        show (!isSpc f) = true
        rw [hdw]
        rfl
  · rw [List.getLast?_reverse]
    have hdw := @head_dropWhile isSpc (x.dropWhile isSpc).reverse
    cases hx : (x.dropWhile isSpc).reverse.dropWhile isSpc with
    | nil => rfl
    | cons f fs =>
      rw [hx] at hdw
      dsimp only at hdw
      show (!isSpc f) = true
      rw [hdw]
      rfl

theorem engineNorm_nf (s : Str) : nf3e (engineNorm s) = true ∧
    capOK 0 (engineNorm s) = true ∧ noDupSp (engineNorm s) = true ∧
    strippedB (engineNorm s) = true := by
  have h1 : nf3e (insertAfterP isP2 exclE false
      (insertAfterP isP1 exclE false (delRunBefore isP1 s))) = true :=
    nf3e_comp2 _ (nwb_delRB s)
  have h2 : nf3e (capAfter (insertAfterP isP2 exclE false
      (insertAfterP isP1 exclE false (delRunBefore isP1 s)))) = true := by
    rw [capAfter]
    exact nf3e_capAux 0 _ h1
  have h3 : capOK 0 (capAfter (insertAfterP isP2 exclE false
      (insertAfterP isP1 exclE false (delRunBefore isP1 s)))) = true := by
    rw [capAfter]
    exact capOK_capAux 0 _
  rw [engineNorm]
  exact ⟨pyStrip_nf3e _ (nf3e_collapse _ h2),
    pyStrip_capOK _ (capOK_collapse _ 0 h3),
    pyStrip_noDup _ (noDupSp_collapse _),
    pyStrip_stripped _⟩

theorem engineNorm_id (t : Str) (h1 : nf3e t = true) (h2 : capOK 0 t = true)
    (h3 : noDupSp t = true) (h4 : strippedB t = true) : engineNorm t = t := by
  rw [engineNorm, engine_ins_del_id t h1, capAfter, capAfterAux_id 0 t h2,
    collapseSp_id t h3, pyStrip_id t h4]

theorem engineNorm_idem (s : Str) : engineNorm (engineNorm s) = engineNorm s := by
  obtain ⟨h1, h2, h3, h4⟩ := engineNorm_nf s
  exact engineNorm_id _ h1 h2 h3 h4


theorem nf3p_sp {c : Char} (d : Char) (r : Str) (h : isSpc c = true) :
    nf3p (c :: d :: r) =
      ((match (d :: r).dropWhile isSpc with
        | e :: _ => !isP1 e
        | [] => true) && nf3p (d :: r)) := by
  simp [nf3p, h]

theorem nf3p_plain {c : Char} (d : Char) (r : Str) (hsp : isSpc c = false)
    (hP : (isP1 c || isP2 c) = false) :
    nf3p (c :: d :: r) = nf3p (d :: r) := by
  simp [nf3p, hsp, hP]

theorem nf3p_punct_excl {c d : Char} (r : Str) (hsp : isSpc c = false)
    (hP : (isP1 c || isP2 c) = true) (hd : isSpc d = false) :
    nf3p (c :: d :: r) =
      ((!isP1 c || exclP1p d) && ((!isP2 c || exclP2p d) && nf3p (d :: r))) := by
  simp [nf3p, hsp, hP, hd, Bool.and_assoc]

theorem nf3p_punct_end {c d : Char} (hsp : isSpc c = false)
    (hP : (isP1 c || isP2 c) = true) (hd : isSpc d = true) :
    nf3p [c, d] = nf3p [d] := by
  simp [nf3p, hsp, hP, hd]

theorem nf3p_punct_site {c d e : Char} (r' : Str) (hsp : isSpc c = false)
    (hP : (isP1 c || isP2 c) = true) (hd : isSpc d = true) (he : isP1 e = true) :
    nf3p (c :: d :: e :: r') = ((isP2 c && (d == ' ')) && nf3p (e :: r')) := by
  simp [nf3p, hsp, hP, hd, he]

theorem nf3p_punct_nonsite {c d e : Char} (r' : Str) (hsp : isSpc c = false)
    (hP : (isP1 c || isP2 c) = true) (hd : isSpc d = true) (he : isP1 e = false) :
    nf3p (c :: d :: e :: r') = nf3p (d :: e :: r') := by
  simp [nf3p, hsp, hP, hd, he]

theorem isSpc_exclP1p {c : Char} (h : isSpc c = true) : exclP1p c = true := by
  simp only [exclP1p, h, Bool.true_or]

theorem isSpc_exclP2p {c : Char} (h : isSpc c = true) : exclP2p c = true := by
  simp only [exclP2p, h, Bool.true_or]

theorem isP1_exclP1p {c : Char} (h : isP1 c = true) : exclP1p c = true := by
  simp [exclP1p, h]

theorem isP1_not_exclP2p {c : Char} (h : isP1 c = true) : exclP2p c = false := by
  simp only [isP1, Bool.or_eq_true, decide_eq_true_eq] at h
  rcases h with ((h | h) | h) | h <;> subst h <;> decide

theorem isP1_not_openBr {c : Char} (h : isP1 c = true) : isOpenBr c = false := by
  simp only [isP1, Bool.or_eq_true, decide_eq_true_eq] at h
  rcases h with ((h | h) | h) | h <;> subst h <;> decide

theorem isP1_ne_nl {c : Char} (h : isP1 c = true) : ¬ c = '\n' := fun hc => by
  rw [hc] at h
  exact absurd h (by decide)

theorem isP1_ne_sp {c : Char} (h : isP1 c = true) : ¬ c = ' ' := fun hc => by
  rw [hc] at h
  exact absurd h (by decide)

theorem isCloseBr_not_spc {c : Char} (h : isCloseBr c = true) : isSpc c = false := by
  simp only [isCloseBr, Bool.or_eq_true, decide_eq_true_eq] at h
  rcases h with (h | h) | h <;> subst h <;> decide

theorem isCloseBr_exclP1p {c : Char} (h : isCloseBr c = true) : exclP1p c = true := by
  simp only [isCloseBr, Bool.or_eq_true, decide_eq_true_eq] at h
  rcases h with (h | h) | h <;> subst h <;> decide

theorem isCloseBr_exclP2p {c : Char} (h : isCloseBr c = true) : exclP2p c = true := by
  simp only [isCloseBr, Bool.or_eq_true, decide_eq_true_eq] at h
  rcases h with (h | h) | h <;> subst h <;> decide

theorem isOpenBr_plain {c : Char} (h : isOpenBr c = true) :
    isSpc c = false ∧ isP1 c = false ∧ isP2 c = false := by
  simp only [isOpenBr, Bool.or_eq_true, decide_eq_true_eq] at h
  rcases h with (h | h) | h <;> subst h <;> exact ⟨by decide, by decide, by decide⟩

theorem insA_skip_t {P excl : Char → Bool} {c d : Char} (ds : Str)
    (h : P c = true) (hd : excl d = true) (hne : (d = '\n' ∧ ds = []) → False) :
    insertAfterP P excl true (c :: d :: ds) =
      c :: insertAfterP P excl true (d :: ds) := by
  simp only [insertAfterP, h, hd]
  have hc : (true && decide (d = '\n') && decide (ds = [])) = false := by
    by_cases h1 : d = '\n'
    · have h2 : ds ≠ [] := fun hcon => hne ⟨h1, hcon⟩
      simp [h1, h2]
    · simp [h1]
  rw [hc]
  rfl

theorem delRB_ne_nil (P : Char → Bool) : ∀ (X : Str), X ≠ [] →
    delRunBefore P X ≠ []
  | [], h => absurd rfl h
  | c :: cs, _ => by
    cases hsp : isSpc c with
    | false =>
      rw [delRB_cons P cs hsp]
      simp
    | true =>
      rw [delRB_sp P cs hsp]
      cases hrest : (c :: cs).dropWhile isSpc with
      | nil =>
        simp only [List.nil_append]
        rw [List.takeWhile_cons_of_pos hsp]
        simp
      | cons d dd =>
        dsimp only
        by_cases hP : P d = true
        · rw [if_pos hP]
          simp only [List.nil_append]
          exact delRB_ne_nil P (d :: dd) (by simp)
        · rw [if_neg hP, List.takeWhile_cons_of_pos hsp]
          simp
termination_by X => X.length
decreasing_by
  · have hsub := (List.dropWhile_sublist (l := c :: cs) (p := isSpc)).length_le
    rw [hrest] at hsub
    simp only [List.length_cons] at hsub ⊢
    have : isSpc c = true := hsp
    rw [List.dropWhile_cons_of_pos this] at hrest
    have hsub2 := (List.dropWhile_sublist (l := cs) (p := isSpc)).length_le
    rw [hrest] at hsub2
    simp only [List.length_cons] at hsub2
    omega

theorem getLast?_dropWhile_pres {p : Char → Bool} (l : Str)
    (h : l.dropWhile p ≠ []) : (l.dropWhile p).getLast? = l.getLast? := by
  conv_rhs => rw [← List.takeWhile_append_dropWhile p l]
  exact (List.getLast?_append_of_ne_nil (l.takeWhile p) h).symm

theorem nwoa_snoc : ∀ (t : Str) (x : Char), noWsAfterOpen t = true →
    (∀ c, t.getLast? = some c → (isOpenBr c && isSpc x) = false) →
    noWsAfterOpen (t ++ [x]) = true
  | [], _, _, _ => rfl
  | [c], x, _, hl => by
    show (!(isOpenBr c && isSpc x) && noWsAfterOpen [x]) = true
    rw [hl c rfl]
    rfl
  | c :: d :: r, x, h, hl => by
    have hh := bandE (show (!(isOpenBr c && isSpc d) &&
      noWsAfterOpen (d :: r)) = true from h)
    show (!(isOpenBr c && isSpc d) && noWsAfterOpen ((d :: r) ++ [x])) = true
    exact bandI hh.1 (nwoa_snoc (d :: r) x hh.2
      (fun e he => hl e (by rw [List.getLast?_cons_cons]; exact he)))

theorem nwbP_snoc {P : Char → Bool} : ∀ (t : Str) (x : Char),
    noWsBefore P t = true → P x = false → noWsBefore P (t ++ [x]) = true
  | [], _, _, _ => rfl
  | [c], x, _, hx => by
    show (!(isSpc c && P x) && noWsBefore P [x]) = true
    rw [hx, Bool.and_false]
    rfl
  | c :: d :: r, x, h, hx => by
    have hh := bandE (show (!(isSpc c && P d) && noWsBefore P (d :: r)) = true from h)
    show (!(isSpc c && P d) && noWsBefore P ((d :: r) ++ [x])) = true
    exact bandI hh.1 (nwbP_snoc (d :: r) x hh.2 hx)

theorem noDup_snoc : ∀ (t : Str) (x : Char), noDupSp t = true →
    (∀ c, t.getLast? = some c → (c == ' ' && x == ' ') = false) →
    noDupSp (t ++ [x]) = true
  | [], _, _, _ => rfl
  | [c], x, _, hl => by
    show (!(c == ' ' && x == ' ') && noDupSp [x]) = true
    rw [hl c rfl]
    rfl
  | c :: d :: r, x, h, hl => by
    have hh := bandE (show (!(c == ' ' && d == ' ') && noDupSp (d :: r)) = true from h)
    show (!(c == ' ' && d == ' ') && noDupSp ((d :: r) ++ [x])) = true
    exact bandI hh.1 (noDup_snoc (d :: r) x hh.2
      (fun e he => hl e (by rw [List.getLast?_cons_cons]; exact he)))

theorem capAux_append_sp : ∀ (st : Nat) (x : Str),
    capAfterAux st (x ++ [' ']) = capAfterAux st x ++ [' ']
  | st, [] => by
    show (if st = 2 && isLow ' ' then upChar ' ' else ' ') :: capAfterAux (capStep st ' ') [] =
      [] ++ [' ']
    rw [(by decide : isLow ' ' = false), Bool.and_false, if_neg (by simp)]
    rfl
  | st, c :: cs => by
    show (if st = 2 && isLow c then upChar c else c) :: capAfterAux (capStep st c) (cs ++ [' ']) =
      ((if st = 2 && isLow c then upChar c else c) :: capAfterAux (capStep st c) cs) ++ [' ']
    rw [capAux_append_sp (capStep st c) cs]
    rfl


theorem endsP1_cons_cons {c d : Char} (r : Str) :
    endsP1 (c :: d :: r) = endsP1 (d :: r) := by
  simp only [endsP1, List.getLast?_cons_cons]

theorem lastOK_cons_cons {c d : Char} (r : Str) :
    lastOK (c :: d :: r) = lastOK (d :: r) := by
  simp only [lastOK, List.getLast?_cons_cons]

theorem endsP1_single (c : Char) : endsP1 [c] = isP1 c := by
  simp [endsP1]

theorem lastOK_single (c : Char) : lastOK [c] = !isSpc c := by
  simp [lastOK]

theorem preset_ins_del : ∀ (t : Str), nf3p t = true → lastOK t = true →
    insertAfterP isP2 exclP2p false (insertAfterP isP1 exclP1p true
      (delRunBefore isP1 t)) = t ++ (if endsP1 t then [' '] else [])
  | [], _, _ => by
    rw [delRB_nil, insA_nil, insA_nil]
    simp [endsP1]
  | [c], _, hl => by
    have hsp : isSpc c = false := by
      rw [lastOK_single] at hl
      exact bnotE hl
    rw [delRB_cons isP1 [] hsp, delRB_nil, endsP1_single]
    cases hP1 : isP1 c with
    | true =>
      rw [insA_single exclP1p true hP1]
      simp only [if_true]
      cases hP2 : isP2 c with
      | true =>
        rw [insA_skip [] hP2 (by decide : exclP2p ' ' = true),
          insA_not exclP2p false [] (by decide : isP2 ' ' = false), insA_nil]
        rfl
      | false =>
        rw [insA_not exclP2p false [' '] hP2,
          insA_not exclP2p false [] (by decide : isP2 ' ' = false), insA_nil]
        rfl
    | false =>
      rw [insA_not exclP1p true [] hP1, insA_nil]
      cases hP2 : isP2 c with
      | true =>
        rw [insA_single exclP2p false hP2]
        simp
      | false =>
        rw [insA_not exclP2p false [] hP2, insA_nil]
        simp
  | c :: d :: r, h, hl => by
    have hl2 : lastOK (d :: r) = true := by
      rw [lastOK_cons_cons] at hl
      exact hl
    rw [endsP1_cons_cons, List.cons_append]
    cases hsp : isSpc c with
    | true =>
      rw [nf3p_sp d r hsp] at h
      obtain ⟨h1, h2⟩ := bandE h
      have hdel : delRunBefore isP1 (c :: d :: r) = c :: delRunBefore isP1 (d :: r) := by
        refine delRB_keep isP1 (d :: r) c hsp ?_
        match hm : (d :: r).dropWhile isSpc with
        | [] => trivial
        | e :: rest =>
          rw [hm] at h1
          exact bnotE h1
      rw [hdel, insA_not exclP1p true _ (isSpc_not_P1 hsp),
        insA_not exclP2p false _ (isSpc_not_P2 hsp),
        preset_ins_del (d :: r) h2 hl2]
    | false =>
      cases hP : (isP1 c || isP2 c) with
      | false =>
        have hP1 : isP1 c = false := (borFalse hP).1
        have hP2 : isP2 c = false := (borFalse hP).2
        rw [nf3p_plain d r hsp hP] at h
        rw [delRB_cons isP1 (d :: r) hsp, insA_not exclP1p true _ hP1,
          insA_not exclP2p false _ hP2, preset_ins_del (d :: r) h hl2]
      | true =>
        cases hsd : isSpc d with
        | false =>
          rw [nf3p_punct_excl r hsp hP hsd] at h
          obtain ⟨hex1, hrest⟩ := bandE h
          obtain ⟨hex2, h2⟩ := bandE hrest
          rw [delRB_cons isP1 (d :: r) hsp]
          have hdel2 : delRunBefore isP1 (d :: r) = d :: delRunBefore isP1 r :=
            delRB_cons isP1 r hsd
          rw [hdel2]
          have hdnl : ¬ d = '\n' := fun hn => by
            rw [hn] at hsd
            exact absurd hsd (by decide)
          have hstep1 : insertAfterP isP1 exclP1p true (c :: d :: delRunBefore isP1 r) =
              c :: insertAfterP isP1 exclP1p true (d :: delRunBefore isP1 r) := by
            cases hP1 : isP1 c with
            | true =>
              have hexd : exclP1p d = true := by
                rcases borE hex1 with h' | h'
                · rw [hP1] at h'
                  exact absurd h' (by decide)
                · exact h'
              exact insA_skip_t _ hP1 hexd (fun hc => hdnl hc.1)
            | false => exact insA_not exclP1p true _ hP1
          rw [hstep1]
          obtain ⟨Y, hY⟩ := @insA_head isP1 exclP1p true
            d (delRunBefore isP1 r)
          rw [hY]
          have hstep2 : insertAfterP isP2 exclP2p false (c :: d :: Y) =
              c :: insertAfterP isP2 exclP2p false (d :: Y) := by
            cases hP2 : isP2 c with
            | true =>
              have hexd : exclP2p d = true := by
                rcases borE hex2 with h' | h'
                · rw [hP2] at h'
                  exact absurd h' (by decide)
                · exact h'
              exact insA_skip _ hP2 hexd
            | false => exact insA_not exclP2p false _ hP2
          rw [hstep2, ← hY, ← hdel2, preset_ins_del (d :: r) h2 hl2]
        | true =>
          match r with
          | [] =>
            rw [lastOK_cons_cons, lastOK_single] at hl
            rw [hsd] at hl
            exact absurd hl (by decide)
          | e :: r' =>
            have hle : lastOK (e :: r') = true := by
              rw [lastOK_cons_cons] at hl2
              exact hl2
            cases hPe : isP1 e with
            | true =>
              rw [nf3p_punct_site r' hsp hP hsd hPe] at h
              obtain ⟨hsite, h2⟩ := bandE h
              obtain ⟨hP2c, hdsp⟩ := bandE hsite
              have hd' : d = ' ' := by simpa using hdsp
              subst hd'
              rw [endsP1_cons_cons, List.cons_append]
              have hspe : isSpc e = false := isP1_not_spc hPe
              rw [delRB_cons isP1 _ hsp, delRB_site isP1 r' ' ' (by decide) hspe hPe]
              have hdel2 : delRunBefore isP1 (e :: r') = e :: delRunBefore isP1 r' :=
                delRB_cons isP1 r' hspe
              rw [hdel2]
              have hstep1 : insertAfterP isP1 exclP1p true (c :: e :: delRunBefore isP1 r') =
                  c :: insertAfterP isP1 exclP1p true (e :: delRunBefore isP1 r') := by
                cases hP1 : isP1 c with
                | true =>
                  exact insA_skip_t _ hP1 (isP1_exclP1p hPe)
                    (fun hc => isP1_ne_nl hPe hc.1)
                | false => exact insA_not exclP1p true _ hP1
              rw [hstep1]
              obtain ⟨Y, hY⟩ := @insA_head isP1 exclP1p true
                e (delRunBefore isP1 r')
              rw [hY, insA_ins _ hP2c (isP1_not_exclP2p hPe), ← hY, ← hdel2,
                preset_ins_del (e :: r') h2 hle]
            | false =>
              have horig : nf3p (d :: e :: r') = true := by
                rw [← nf3p_punct_nonsite r' hsp hP hsd hPe]
                exact h
              rw [nf3p_punct_nonsite r' hsp hP hsd hPe, nf3p_sp e r' hsd] at h
              obtain ⟨h1, h2⟩ := bandE h
              rw [delRB_cons isP1 _ hsp]
              have hdel2 : delRunBefore isP1 (d :: e :: r') =
                  d :: delRunBefore isP1 (e :: r') := by
                refine delRB_keep isP1 (e :: r') d hsd ?_
                match hm : (e :: r').dropWhile isSpc with
                | [] => trivial
                | e2 :: rest =>
                  rw [hm] at h1
                  exact bnotE h1
              rw [hdel2]
              have hne2 : delRunBefore isP1 (e :: r') ≠ [] :=
                delRB_ne_nil isP1 (e :: r') (by simp)
              have hstep1 : insertAfterP isP1 exclP1p true
                  (c :: d :: delRunBefore isP1 (e :: r')) =
                  c :: insertAfterP isP1 exclP1p true (d :: delRunBefore isP1 (e :: r')) := by
                cases hP1 : isP1 c with
                | true =>
                  exact insA_skip_t _ hP1 (isSpc_exclP1p hsd) (fun hc => hne2 hc.2)
                | false => exact insA_not exclP1p true _ hP1
              rw [hstep1]
              obtain ⟨Y, hY⟩ := @insA_head isP1 exclP1p true
                d (delRunBefore isP1 (e :: r'))
              rw [hY]
              have hstep2 : insertAfterP isP2 exclP2p false (c :: d :: Y) =
                  c :: insertAfterP isP2 exclP2p false (d :: Y) := by
                cases hP2 : isP2 c with
                | true => exact insA_skip _ hP2 (isSpc_exclP2p hsd)
                | false => exact insA_not exclP2p false _ hP2
              rw [hstep2, ← hY, ← hdel2, preset_ins_del (d :: e :: r') horig hl2]
termination_by t _ _ => t.length
decreasing_by
  all_goals simp only [List.length_cons]
  all_goals omega


theorem nf3p_tail_ws {c : Char} {ys : Str} (hc : isSpc c = true)
    (h : nf3p (c :: ys) = true) : nf3p ys = true := by
  cases ys with
  | nil => rfl
  | cons d r =>
    rw [nf3p_sp d r hc] at h
    exact (bandE h).2

theorem nf3p_ws_prefix : ∀ (w z : Str), (∀ a ∈ w, isSpc a = true) →
    (match z with
     | [] => True
     | f :: _ => isSpc f = false ∧ isP1 f = false) →
    nf3p z = true → nf3p (w ++ z) = true
  | [], _, _, _, hz => hz
  | a :: w', z, hw, hz, hnf => by
    have ha : isSpc a = true := hw a (List.mem_cons_self _ _)
    have hw' : ∀ x ∈ w', isSpc x = true := fun x hx => hw x (List.mem_cons_of_mem _ hx)
    have hrest := nf3p_ws_prefix w' z hw' hz hnf
    rw [show (a :: w') ++ z = a :: (w' ++ z) from rfl]
    match hwz : w' ++ z with
    | [] => rfl
    | b :: rest =>
      rw [nf3p_sp b rest ha]
      refine Bool.and_eq_true_iff.mpr ⟨?_, by rw [← hwz]; exact hrest⟩
      have hdw : (b :: rest).dropWhile isSpc = z.dropWhile isSpc := by
        rw [← hwz]
        exact dropWhile_all w' z hw'
      rw [hdw]
      match hz2 : z with
      | [] => rfl
      | f :: zr =>
        have hz' : isSpc f = false ∧ isP1 f = false := hz
        rw [List.dropWhile_cons_of_neg (by rw [hz'.1]; exact Bool.false_ne_true)]
        dsimp only
        rw [hz'.2]
        rfl

theorem comp2p_head (c : Char) (cs : Str) :
    ∃ Y, insertAfterP isP2 exclP2p false (insertAfterP isP1 exclP1p true (c :: cs)) =
      c :: Y := by
  obtain ⟨Y1, hY1⟩ := @insA_head isP1 exclP1p true c cs
  rw [hY1]
  exact insA_head c Y1

theorem comp2p_step_excl {c d : Char} (ds : Str)
    (h1 : isP1 c = false ∨ (exclP1p d = true ∧ ((d = '\n' ∧ ds = []) → False)))
    (h2 : isP2 c = false ∨ exclP2p d = true) :
    insertAfterP isP2 exclP2p false (insertAfterP isP1 exclP1p true (c :: d :: ds)) =
      c :: insertAfterP isP2 exclP2p false (insertAfterP isP1 exclP1p true (d :: ds)) := by
  have hstep1 : insertAfterP isP1 exclP1p true (c :: d :: ds) =
      c :: insertAfterP isP1 exclP1p true (d :: ds) := by
    rcases h1 with h1 | ⟨hex, hne⟩
    · exact insA_not exclP1p true _ h1
    · cases hP1 : isP1 c with
      | true => exact insA_skip_t _ hP1 hex hne
      | false => exact insA_not exclP1p true _ hP1
  rw [hstep1]
  obtain ⟨Y, hY⟩ := @insA_head isP1 exclP1p true d ds
  rw [hY]
  have hstep2 : insertAfterP isP2 exclP2p false (c :: d :: Y) =
      c :: insertAfterP isP2 exclP2p false (d :: Y) := by
    rcases h2 with h2 | hex2
    · exact insA_not exclP2p false _ h2
    · cases hP2 : isP2 c with
      | true => exact insA_skip _ hP2 hex2
      | false => exact insA_not exclP2p false _ hP2
  rw [hstep2, ← hY]

theorem comp2p_ins1 {c d : Char} (ds : Str) (hP1 : isP1 c = true)
    (hex : exclP1p d = false) :
    insertAfterP isP2 exclP2p false (insertAfterP isP1 exclP1p true (c :: d :: ds)) =
      c :: ' ' :: insertAfterP isP2 exclP2p false
        (insertAfterP isP1 exclP1p true (d :: ds)) := by
  rw [insA_ins _ hP1 hex]
  cases hP2 : isP2 c with
  | true =>
    rw [insA_skip _ hP2 (by decide : exclP2p ' ' = true),
      insA_not exclP2p false _ (by decide : isP2 ' ' = false)]
  | false =>
    rw [insA_not exclP2p false _ hP2,
      insA_not exclP2p false _ (by decide : isP2 ' ' = false)]

theorem comp2p_ins2 {c d : Char} (ds : Str) (hP2 : isP2 c = true)
    (hex2 : exclP2p d = false)
    (h1 : isP1 c = false ∨ (exclP1p d = true ∧ ((d = '\n' ∧ ds = []) → False))) :
    insertAfterP isP2 exclP2p false (insertAfterP isP1 exclP1p true (c :: d :: ds)) =
      c :: ' ' :: insertAfterP isP2 exclP2p false
        (insertAfterP isP1 exclP1p true (d :: ds)) := by
  have hstep1 : insertAfterP isP1 exclP1p true (c :: d :: ds) =
      c :: insertAfterP isP1 exclP1p true (d :: ds) := by
    rcases h1 with h1 | ⟨hex, hne⟩
    · exact insA_not exclP1p true _ h1
    · cases hP1 : isP1 c with
      | true => exact insA_skip_t _ hP1 hex hne
      | false => exact insA_not exclP1p true _ hP1
  rw [hstep1]
  obtain ⟨Y, hY⟩ := @insA_head isP1 exclP1p true d ds
  rw [hY, insA_ins _ hP2 hex2, ← hY]

theorem comp2p_nl {c : Char} (hP1 : isP1 c = true) :
    insertAfterP isP2 exclP2p false (insertAfterP isP1 exclP1p true (c :: ['\n'])) =
      [c, ' ', '\n'] := by
  have h1 : insertAfterP isP1 exclP1p true (c :: ['\n']) = [c, ' ', '\n'] := by
    simp only [insertAfterP, hP1, (by decide : exclP1p '\n' = true),
      (by decide : isP1 '\n' = false)]
    simp
  rw [h1]
  have hrest : insertAfterP isP2 exclP2p false [' ', '\n'] = [' ', '\n'] := by
    rw [insA_not exclP2p false _ (by decide : isP2 ' ' = false),
      insA_not exclP2p false _ (by decide : isP2 '\n' = false), insA_nil]
  cases hP2 : isP2 c with
  | true => rw [insA_skip _ hP2 (by decide : exclP2p ' ' = true), hrest]
  | false => rw [insA_not exclP2p false _ hP2, hrest]


theorem nf3p_comp2 : ∀ (y : Str), noWsBefore isP1 y = true →
    nf3p (insertAfterP isP2 exclP2p false (insertAfterP isP1 exclP1p true y)) = true
  | [], _ => rfl
  | [c], _ => by
    cases hP1 : isP1 c with
    | true =>
      rw [insA_single exclP1p true hP1]
      simp only [if_true]
      cases hP2 : isP2 c with
      | true =>
        rw [insA_skip [] hP2 (by decide : exclP2p ' ' = true),
          insA_not exclP2p false [] (by decide : isP2 ' ' = false), insA_nil]
        rw [nf3p_punct_end (isP1_not_spc hP1) (by rw [hP1]; rfl) (by decide)]
        rfl
      | false =>
        rw [insA_not exclP2p false [' '] hP2,
          insA_not exclP2p false [] (by decide : isP2 ' ' = false), insA_nil]
        rw [nf3p_punct_end (isP1_not_spc hP1) (by rw [hP1]; rfl) (by decide)]
        rfl
    | false =>
      rw [insA_not exclP1p true [] hP1, insA_nil]
      cases hP2 : isP2 c with
      | true =>
        rw [insA_single exclP2p false hP2]
        rfl
      | false =>
        rw [insA_not exclP2p false [] hP2, insA_nil]
        rfl
  | c :: d :: r, h => by
    cases hsp : isSpc c with
    | true =>
      have hw : ∀ a ∈ (d :: r).takeWhile isSpc, isSpc a = true := fun a ha =>
        List.mem_takeWhile_imp ha
      have hsplit : (d :: r).takeWhile isSpc ++ (d :: r).dropWhile isSpc = d :: r :=
        List.takeWhile_append_dropWhile isSpc (d :: r)
      have hw0 : ∀ a ∈ c :: (d :: r).takeWhile isSpc, isSpc a = true := by
        intro a ha
        rcases List.mem_cons.mp ha with rfl | ha'
        · exact hsp
        · exact hw a ha'
      have hy : c :: d :: r = (c :: (d :: r).takeWhile isSpc) ++ (d :: r).dropWhile isSpc := by
        rw [List.cons_append, hsplit]
      rw [hy, insA_allnot _ _ (fun a ha => isSpc_not_P1 (hw0 a ha)),
        insA_allnot _ _ (fun a ha => isSpc_not_P2 (hw0 a ha))]
      refine nf3p_ws_prefix _ _ hw0 ?_ ?_
      · match hrest : (d :: r).dropWhile isSpc with
        | [] => exact trivial
        | f :: rest' =>
          obtain ⟨Y, hY⟩ := comp2p_head f rest'
          rw [hY]
          dsimp only
          constructor
          · have hh := head_dropWhile (p := isSpc) (d :: r)
            rw [hrest] at hh
            exact hh
          · have hf := nwb_follower (c := c) (d :: r) h hsp
            rw [hrest] at hf
            exact hf
      · exact nf3p_comp2 ((d :: r).dropWhile isSpc) (nwb_dropWhile _ (nwb_tail h))
    | false =>
      cases hP : (isP1 c || isP2 c) with
      | false =>
        rw [insA_not exclP1p true _ (borFalse hP).1,
          insA_not exclP2p false _ (borFalse hP).2]
        obtain ⟨Y, hY⟩ := comp2p_head d r
        rw [hY, nf3p_plain d Y hsp hP, ← hY]
        exact nf3p_comp2 (d :: r) (nwb_tail h)
      | true =>
        cases hsd : isSpc d with
        | false =>
          cases hP1 : isP1 c with
          | true =>
            cases hex1 : exclP1p d with
            | false =>
              rw [comp2p_ins1 r hP1 hex1]
              obtain ⟨Y, hY⟩ := comp2p_head d r
              rw [hY]
              have hPd : isP1 d = false := by
                cases hpd : isP1 d with
                | false => rfl
                | true =>
                  rw [isP1_exclP1p hpd] at hex1
                  exact absurd hex1 (by decide)
              rw [nf3p_punct_nonsite Y hsp hP (by decide : isSpc ' ' = true) hPd,
                nf3p_sp d Y (by decide : isSpc ' ' = true)]
              refine bandI ?_ ?_
              · rw [List.dropWhile_cons_of_neg (by rw [hsd]; exact Bool.false_ne_true)]
                dsimp only
                rw [hPd]
                rfl
              · rw [← hY]
                exact nf3p_comp2 (d :: r) (nwb_tail h)
            | true =>
              have hdnl : ((d = '\n' ∧ r = []) → False) := fun hc => by
                rw [hc.1] at hsd
                exact absurd hsd (by decide)
              cases hex2 : exclP2p d with
              | true =>
                rw [comp2p_step_excl r (Or.inr ⟨hex1, hdnl⟩) (Or.inr hex2)]
                obtain ⟨Y, hY⟩ := comp2p_head d r
                rw [hY, nf3p_punct_excl Y hsp hP hsd]
                refine bandI (by rw [hex1]; simp) (bandI (by rw [hex2]; simp) ?_)
                rw [← hY]
                exact nf3p_comp2 (d :: r) (nwb_tail h)
              | false =>
                cases hP2 : isP2 c with
                | false =>
                  rw [comp2p_step_excl r (Or.inr ⟨hex1, hdnl⟩) (Or.inl hP2)]
                  obtain ⟨Y, hY⟩ := comp2p_head d r
                  rw [hY, nf3p_punct_excl Y hsp hP hsd]
                  refine bandI (by rw [hex1]; simp) (bandI (by rw [hP2]; rfl) ?_)
                  rw [← hY]
                  exact nf3p_comp2 (d :: r) (nwb_tail h)
                | true =>
                  rw [comp2p_ins2 r hP2 hex2 (Or.inr ⟨hex1, hdnl⟩)]
                  obtain ⟨Y, hY⟩ := comp2p_head d r
                  rw [hY]
                  cases hPd : isP1 d with
                  | true =>
                    rw [nf3p_punct_site Y hsp hP (by decide : isSpc ' ' = true) hPd]
                    refine bandI (bandI hP2 (by decide)) ?_
                    rw [← hY]
                    exact nf3p_comp2 (d :: r) (nwb_tail h)
                  | false =>
                    rw [nf3p_punct_nonsite Y hsp hP (by decide : isSpc ' ' = true) hPd,
                      nf3p_sp d Y (by decide : isSpc ' ' = true)]
                    refine bandI ?_ ?_
                    · rw [List.dropWhile_cons_of_neg
                        (by rw [hsd]; exact Bool.false_ne_true)]
                      dsimp only
                      rw [hPd]
                      rfl
                    · rw [← hY]
                      exact nf3p_comp2 (d :: r) (nwb_tail h)
          | false =>
            have hP2 : isP2 c = true := by
              rcases borE hP with h' | h'
              · rw [hP1] at h'
                exact absurd h' Bool.false_ne_true
              · exact h'
            cases hex2 : exclP2p d with
            | true =>
              rw [comp2p_step_excl r (Or.inl hP1) (Or.inr hex2)]
              obtain ⟨Y, hY⟩ := comp2p_head d r
              rw [hY, nf3p_punct_excl Y hsp hP hsd]
              refine bandI (by rw [hP1]; rfl) (bandI (by rw [hex2]; simp) ?_)
              rw [← hY]
              exact nf3p_comp2 (d :: r) (nwb_tail h)
            | false =>
              rw [comp2p_ins2 r hP2 hex2 (Or.inl hP1)]
              obtain ⟨Y, hY⟩ := comp2p_head d r
              rw [hY]
              cases hPd : isP1 d with
              | true =>
                rw [nf3p_punct_site Y hsp hP (by decide : isSpc ' ' = true) hPd]
                refine bandI (bandI hP2 (by decide)) ?_
                rw [← hY]
                exact nf3p_comp2 (d :: r) (nwb_tail h)
              | false =>
                rw [nf3p_punct_nonsite Y hsp hP (by decide : isSpc ' ' = true) hPd,
                  nf3p_sp d Y (by decide : isSpc ' ' = true)]
                refine bandI ?_ ?_
                · rw [List.dropWhile_cons_of_neg
                    (by rw [hsd]; exact Bool.false_ne_true)]
                  dsimp only
                  rw [hPd]
                  rfl
                · rw [← hY]
                  exact nf3p_comp2 (d :: r) (nwb_tail h)
        | true =>
          match r with
          | [] =>
            by_cases hnl : isP1 c = true ∧ d = '\n'
            · obtain ⟨hP1, hdn⟩ := hnl
              subst hdn
              rw [comp2p_nl hP1]
              rw [nf3p_punct_nonsite [] hsp hP (by decide : isSpc ' ' = true)
                (by decide : isP1 '\n' = false)]
              rw [nf3p_sp '\n' [] (by decide : isSpc ' ' = true)]
              refine bandI (by rw [(by decide : List.dropWhile isSpc ['\n'] = ([] : Str))]) ?_
              rfl
            · have h1 : isP1 c = false ∨
                  (exclP1p d = true ∧ ((d = '\n' ∧ ([] : Str) = []) → False)) := by
                cases hP1 : isP1 c with
                | false => exact Or.inl rfl
                | true =>
                  refine Or.inr ⟨isSpc_exclP1p hsd, fun hc => hnl ⟨hP1, hc.1⟩⟩
              rw [comp2p_step_excl [] h1 (Or.inr (isSpc_exclP2p hsd))]
              have hid : insertAfterP isP2 exclP2p false
                  (insertAfterP isP1 exclP1p true [d]) = [d] := by
                rw [insA_not exclP1p true [] (isSpc_not_P1 hsd), insA_nil,
                  insA_not exclP2p false [] (isSpc_not_P2 hsd), insA_nil]
              rw [hid, nf3p_punct_end hsp hP hsd]
              rfl
          | e :: r' =>
            have hPe : isP1 e = false := by
              have hp := nwb_pair (nwb_tail h)
              cases hPe : isP1 e with
              | false => rfl
              | true =>
                rw [hsd, hPe] at hp
                exact absurd hp (by decide)
            have hzd : insertAfterP isP2 exclP2p false
                (insertAfterP isP1 exclP1p true (d :: e :: r')) =
                d :: insertAfterP isP2 exclP2p false
                  (insertAfterP isP1 exclP1p true (e :: r')) :=
              comp2p_step_excl r' (Or.inl (isSpc_not_P1 hsd))
                (Or.inl (isSpc_not_P2 hsd))
            rw [comp2p_step_excl (e :: r')
              (Or.inr ⟨isSpc_exclP1p hsd, fun hc => List.cons_ne_nil e r' hc.2⟩)
              (Or.inr (isSpc_exclP2p hsd))]
            rw [hzd]
            obtain ⟨Y2, hY2⟩ := comp2p_head e r'
            rw [hY2, nf3p_punct_nonsite Y2 hsp hP hsd hPe, ← hY2, ← hzd]
            exact nf3p_comp2 (d :: e :: r') (nwb_tail h)
termination_by y => y.length
decreasing_by
  all_goals first
  | (simp only [List.length_cons]; omega)
  | (have h9 := (List.dropWhile_sublist (l := d :: r) (p := isSpc)).length_le
     simp only [List.length_cons] at h9 ⊢
     omega)


theorem letter_classesP {u : Char}
    (h : (65 ≤ u.toNat ∧ u.toNat ≤ 90) ∨ (97 ≤ u.toNat ∧ u.toNat ≤ 122)) :
    exclP1p u = false ∧ exclP2p u = false := by
  have hbase := letter_classes h
  constructor
  · cases hs : exclP1p u with
    | false => rfl
    | true =>
      simp only [exclP1p, Bool.or_eq_true, decide_eq_true_eq] at hs
      rcases hs with (((((hs | e) | e) | e) | hs2) | e) | e
      · rw [hbase.1] at hs
        exact absurd hs Bool.false_ne_true
      · subst e
        rcases h with ⟨h1, h2⟩ | ⟨h1, h2⟩ <;>
          first
          | exact absurd h1 (by decide)
          | exact absurd h2 (by decide)
      · subst e
        rcases h with ⟨h1, h2⟩ | ⟨h1, h2⟩ <;>
          first
          | exact absurd h1 (by decide)
          | exact absurd h2 (by decide)
      · subst e
        rcases h with ⟨h1, h2⟩ | ⟨h1, h2⟩ <;>
          first
          | exact absurd h1 (by decide)
          | exact absurd h2 (by decide)
      · rw [hbase.2.1] at hs2
        exact absurd hs2 Bool.false_ne_true
      · subst e
        rcases h with ⟨h1, h2⟩ | ⟨h1, h2⟩ <;>
          first
          | exact absurd h1 (by decide)
          | exact absurd h2 (by decide)
      · subst e
        rcases h with ⟨h1, h2⟩ | ⟨h1, h2⟩ <;>
          first
          | exact absurd h1 (by decide)
          | exact absurd h2 (by decide)
  · cases hs : exclP2p u with
    | false => rfl
    | true =>
      simp only [exclP2p, Bool.or_eq_true, decide_eq_true_eq] at hs
      rcases hs with ((((((hs | e) | e) | e) | e) | e) | e) | e
      · rw [hbase.1] at hs
        exact absurd hs Bool.false_ne_true
      all_goals
        subst e <;>
        rcases h with ⟨h1, h2⟩ | ⟨h1, h2⟩ <;>
        first
        | exact absurd h1 (by decide)
        | exact absurd h2 (by decide)

theorem chEqP_refl (c : Char) : chEqP c c :=
  ⟨chEq_refl c, rfl, rfl⟩

theorem chEqP_upChar {c : Char} (h : isLow c = true) : chEqP c (upChar c) := by
  have hl := letter_classesP (Or.inr (isLow_range h))
  have hu := letter_classesP (Or.inl (upChar_range h))
  refine ⟨chEq_upChar h, ?_, ?_⟩
  · rw [hl.1, hu.1]
  · rw [hl.2, hu.2]

theorem capAuxP_chEq : ∀ (st : Nat) (z : Str),
    List.Forall₂ chEqP z (capAfterAux st z)
  | _, [] => List.Forall₂.nil
  | st, c :: cs => by
    show List.Forall₂ chEqP (c :: cs)
      ((if st = 2 && isLow c then upChar c else c) :: capAfterAux (capStep st c) cs)
    by_cases hc : (decide (st = 2) && isLow c) = true
    · rw [if_pos hc]
      exact List.Forall₂.cons (chEqP_upChar (bandE hc).2) (capAuxP_chEq (capStep st c) cs)
    · rw [if_neg hc]
      exact List.Forall₂.cons (chEqP_refl c) (capAuxP_chEq (capStep st c) cs)

theorem forall2P_dropWhile : ∀ {a b : Str}, List.Forall₂ chEqP a b →
    List.Forall₂ chEqP (a.dropWhile isSpc) (b.dropWhile isSpc)
  | _, _, List.Forall₂.nil => List.Forall₂.nil
  | x :: a', y :: b', List.Forall₂.cons hab h => by
    cases hx : isSpc x with
    | true =>
      rw [List.dropWhile_cons_of_pos hx,
        List.dropWhile_cons_of_pos (by rw [← hab.1.1]; exact hx)]
      exact forall2P_dropWhile h
    | false =>
      rw [List.dropWhile_cons_of_neg (by rw [hx]; exact Bool.false_ne_true),
        List.dropWhile_cons_of_neg (by rw [← hab.1.1, hx]; exact Bool.false_ne_true)]
      exact List.Forall₂.cons hab h

theorem nf3p_congr_aux : ∀ (n : Nat) (z z' : Str), z.length ≤ n →
    List.Forall₂ chEqP z z' → nf3p z = nf3p z'
  | _, [], [], _, _ => rfl
  | _, [_], [_], _, _ => rfl
  | _, [], _ :: _, _, hf => by cases hf
  | _, _ :: _, [], _, hf => by cases hf
  | _, [_], _ :: _ :: _, _, hf => by
    cases hf with
    | cons _ h2 => cases h2
  | _, _ :: _ :: _, [_], _, hf => by
    cases hf with
    | cons _ h2 => cases h2
  | 0, _ :: _ :: _, _ :: _ :: _, hlen, _ => by
    simp only [List.length_cons] at hlen
    omega
  | n + 1, c :: d :: r, c' :: d' :: r', hlen, hf => by
    have hcc : chEqP c c' := by cases hf with | cons h1 _ => exact h1
    have hf2 : List.Forall₂ chEqP (d :: r) (d' :: r') := by
      cases hf with | cons _ h2 => exact h2
    have hdd : chEqP d d' := by cases hf2 with | cons h1 _ => exact h1
    have hrr : List.Forall₂ chEqP r r' := by cases hf2 with | cons _ h2 => exact h2
    cases hsp : isSpc c with
    | true =>
      have hsp' : isSpc c' = true := by rw [← hcc.1.1]; exact hsp
      rw [nf3p_sp d r hsp, nf3p_sp d' r' hsp',
        nf3p_congr_aux n (d :: r) (d' :: r')
          (by simp only [List.length_cons] at hlen ⊢; omega) hf2]
      congr 1
      have hdw := forall2P_dropWhile hf2
      revert hdw
      generalize List.dropWhile isSpc (d :: r) = A
      generalize List.dropWhile isSpc (d' :: r') = B
      intro hdw
      cases hdw with
      | nil => rfl
      | cons he _ =>
        dsimp only
        rw [he.1.2.1]
    | false =>
      have hsp' : isSpc c' = false := by rw [← hcc.1.1]; exact hsp
      cases hP : (isP1 c || isP2 c) with
      | false =>
        have hP' : (isP1 c' || isP2 c') = false := by
          rw [← hcc.1.2.1, ← hcc.1.2.2.1]
          exact hP
        rw [nf3p_plain d r hsp hP, nf3p_plain d' r' hsp' hP',
          nf3p_congr_aux n (d :: r) (d' :: r')
            (by simp only [List.length_cons] at hlen ⊢; omega) hf2]
      | true =>
        have hP' : (isP1 c' || isP2 c') = true := by
          rw [← hcc.1.2.1, ← hcc.1.2.2.1]
          exact hP
        cases hsd : isSpc d with
        | false =>
          have hsd' : isSpc d' = false := by rw [← hdd.1.1]; exact hsd
          rw [nf3p_punct_excl r hsp hP hsd, nf3p_punct_excl r' hsp' hP' hsd',
            hcc.1.2.1, hcc.1.2.2.1, hdd.2.1, hdd.2.2,
            nf3p_congr_aux n (d :: r) (d' :: r')
              (by simp only [List.length_cons] at hlen ⊢; omega) hf2]
        | true =>
          have hsd' : isSpc d' = true := by rw [← hdd.1.1]; exact hsd
          cases hrr with
          | nil =>
            rw [nf3p_punct_end hsp hP hsd, nf3p_punct_end hsp' hP' hsd',
              nf3p_congr_aux n [d] [d']
                (by simp only [List.length_cons, List.length_nil] at hlen ⊢; omega)
                (List.Forall₂.cons hdd List.Forall₂.nil)]
          | @cons e e' rr rr' hee hrr2 =>
            cases hPe : isP1 e with
            | true =>
              have hPe' : isP1 e' = true := by rw [← hee.1.2.1]; exact hPe
              rw [nf3p_punct_site rr hsp hP hsd hPe,
                nf3p_punct_site rr' hsp' hP' hsd' hPe',
                hcc.1.2.2.1, beqSp_congr hdd.1.2.2.2.2,
                nf3p_congr_aux n (e :: rr) (e' :: rr')
                  (by simp only [List.length_cons] at hlen ⊢; omega)
                  (List.Forall₂.cons hee hrr2)]
            | false =>
              have hPe' : isP1 e' = false := by rw [← hee.1.2.1]; exact hPe
              rw [nf3p_punct_nonsite rr hsp hP hsd hPe,
                nf3p_punct_nonsite rr' hsp' hP' hsd' hPe',
                nf3p_congr_aux n (d :: e :: rr) (d' :: e' :: rr')
                  (by simp only [List.length_cons] at hlen ⊢; omega)
                  (List.Forall₂.cons hdd (List.Forall₂.cons hee hrr2))]
termination_by n _ _ _ _ => n
decreasing_by
  all_goals omega

theorem nf3p_congr (z z' : Str) (h : List.Forall₂ chEqP z z') : nf3p z = nf3p z' :=
  nf3p_congr_aux z.length z z' le_rfl h

theorem nf3p_capAux (st : Nat) (z : Str) (h : nf3p z = true) :
    nf3p (capAfterAux st z) = true := by
  rw [← nf3p_congr z (capAfterAux st z) (capAuxP_chEq st z)]
  exact h


theorem openStrip_nil : openStrip [] = [] := by
  rw [openStrip.eq_def]

theorem openStrip_open {c : Char} (cs : Str) (h : isOpenBr c = true) :
    openStrip (c :: cs) = c :: openStrip (cs.dropWhile isSpc) := by
  rw [openStrip.eq_def]
  simp [h]

theorem openStrip_cons {c : Char} (cs : Str) (h : isOpenBr c = false) :
    openStrip (c :: cs) = c :: openStrip cs := by
  rw [openStrip.eq_def]
  simp [h]

theorem isSpc_not_openBr {c : Char} (h : isSpc c = true) : isOpenBr c = false := by
  cases ho : isOpenBr c with
  | false => rfl
  | true =>
    rw [(isOpenBr_plain ho).1] at h
    exact absurd h Bool.false_ne_true

theorem openStrip_head_ex (c : Char) (cs : Str) :
    ∃ Y, openStrip (c :: cs) = c :: Y := by
  cases ho : isOpenBr c with
  | true => exact ⟨openStrip (cs.dropWhile isSpc), openStrip_open cs ho⟩
  | false => exact ⟨openStrip cs, openStrip_cons cs ho⟩

theorem openStrip_head : ∀ (X : Str), (openStrip X).head? = X.head?
  | [] => by rw [openStrip_nil]
  | c :: cs => by
    obtain ⟨Y, hY⟩ := openStrip_head_ex c cs
    rw [hY]
    rfl

theorem nwoa_tail {c : Char} {cs : Str} (h : noWsAfterOpen (c :: cs) = true) :
    noWsAfterOpen cs = true := by
  cases cs with
  | nil => rfl
  | cons d ds =>
    exact (bandE (show (!(isOpenBr c && isSpc d) &&
      noWsAfterOpen (d :: ds)) = true from h)).2

theorem openStrip_id : ∀ (x : Str), noWsAfterOpen x = true → openStrip x = x
  | [], _ => openStrip_nil
  | c :: cs, h => by
    cases ho : isOpenBr c with
    | false =>
      rw [openStrip_cons cs ho, openStrip_id cs (nwoa_tail h)]
    | true =>
      cases cs with
      | nil =>
        rw [openStrip_open [] ho, List.dropWhile_nil, openStrip_nil]
      | cons d ds =>
        have hp := bnotE (bandE (show (!(isOpenBr c && isSpc d) &&
          noWsAfterOpen (d :: ds)) = true from h)).1
        rw [ho, Bool.true_and] at hp
        rw [openStrip_open (d :: ds) ho,
          List.dropWhile_cons_of_neg (by rw [hp]; exact Bool.false_ne_true),
          openStrip_id (d :: ds) (nwoa_tail h)]

theorem nwoa_openStrip : ∀ (x : Str), noWsAfterOpen (openStrip x) = true
  | [] => by rw [openStrip_nil]; rfl
  | c :: cs => by
    cases ho : isOpenBr c with
    | false =>
      rw [openStrip_cons cs ho]
      have hrec := nwoa_openStrip cs
      cases hY : openStrip cs with
      | nil => rfl
      | cons y ys =>
        rw [hY] at hrec
        show (!(isOpenBr c && isSpc y) && noWsAfterOpen (y :: ys)) = true
        rw [ho]
        exact bandI (by rfl) hrec
    | true =>
      rw [openStrip_open cs ho]
      have hrec := nwoa_openStrip (cs.dropWhile isSpc)
      cases hY : openStrip (cs.dropWhile isSpc) with
      | nil => rfl
      | cons y ys =>
        rw [hY] at hrec
        show (!(isOpenBr c && isSpc y) && noWsAfterOpen (y :: ys)) = true
        refine bandI ?_ hrec
        have hhd : some y = (cs.dropWhile isSpc).head? := by
          rw [← openStrip_head, hY]
          rfl
        have hdw := @head_dropWhile isSpc cs
        cases hD : cs.dropWhile isSpc with
        | nil =>
          rw [hD] at hhd
          exact absurd hhd (by simp)
        | cons f fs =>
          rw [hD] at hhd hdw
          dsimp only at hdw
          have hyf : y = f := by simpa using hhd
          subst hyf
          rw [hdw, Bool.and_false]
          rfl
termination_by x => x.length
decreasing_by
  all_goals first
  | (simp only [List.length_cons]; omega)
  | (have h9 := (List.dropWhile_sublist (l := cs) (p := isSpc)).length_le
     simp only [List.length_cons]
     omega)

theorem capStep_openBr {c : Char} (st : Nat) (h : isOpenBr c = true) :
    capStep st c = 0 := by
  have hpl := isOpenBr_plain h
  rw [capStep, if_neg (by rw [hpl.2.2]; exact Bool.false_ne_true),
    if_neg (by rw [hpl.1]; simp)]

theorem capOK_openStrip : ∀ (z : Str) (st : Nat), capOK st z = true →
    capOK st (openStrip z) = true
  | [], _, h => by rw [openStrip_nil]; exact h
  | c :: cs, st, h => by
    have hh := bandE (show (!(decide (st = 2) && isLow c) &&
      capOK (capStep st c) cs) = true from h)
    cases ho : isOpenBr c with
    | false =>
      rw [openStrip_cons cs ho]
      show (!(decide (st = 2) && isLow c) &&
        capOK (capStep st c) (openStrip cs)) = true
      exact bandI hh.1 (capOK_openStrip cs (capStep st c) hh.2)
    | true =>
      rw [openStrip_open cs ho]
      show (!(decide (st = 2) && isLow c) &&
        capOK (capStep st c) (openStrip (cs.dropWhile isSpc))) = true
      refine bandI hh.1 ?_
      rw [capStep_openBr st ho]
      have h2 := hh.2
      rw [capStep_openBr st ho] at h2
      exact capOK_openStrip (cs.dropWhile isSpc) 0 (capOK0_dropWhile_spc cs h2)
termination_by z _ _ => z.length
decreasing_by
  all_goals first
  | (simp only [List.length_cons]; omega)
  | (have h9 := (List.dropWhile_sublist (l := cs) (p := isSpc)).length_le
     simp only [List.length_cons]
     omega)

theorem openStrip_dropSpc : ∀ (X : Str),
    (openStrip X).dropWhile isSpc = openStrip (X.dropWhile isSpc)
  | [] => by rw [openStrip_nil, List.dropWhile_nil, openStrip_nil]
  | c :: cs => by
    cases hs : isSpc c with
    | true =>
      rw [openStrip_cons cs (isSpc_not_openBr hs),
        List.dropWhile_cons_of_pos hs, List.dropWhile_cons_of_pos hs]
      exact openStrip_dropSpc cs
    | false =>
      obtain ⟨Y, hY⟩ := openStrip_head_ex c cs
      rw [hY, List.dropWhile_cons_of_neg (by rw [hs]; exact Bool.false_ne_true),
        List.dropWhile_cons_of_neg (by rw [hs]; exact Bool.false_ne_true), hY]

theorem nf3p_dropWhile_spc : ∀ (X : Str), nf3p X = true →
    nf3p (X.dropWhile isSpc) = true
  | [], h => h
  | a :: X', h => by
    cases ha : isSpc a with
    | true =>
      rw [List.dropWhile_cons_of_pos ha]
      exact nf3p_dropWhile_spc X' (nf3p_tail_ws ha h)
    | false =>
      rw [List.dropWhile_cons_of_neg (by rw [ha]; exact Bool.false_ne_true)]
      exact h


theorem follow_openStrip : ∀ (W : Str),
    (match W with | e :: _ => !isP1 e | [] => true) = true →
    (match openStrip W with | e :: _ => !isP1 e | [] => true) = true := by
  intro W hf
  cases W with
  | nil =>
    rw [openStrip_nil]
  | cons f fs =>
    dsimp only at hf
    obtain ⟨Y, hY⟩ := openStrip_head_ex f fs
    rw [hY]
    dsimp only
    exact hf

theorem nf3p_openStrip_aux : ∀ (n : Nat) (z : Str), z.length ≤ n → nf3p z = true →
    nf3p (openStrip z) = true
  | _, [], _, _ => by rw [openStrip_nil]; rfl
  | _, [c], _, _ => by
    cases ho : isOpenBr c with
    | true =>
      rw [openStrip_open [] ho, List.dropWhile_nil, openStrip_nil]
      rfl
    | false =>
      rw [openStrip_cons [] ho, openStrip_nil]
      rfl
  | 0, _ :: _ :: _, hlen, _ => by
    simp only [List.length_cons] at hlen
    omega
  | n + 1, c :: d :: r, hlen, h => by
    have hlen2 : (d :: r).length ≤ n := by
      simp only [List.length_cons] at hlen ⊢
      omega
    cases hs : isSpc c with
    | true =>
      have h' := h
      rw [nf3p_sp d r hs] at h'
      have hfoll := (bandE h').1
      have hnfdr := (bandE h').2
      rw [openStrip_cons (d :: r) (isSpc_not_openBr hs)]
      have hY := nf3p_openStrip_aux n (d :: r) hlen2 hnfdr
      cases hYe : openStrip (d :: r) with
      | nil => rfl
      | cons y ys =>
        rw [nf3p_sp y ys hs]
        refine bandI ?_ (by rw [← hYe]; exact hY)
        have hkey : (y :: ys).dropWhile isSpc =
            openStrip ((d :: r).dropWhile isSpc) := by
          rw [← hYe, openStrip_dropSpc]
        rw [hkey]
        exact follow_openStrip _ hfoll
    | false =>
      cases hP : (isP1 c || isP2 c) with
      | false =>
        have h' := h
        rw [nf3p_plain d r hs hP] at h'
        cases ho : isOpenBr c with
        | false =>
          rw [openStrip_cons (d :: r) ho]
          have hY := nf3p_openStrip_aux n (d :: r) hlen2 h'
          cases hYe : openStrip (d :: r) with
          | nil => rfl
          | cons y ys =>
            rw [nf3p_plain y ys hs hP, ← hYe]
            exact hY
        | true =>
          rw [openStrip_open (d :: r) ho]
          have hlenD : ((d :: r).dropWhile isSpc).length ≤ n := by
            have := (List.dropWhile_sublist (l := d :: r) (p := isSpc)).length_le
            simp only [List.length_cons] at hlen this ⊢
            omega
          have hY := nf3p_openStrip_aux n ((d :: r).dropWhile isSpc) hlenD
            (nf3p_dropWhile_spc (d :: r) h')
          cases hYe : openStrip ((d :: r).dropWhile isSpc) with
          | nil => rfl
          | cons y ys =>
            rw [nf3p_plain y ys hs hP, ← hYe]
            exact hY
      | true =>
        cases hsd : isSpc d with
        | false =>
          have h' := h
          rw [nf3p_punct_excl r hs hP hsd] at h'
          have hex1 := (bandE h').1
          have hrest := (bandE h').2
          have hex2 := (bandE hrest).1
          have h2 := (bandE hrest).2
          rw [openStrip_cons (d :: r) (by
            cases ho : isOpenBr c with
            | false => rfl
            | true =>
              rcases borE hP with hx | hx
              · rw [(isOpenBr_plain ho).2.1] at hx
                exact absurd hx Bool.false_ne_true
              · rw [(isOpenBr_plain ho).2.2] at hx
                exact absurd hx Bool.false_ne_true)]
          obtain ⟨Y, hY⟩ := openStrip_head_ex d r
          rw [hY, nf3p_punct_excl Y hs hP hsd]
          refine bandI hex1 (bandI hex2 ?_)
          have hrec := nf3p_openStrip_aux n (d :: r) hlen2 h2
          rw [hY] at hrec
          exact hrec
        | true =>
          have hco : isOpenBr c = false := by
            cases ho : isOpenBr c with
            | false => rfl
            | true =>
              rcases borE hP with hx | hx
              · rw [(isOpenBr_plain ho).2.1] at hx
                exact absurd hx Bool.false_ne_true
              · rw [(isOpenBr_plain ho).2.2] at hx
                exact absurd hx Bool.false_ne_true
          rw [openStrip_cons (d :: r) hco]
          cases r with
          | nil =>
            rw [openStrip_cons [] (isSpc_not_openBr hsd), openStrip_nil,
              nf3p_punct_end hs hP hsd]
            rfl
          | cons e rr =>
            have hlen3 : (e :: rr).length ≤ n := by
              simp only [List.length_cons] at hlen ⊢
              omega
            cases hPe : isP1 e with
            | true =>
              have h' := h
              rw [nf3p_punct_site rr hs hP hsd hPe] at h'
              have hsite := (bandE h').1
              have hnfr := (bandE h').2
              have hd' : d = ' ' := eq_of_beq (bandE hsite).2
              subst hd'
              rw [openStrip_cons (e :: rr) (by decide)]
              obtain ⟨Y, hY⟩ := openStrip_head_ex e rr
              rw [hY, nf3p_punct_site Y hs hP (by decide) hPe]
              refine bandI hsite ?_
              have hrec := nf3p_openStrip_aux n (e :: rr) hlen3 hnfr
              rw [hY] at hrec
              exact hrec
            | false =>
              have h' := h
              rw [nf3p_punct_nonsite rr hs hP hsd hPe] at h'
              rw [openStrip_cons (e :: rr) (isSpc_not_openBr hsd)]
              obtain ⟨Y, hY⟩ := openStrip_head_ex e rr
              rw [hY, nf3p_punct_nonsite Y hs hP hsd hPe]
              have hrec := nf3p_openStrip_aux n (d :: e :: rr) hlen2 h'
              rw [openStrip_cons (e :: rr) (isSpc_not_openBr hsd), hY] at hrec
              exact hrec
termination_by n _ _ _ => n
decreasing_by
  all_goals omega

theorem nf3p_openStrip (z : Str) (h : nf3p z = true) : nf3p (openStrip z) = true :=
  nf3p_openStrip_aux z.length z le_rfl h


theorem nwbG_cons_nonspc {P : Char → Bool} {c : Char} {X : Str} (hc : isSpc c = false)
    (hX : noWsBefore P X = true) : noWsBefore P (c :: X) = true := by
  cases X with
  | nil => rfl
  | cons x xr =>
    show (!(isSpc c && P x) && noWsBefore P (x :: xr)) = true
    rw [hc, hX]
    rfl

theorem nwbG_ws_append {P : Char → Bool}
    (hPs : ∀ a, isSpc a = true → P a = false) : ∀ (w X : Str),
    (∀ a ∈ w, isSpc a = true) → noWsBefore P X = true →
    (match X with | [] => True | f :: _ => P f = false) →
    noWsBefore P (w ++ X) = true
  | [], _, _, hX, _ => hX
  | a :: w', X, hw, hX, hf => by
    have hrec := nwbG_ws_append hPs w' X
      (fun x hx => hw x (List.mem_cons_of_mem _ hx)) hX hf
    rw [List.cons_append]
    match hwx : w' ++ X with
    | [] => rfl
    | b :: rest =>
      show (!(isSpc a && P b) && noWsBefore P (b :: rest)) = true
      refine bandI ?_ (by rw [← hwx]; exact hrec)
      have hb : P b = false := by
        cases w' with
        | nil =>
          have hX2 : X = b :: rest := by simpa using hwx
          rw [hX2] at hf
          exact hf
        | cons a2 w'' =>
          have hab : a2 = b := by
            have := hwx
            simp only [List.cons_append, List.cons.injEq] at this
            exact this.1
          subst hab
          exact hPs a2 (hw a2 (List.mem_cons_of_mem _ (List.mem_cons_self _ _)))
      rw [hb, Bool.and_false]
      rfl

theorem nwbG_follower {P : Char → Bool} {c : Char} : ∀ (ys : Str),
    noWsBefore P (c :: ys) = true → isSpc c = true →
    (match ys.dropWhile isSpc with
     | e :: _ => P e = false
     | [] => True)
  | [], _, _ => trivial
  | d :: ds, h, hc => by
    cases hd : isSpc d with
    | true =>
      have hrec := nwbG_follower (c := d) ds (nwb_tail h) hd
      rw [List.dropWhile_cons_of_pos hd]
      exact hrec
    | false =>
      rw [List.dropWhile_cons_of_neg (by rw [hd]; exact Bool.false_ne_true)]
      have hp := nwb_pair h
      dsimp only
      cases hP : P d with
      | false => rfl
      | true =>
        rw [hc, hP] at hp
        exact absurd hp (by decide)

theorem delRB_idG {P : Char → Bool} : ∀ (t : Str), noWsBefore P t = true →
    delRunBefore P t = t
  | [], _ => delRB_nil P
  | c :: cs, h => by
    cases hsp : isSpc c with
    | false =>
      rw [delRB_cons P cs hsp, delRB_idG cs (nwb_tail h)]
    | true =>
      have hdel : delRunBefore P (c :: cs) = c :: delRunBefore P cs :=
        delRB_keep P cs c hsp (nwbG_follower cs h hsp)
      rw [hdel, delRB_idG cs (nwb_tail h)]

theorem delRB_nwbG {P : Char → Bool} (hPs : ∀ a, isSpc a = true → P a = false) :
    ∀ (s : Str), noWsBefore P (delRunBefore P s) = true
  | [] => by rw [delRB_nil]; rfl
  | c :: cs => by
    cases hsp : isSpc c with
    | false =>
      rw [delRB_cons P cs hsp]
      exact nwbG_cons_nonspc hsp (delRB_nwbG hPs cs)
    | true =>
      rw [delRB_sp P cs hsp]
      have hdw : (c :: cs).dropWhile isSpc = cs.dropWhile isSpc :=
        List.dropWhile_cons_of_pos hsp
      rw [hdw]
      have hw : ∀ a ∈ (c :: cs).takeWhile isSpc, isSpc a = true := fun a ha =>
        List.mem_takeWhile_imp ha
      match hrest : cs.dropWhile isSpc with
      | [] =>
        rw [delRB_nil]
        exact nwbG_ws_append hPs _ [] hw rfl trivial
      | e :: rest' =>
        have he : isSpc e = false := by
          have hh := head_dropWhile (p := isSpc) cs
          rw [hrest] at hh
          exact hh
        have hdel : delRunBefore P (e :: rest') = e :: delRunBefore P rest' :=
          delRB_cons P rest' he
        cases hPe : P e with
        | true =>
          dsimp only
          rw [if_pos hPe, List.nil_append]
          exact delRB_nwbG hPs (e :: rest')
        | false =>
          dsimp only
          rw [if_neg (by rw [hPe]; exact Bool.false_ne_true)]
          refine nwbG_ws_append hPs _ _ hw (delRB_nwbG hPs (e :: rest')) ?_
          rw [hdel]
          exact hPe
termination_by s => s.length
decreasing_by
  all_goals simp only [List.length_cons]
  all_goals
    first
    | omega
    | (have h9 := (List.dropWhile_sublist (l := cs) (p := isSpc)).length_le
       rw [hrest] at h9
       simp only [List.length_cons] at h9
       omega)

theorem capOK_append : ∀ (A B : Str) (st : Nat),
    capOK st (A ++ B) = (capOK st A && capOK (A.foldl capStep st) B)
  | [], B, st => by simp [capOK]
  | a :: A', B, st => by
    show (!(decide (st = 2) && isLow a) && capOK (capStep st a) (A' ++ B)) =
      ((!(decide (st = 2) && isLow a) && capOK (capStep st a) A') &&
        capOK ((a :: A').foldl capStep st) B)
    rw [capOK_append A' B (capStep st a), List.foldl_cons, Bool.and_assoc]

theorem isSpc_not_low {c : Char} (h : isSpc c = true) : isLow c = false := by
  simp only [isSpc, Bool.or_eq_true, decide_eq_true_eq] at h
  rcases h with ((((h | h) | h) | h) | h) | h <;> subst h <;> decide

theorem isCloseBr_not_low {c : Char} (h : isCloseBr c = true) : isLow c = false := by
  simp only [isCloseBr, Bool.or_eq_true, decide_eq_true_eq] at h
  rcases h with (h | h) | h <;> subst h <;> decide

theorem isCloseBr_not_P2 {c : Char} (h : isCloseBr c = true) : isP2 c = false := by
  simp only [isCloseBr, Bool.or_eq_true, decide_eq_true_eq] at h
  rcases h with (h | h) | h <;> subst h <;> decide

theorem capStep_closeBr {c : Char} (st : Nat) (h : isCloseBr c = true) :
    capStep st c = 0 := by
  rw [capStep, if_neg (by rw [isCloseBr_not_P2 h]; exact Bool.false_ne_true),
    if_neg (by rw [isCloseBr_not_spc h]; simp)]

theorem capOK_all_ws : ∀ (w : Str) (st : Nat), (∀ a ∈ w, isSpc a = true) →
    capOK st w = true
  | [], _, _ => rfl
  | a :: w', st, hw => by
    show (!(decide (st = 2) && isLow a) && capOK (capStep st a) w') = true
    rw [isSpc_not_low (hw a (List.mem_cons_self _ _)), Bool.and_false]
    exact bandI rfl (capOK_all_ws w' (capStep st a)
      (fun x hx => hw x (List.mem_cons_of_mem _ hx)))

theorem capOK_delRB : ∀ (z : Str) (st : Nat), capOK st z = true →
    capOK st (delRunBefore isCloseBr z) = true
  | [], _, h => by rw [delRB_nil]; exact h
  | c :: cs, st, h => by
    cases hsp : isSpc c with
    | false =>
      rw [delRB_cons isCloseBr cs hsp]
      have hh := bandE (show (!(decide (st = 2) && isLow c) &&
        capOK (capStep st c) cs) = true from h)
      show (!(decide (st = 2) && isLow c) &&
        capOK (capStep st c) (delRunBefore isCloseBr cs)) = true
      exact bandI hh.1 (capOK_delRB cs (capStep st c) hh.2)
    | true =>
      rw [delRB_sp isCloseBr cs hsp]
      have hdw : (c :: cs).dropWhile isSpc = cs.dropWhile isSpc :=
        List.dropWhile_cons_of_pos hsp
      rw [hdw]
      have hw : ∀ a ∈ (c :: cs).takeWhile isSpc, isSpc a = true := fun a ha =>
        List.mem_takeWhile_imp ha
      have hsplit : (c :: cs).takeWhile isSpc ++ (c :: cs).dropWhile isSpc = c :: cs :=
        List.takeWhile_append_dropWhile isSpc (c :: cs)
      have hsplit2 : capOK st ((c :: cs).takeWhile isSpc ++
          (c :: cs).dropWhile isSpc) = true := by
        rw [hsplit]
        exact h
      rw [capOK_append] at hsplit2
      have hrest0 := (bandE hsplit2).2
      rw [hdw] at hrest0
      match hrest : cs.dropWhile isSpc with
      | [] =>
        rw [delRB_nil]
        simp only [List.append_nil]
        exact capOK_all_ws _ st hw
      | e :: rest' =>
        rw [hrest] at hrest0
        have hrest1 := bandE (show (!(decide (((c :: cs).takeWhile isSpc).foldl
            capStep st = 2) && isLow e) && capOK (capStep (((c :: cs).takeWhile
            isSpc).foldl capStep st) e) rest') = true from hrest0)
        cases hPe : isCloseBr e with
        | true =>
          dsimp only
          rw [if_pos hPe, List.nil_append]
          have hdel : delRunBefore isCloseBr (e :: rest') =
              e :: delRunBefore isCloseBr rest' :=
            delRB_cons isCloseBr rest' (isCloseBr_not_spc hPe)
          rw [hdel]
          show (!(decide (st = 2) && isLow e) &&
            capOK (capStep st e) (delRunBefore isCloseBr rest')) = true
          rw [isCloseBr_not_low hPe, Bool.and_false, capStep_closeBr st hPe]
          refine bandI rfl ?_
          have h2 := hrest1.2
          rw [capStep_closeBr _ hPe] at h2
          exact capOK_delRB rest' 0 h2
        | false =>
          dsimp only
          rw [if_neg (by rw [hPe]; exact Bool.false_ne_true)]
          rw [capOK_append]
          refine bandI (capOK_all_ws _ st hw) ?_
          exact capOK_delRB (e :: rest')
            (((c :: cs).takeWhile isSpc).foldl capStep st) hrest0
termination_by z _ _ => z.length
decreasing_by
  all_goals simp only [List.length_cons]
  all_goals
    first
    | omega
    | (have h9 := (List.dropWhile_sublist (l := cs) (p := isSpc)).length_le
       rw [hrest] at h9
       simp only [List.length_cons] at h9
       omega)


theorem nwoa_ws_append : ∀ (w X : Str), (∀ a ∈ w, isSpc a = true) →
    noWsAfterOpen X = true → noWsAfterOpen (w ++ X) = true
  | [], _, _, hX => hX
  | a :: w', X, hw, hX => by
    have hrec := nwoa_ws_append w' X (fun x hx => hw x (List.mem_cons_of_mem _ hx)) hX
    rw [List.cons_append]
    match hwx : w' ++ X with
    | [] => rfl
    | b :: rest =>
      show (!(isOpenBr a && isSpc b) && noWsAfterOpen (b :: rest)) = true
      rw [isSpc_not_openBr (hw a (List.mem_cons_self _ _))]
      exact bandI rfl (by rw [← hwx]; exact hrec)

theorem nwoa_dropWhile : ∀ (y : Str), noWsAfterOpen y = true →
    noWsAfterOpen (y.dropWhile isSpc) = true
  | [], h => h
  | a :: y', h => by
    cases ha : isSpc a with
    | true =>
      rw [List.dropWhile_cons_of_pos ha]
      exact nwoa_dropWhile y' (nwoa_tail h)
    | false =>
      rw [List.dropWhile_cons_of_neg (by rw [ha]; exact Bool.false_ne_true)]
      exact h

theorem isP1_not_closeBr {c : Char} (h : isP1 c = true) : isCloseBr c = false := by
  simp only [isP1, Bool.or_eq_true, decide_eq_true_eq] at h
  rcases h with ((h | h) | h) | h <;> subst h <;> decide

theorem isCloseBr_not_P1 {c : Char} (h : isCloseBr c = true) : isP1 c = false := by
  simp only [isCloseBr, Bool.or_eq_true, decide_eq_true_eq] at h
  rcases h with (h | h) | h <;> subst h <;> decide

theorem nf3p_cons_plain {c : Char} (X : Str) (hsp : isSpc c = false)
    (hP : (isP1 c || isP2 c) = false) : nf3p (c :: X) = nf3p X := by
  cases X with
  | nil => rfl
  | cons d r => exact nf3p_plain d r hsp hP

theorem nf3p_all_ws (w : Str) (hw : ∀ a ∈ w, isSpc a = true) : nf3p w = true := by
  have := nf3p_ws_prefix w [] hw trivial rfl
  rw [List.append_nil] at this
  exact this

theorem nf3p_punct_ws_prefix {c : Char} (hsp : isSpc c = false)
    (hP : (isP1 c || isP2 c) = true) : ∀ (w X : Str), w ≠ [] →
    (∀ a ∈ w, isSpc a = true) →
    (match X with | [] => True | f :: _ => isSpc f = false ∧ isP1 f = false) →
    nf3p X = true → nf3p (c :: (w ++ X)) = true
  | [], _, hne, _, _, _ => absurd rfl hne
  | [d], X, _, hw, hXc, hX => by
    have hd : isSpc d = true := hw d (List.mem_cons_self _ _)
    match X with
    | [] =>
      rw [show ([d] ++ [] : Str) = [d] from by simp, nf3p_punct_end hsp hP hd]
      rfl
    | f :: Xr =>
      have hf : isSpc f = false ∧ isP1 f = false := hXc
      rw [List.cons_append, List.nil_append,
        nf3p_punct_nonsite Xr hsp hP hd hf.2, nf3p_sp f Xr hd,
        List.dropWhile_cons_of_neg (by rw [hf.1]; exact Bool.false_ne_true)]
      dsimp only
      rw [hf.2, hX]
      rfl
  | d :: d2 :: w', X, _, hw, hXc, hX => by
    have hd : isSpc d = true := hw d (List.mem_cons_self _ _)
    have hd2 : isSpc d2 = true := hw d2 (List.mem_cons_of_mem _ (List.mem_cons_self _ _))
    have hrest := nf3p_punct_ws_prefix hsp hP (d2 :: w') X (by simp)
      (fun a ha => hw a (List.mem_cons_of_mem _ ha)) hXc hX
    rw [List.cons_append, List.cons_append,
      nf3p_punct_nonsite (w' ++ X) hsp hP hd (isSpc_not_P1 hd2)]
    have hws : nf3p ((d :: d2 :: w') ++ X) = true :=
      nf3p_ws_prefix (d :: d2 :: w') X hw hXc hX
    rw [List.cons_append, List.cons_append] at hws
    exact hws


theorem nwoa_delRB : ∀ (z : Str), noWsAfterOpen z = true →
    noWsAfterOpen (delRunBefore isCloseBr z) = true
  | [], h => by rw [delRB_nil]; exact h
  | c :: cs, h => by
    cases hsp : isSpc c with
    | false =>
      rw [delRB_cons isCloseBr cs hsp]
      have hrec := nwoa_delRB cs (nwoa_tail h)
      cases hY : delRunBefore isCloseBr cs with
      | nil => rfl
      | cons y ys =>
        rw [hY] at hrec
        show (!(isOpenBr c && isSpc y) && noWsAfterOpen (y :: ys)) = true
        refine bandI ?_ hrec
        cases ho : isOpenBr c with
        | false => rfl
        | true =>
          cases cs with
          | nil =>
            rw [delRB_nil] at hY
            exact absurd hY (by simp)
          | cons d ds =>
            have hp := bnotE (bandE (show (!(isOpenBr c && isSpc d) &&
              noWsAfterOpen (d :: ds)) = true from h)).1
            rw [ho, Bool.true_and] at hp
            rw [delRB_cons isCloseBr ds hp] at hY
            injection hY with h1 _
            subst h1
            rw [hp]
            rfl
    | true =>
      rw [delRB_sp isCloseBr cs hsp]
      have hdw : (c :: cs).dropWhile isSpc = cs.dropWhile isSpc :=
        List.dropWhile_cons_of_pos hsp
      rw [hdw]
      have hw : ∀ a ∈ (c :: cs).takeWhile isSpc, isSpc a = true := fun a ha =>
        List.mem_takeWhile_imp ha
      have hrece : noWsAfterOpen (cs.dropWhile isSpc) = true := by
        have := nwoa_dropWhile (c :: cs) h
        rw [hdw] at this
        exact this
      match hrest : cs.dropWhile isSpc with
      | [] =>
        rw [delRB_nil, List.append_nil]
        have := nwoa_ws_append ((c :: cs).takeWhile isSpc) [] hw rfl
        rw [List.append_nil] at this
        exact this
      | e :: rest' =>
        rw [hrest] at hrece
        dsimp only
        cases hPe : isCloseBr e with
        | true =>
          rw [if_pos rfl, List.nil_append]
          exact nwoa_delRB (e :: rest') hrece
        | false =>
          rw [if_neg Bool.false_ne_true]
          exact nwoa_ws_append _ _ hw (nwoa_delRB (e :: rest') hrece)
termination_by z => z.length
decreasing_by
  all_goals simp only [List.length_cons]
  all_goals
    first
    | omega
    | (have h9 := (List.dropWhile_sublist (l := cs) (p := isSpc)).length_le
       rw [hrest] at h9
       simp only [List.length_cons] at h9
       omega)

theorem nf3p_delRB_aux : ∀ (n : Nat) (z : Str), z.length ≤ n → nf3p z = true →
    nf3p (delRunBefore isCloseBr z) = true
  | _, [], _, _ => by rw [delRB_nil]; rfl
  | _, [c], _, _ => by
    cases hs : isSpc c with
    | true =>
      rw [delRB_keep isCloseBr [] c hs (by simp), delRB_nil]
      rfl
    | false =>
      rw [delRB_cons isCloseBr [] hs, delRB_nil]
      rfl
  | 0, _ :: _ :: _, hlen, _ => by
    simp only [List.length_cons] at hlen
    omega
  | n + 1, c :: d :: r, hlen, h => by
    have hlen2 : (d :: r).length ≤ n := by
      simp only [List.length_cons] at hlen ⊢
      omega
    cases hs : isSpc c with
    | true =>
      have h' := h
      rw [nf3p_sp d r hs] at h'
      have hfoll := (bandE h').1
      have h2 := (bandE h').2
      rw [delRB_sp isCloseBr (d :: r) hs]
      have hdw : (c :: d :: r).dropWhile isSpc = (d :: r).dropWhile isSpc :=
        List.dropWhile_cons_of_pos hs
      rw [hdw]
      have hw : ∀ a ∈ (c :: d :: r).takeWhile isSpc, isSpc a = true := fun a ha =>
        List.mem_takeWhile_imp ha
      have hlenD : ((d :: r).dropWhile isSpc).length ≤ n := by
        have := (List.dropWhile_sublist (l := d :: r) (p := isSpc)).length_le
        simp only [List.length_cons] at hlen this ⊢
        omega
      have hnfD : nf3p ((d :: r).dropWhile isSpc) = true := nf3p_dropWhile_spc _ h2
      match hrest : (d :: r).dropWhile isSpc with
      | [] =>
        rw [delRB_nil, List.append_nil]
        exact nf3p_all_ws _ hw
      | f :: rest' =>
        rw [hrest] at hlenD hnfD hfoll
        dsimp only at hfoll
        have hfns : isSpc f = false := by
          have hh := head_dropWhile (p := isSpc) (d :: r)
          rw [hrest] at hh
          exact hh
        have hfP1 : isP1 f = false := bnotE hfoll
        dsimp only
        have hrec := nf3p_delRB_aux n (f :: rest') hlenD hnfD
        cases hPf : isCloseBr f with
        | true =>
          rw [if_pos rfl, List.nil_append]
          exact hrec
        | false =>
          rw [if_neg Bool.false_ne_true]
          rw [delRB_cons isCloseBr rest' hfns] at hrec ⊢
          refine nf3p_ws_prefix _ _ hw ?_ hrec
          exact ⟨hfns, hfP1⟩
    | false =>
      cases hP : (isP1 c || isP2 c) with
      | false =>
        have h' := h
        rw [nf3p_plain d r hs hP] at h'
        rw [delRB_cons isCloseBr (d :: r) hs, nf3p_cons_plain _ hs hP]
        exact nf3p_delRB_aux n (d :: r) hlen2 h'
      | true =>
        rw [delRB_cons isCloseBr (d :: r) hs]
        cases hsd : isSpc d with
        | false =>
          have h' := h
          rw [nf3p_punct_excl r hs hP hsd] at h'
          have hex1 := (bandE h').1
          have hex2 := (bandE (bandE h').2).1
          have h2 := (bandE (bandE h').2).2
          rw [delRB_cons isCloseBr r hsd,
            nf3p_punct_excl (delRunBefore isCloseBr r) hs hP hsd]
          refine bandI hex1 (bandI hex2 ?_)
          have hrec := nf3p_delRB_aux n (d :: r) hlen2 h2
          rw [delRB_cons isCloseBr r hsd] at hrec
          exact hrec
        | true =>
          cases r with
          | nil =>
            rw [delRB_keep isCloseBr [] d hsd (by simp), delRB_nil,
              nf3p_punct_end hs hP hsd]
            rfl
          | cons e rr =>
            have hlen3 : (e :: rr).length ≤ n := by
              simp only [List.length_cons] at hlen ⊢
              omega
            cases hPe : isP1 e with
            | true =>
              have h' := h
              rw [nf3p_punct_site rr hs hP hsd hPe] at h'
              have hsite := (bandE h').1
              have h2 := (bandE h').2
              have hd' : d = ' ' := eq_of_beq (bandE hsite).2
              subst hd'
              have hspe : isSpc e = false := isP1_not_spc hPe
              rw [delRB_keep isCloseBr (e :: rr) ' ' (by decide) (by
                  rw [List.dropWhile_cons_of_neg
                    (by rw [hspe]; exact Bool.false_ne_true)]
                  dsimp only
                  exact isP1_not_closeBr hPe),
                delRB_cons isCloseBr rr hspe,
                nf3p_punct_site (delRunBefore isCloseBr rr) hs hP (by decide) hPe]
              refine bandI hsite ?_
              have hrec := nf3p_delRB_aux n (e :: rr) hlen3 h2
              rw [delRB_cons isCloseBr rr hspe] at hrec
              exact hrec
            | false =>
              have h' := h
              rw [nf3p_punct_nonsite rr hs hP hsd hPe] at h'
              have h'' := h'
              rw [nf3p_sp e rr hsd] at h''
              have hfoll := (bandE h'').1
              rw [delRB_sp isCloseBr (e :: rr) hsd]
              have hdw : (d :: e :: rr).dropWhile isSpc = (e :: rr).dropWhile isSpc :=
                List.dropWhile_cons_of_pos hsd
              rw [hdw]
              have hw : ∀ a ∈ (d :: e :: rr).takeWhile isSpc, isSpc a = true :=
                fun a ha => List.mem_takeWhile_imp ha
              have hwne : (d :: e :: rr).takeWhile isSpc ≠ [] := by
                rw [List.takeWhile_cons_of_pos hsd]
                simp
              have hnfD : nf3p ((e :: rr).dropWhile isSpc) = true :=
                nf3p_dropWhile_spc _ ((bandE h'').2)
              have hlenD : ((e :: rr).dropWhile isSpc).length ≤ n := by
                have := (List.dropWhile_sublist (l := e :: rr) (p := isSpc)).length_le
                simp only [List.length_cons] at hlen this ⊢
                omega
              match hrest : (e :: rr).dropWhile isSpc with
              | [] =>
                rw [delRB_nil, List.append_nil]
                have := nf3p_punct_ws_prefix hs hP ((d :: e :: rr).takeWhile isSpc)
                  [] hwne hw trivial rfl
                rw [List.append_nil] at this
                exact this
              | f :: rest' =>
                rw [hrest] at hnfD hlenD hfoll
                dsimp only at hfoll
                have hfns : isSpc f = false := by
                  have hh := head_dropWhile (p := isSpc) (e :: rr)
                  rw [hrest] at hh
                  exact hh
                have hfP1 : isP1 f = false := bnotE hfoll
                dsimp only
                have hrec := nf3p_delRB_aux n (f :: rest') hlenD hnfD
                cases hPf : isCloseBr f with
                | true =>
                  rw [if_pos rfl, List.nil_append]
                  rw [delRB_cons isCloseBr rest' hfns] at hrec ⊢
                  rw [nf3p_punct_excl (delRunBefore isCloseBr rest') hs hP hfns]
                  exact bandI (by rw [isCloseBr_exclP1p hPf]; simp)
                    (bandI (by rw [isCloseBr_exclP2p hPf]; simp) hrec)
                | false =>
                  rw [if_neg Bool.false_ne_true]
                  rw [delRB_cons isCloseBr rest' hfns] at hrec ⊢
                  exact nf3p_punct_ws_prefix hs hP _ _ hwne hw ⟨hfns, hfP1⟩ hrec
termination_by n _ _ _ => n
decreasing_by
  all_goals omega

theorem nf3p_delRB (z : Str) (h : nf3p z = true) :
    nf3p (delRunBefore isCloseBr z) = true :=
  nf3p_delRB_aux z.length z le_rfl h


theorem isSpc_not_closeBr {c : Char} (h : isSpc c = true) : isCloseBr c = false := by
  cases ho : isCloseBr c with
  | false => rfl
  | true =>
    rw [isCloseBr_not_spc ho] at h
    exact absurd h Bool.false_ne_true

theorem nwoa_drop_sp : ∀ (X : Str), noWsAfterOpen X = true →
    noWsAfterOpen (X.dropWhile (fun x => x = ' ')) = true
  | [], h => h
  | a :: X', h => by
    by_cases ha : a = ' '
    · rw [List.dropWhile_cons_of_pos (by simp [ha])]
      exact nwoa_drop_sp X' (nwoa_tail h)
    · rw [List.dropWhile_cons_of_neg (by simpa using ha)]
      exact h

theorem nwbP_drop_sp {P : Char → Bool} : ∀ (X : Str), noWsBefore P X = true →
    noWsBefore P (X.dropWhile (fun x => x = ' ')) = true
  | [], h => h
  | a :: X', h => by
    by_cases ha : a = ' '
    · rw [List.dropWhile_cons_of_pos (by simp [ha])]
      exact nwbP_drop_sp X' (nwb_tail h)
    · rw [List.dropWhile_cons_of_neg (by simpa using ha)]
      exact h

theorem nwoa_collapse : ∀ (z : Str), noWsAfterOpen z = true →
    noWsAfterOpen (collapseSp z) = true
  | [], h => by rw [collapseSp_nil]; exact h
  | c :: cs, h => by
    by_cases hc : c = ' '
    · subst hc
      rw [collapseSp_cons_sp]
      have hrec := nwoa_collapse (cs.dropWhile (fun x => x = ' '))
        (nwoa_drop_sp cs (nwoa_tail h))
      cases hY : collapseSp (cs.dropWhile (fun x => x = ' ')) with
      | nil => rfl
      | cons y ys =>
        rw [hY] at hrec
        show (!(isOpenBr ' ' && isSpc y) && noWsAfterOpen (y :: ys)) = true
        rw [(by decide : isOpenBr ' ' = false)]
        exact bandI rfl hrec
    · rw [collapseSp_cons cs hc]
      have hrec := nwoa_collapse cs (nwoa_tail h)
      cases hY : collapseSp cs with
      | nil => rfl
      | cons y ys =>
        rw [hY] at hrec
        show (!(isOpenBr c && isSpc y) && noWsAfterOpen (y :: ys)) = true
        refine bandI ?_ hrec
        cases cs with
        | nil =>
          rw [collapseSp_nil] at hY
          exact absurd hY (by simp)
        | cons d ds =>
          have hhd : some y = (d :: ds).head? := by
            rw [← collapse_head, hY]
            rfl
          have hyd : y = d := by simpa using hhd
          subst hyd
          exact (bandE (show (!(isOpenBr c && isSpc y) &&
            noWsAfterOpen (y :: ds)) = true from h)).1
termination_by z => z.length
decreasing_by
  all_goals first
  | (simp only [List.length_cons]; omega)
  | (have h9 := (List.dropWhile_sublist (l := cs) (p := fun x => decide (x = ' '))).length_le
     simp only [List.length_cons]
     omega)

theorem nwb_cb_collapse : ∀ (z : Str), noWsBefore isCloseBr z = true →
    noWsBefore isCloseBr (collapseSp z) = true
  | [], h => by rw [collapseSp_nil]; exact h
  | c :: cs, h => by
    by_cases hc : c = ' '
    · subst hc
      rw [collapseSp_cons_sp]
      have hrec := nwb_cb_collapse (cs.dropWhile (fun x => x = ' '))
        (nwbP_drop_sp cs (nwb_tail h))
      cases hY : collapseSp (cs.dropWhile (fun x => x = ' ')) with
      | nil => rfl
      | cons y ys =>
        rw [hY] at hrec
        show (!(isSpc ' ' && isCloseBr y) && noWsBefore isCloseBr (y :: ys)) = true
        refine bandI ?_ hrec
        have hhd : some y = (cs.dropWhile (fun x => x = ' ')).head? := by
          rw [← collapse_head, hY]
          rfl
        have hycb : isCloseBr y = false := by
          cases hf : isSpc y with
          | true => exact isSpc_not_closeBr hf
          | false =>
            have hfol := nwbG_follower (P := isCloseBr) (c := ' ') cs h (by decide)
            cases hD : cs.dropWhile (fun x => x = ' ') with
            | nil =>
              rw [hD] at hhd
              exact absurd hhd (by simp)
            | cons f fs =>
              rw [hD] at hhd
              have hyf : y = f := by simpa using hhd
              subst hyf
              have hDs : cs.dropWhile isSpc = y :: fs := by
                rw [← dropWhile_sp_spc cs, hD,
                  List.dropWhile_cons_of_neg (by rw [hf]; exact Bool.false_ne_true)]
              rw [hDs] at hfol
              exact hfol
        rw [hycb, Bool.and_false]
        rfl
    · rw [collapseSp_cons cs hc]
      have hrec := nwb_cb_collapse cs (nwb_tail h)
      cases hY : collapseSp cs with
      | nil => rfl
      | cons y ys =>
        rw [hY] at hrec
        show (!(isSpc c && isCloseBr y) && noWsBefore isCloseBr (y :: ys)) = true
        refine bandI ?_ hrec
        cases cs with
        | nil =>
          rw [collapseSp_nil] at hY
          exact absurd hY (by simp)
        | cons d ds =>
          have hhd : some y = (d :: ds).head? := by
            rw [← collapse_head, hY]
            rfl
          have hyd : y = d := by simpa using hhd
          subst hyd
          exact (bandE (show (!(isSpc c && isCloseBr y) &&
            noWsBefore isCloseBr (y :: ds)) = true from h)).1
termination_by z => z.length
decreasing_by
  all_goals first
  | (simp only [List.length_cons]; omega)
  | (have h9 := (List.dropWhile_sublist (l := cs) (p := fun x => decide (x = ' '))).length_le
     simp only [List.length_cons]
     omega)


theorem nf3p_drop_sp : ∀ (X : Str), nf3p X = true →
    nf3p (X.dropWhile (fun x => x = ' ')) = true
  | [], h => h
  | a :: X', h => by
    by_cases ha : a = ' '
    · rw [List.dropWhile_cons_of_pos (by simp [ha])]
      exact nf3p_drop_sp X' (nf3p_tail_ws (by rw [ha]; decide) h)
    · rw [List.dropWhile_cons_of_neg (by simpa using ha)]
      exact h

theorem nf3p_collapse_aux : ∀ (n : Nat) (z : Str), z.length ≤ n → nf3p z = true →
    nf3p (collapseSp z) = true
  | _, [], _, _ => by rw [collapseSp_nil]; rfl
  | _, [c], _, _ => by
    by_cases hc : c = ' '
    · subst hc
      rw [collapseSp_cons_sp, List.dropWhile_nil, collapseSp_nil]
      rfl
    · rw [collapseSp_cons [] hc, collapseSp_nil]
      rfl
  | 0, _ :: _ :: _, hlen, _ => by
    simp only [List.length_cons] at hlen
    omega
  | n + 1, c :: d :: r, hlen, h => by
    have hlen2 : (d :: r).length ≤ n := by
      simp only [List.length_cons] at hlen ⊢
      omega
    by_cases hc : c = ' '
    · subst hc
      have h' := h
      rw [nf3p_sp d r (by decide)] at h'
      have hfoll := (bandE h').1
      have hnfdr := (bandE h').2
      rw [collapseSp_cons_sp]
      have hlenD : ((d :: r).dropWhile (fun x => x = ' ')).length ≤ n := by
        have := (List.dropWhile_sublist (l := d :: r)
          (p := fun x => decide (x = ' '))).length_le
        simp only [List.length_cons] at hlen this ⊢
        omega
      have hY := nf3p_collapse_aux n ((d :: r).dropWhile (fun x => x = ' ')) hlenD
        (nf3p_drop_sp (d :: r) hnfdr)
      cases hYe : collapseSp ((d :: r).dropWhile (fun x => x = ' ')) with
      | nil => rfl
      | cons y ys =>
        rw [nf3p_sp y ys (by decide)]
        refine bandI ?_ (by rw [← hYe]; exact hY)
        have hkey : (y :: ys).dropWhile isSpc =
            collapseSp ((d :: r).dropWhile isSpc) := by
          rw [← hYe, collapse_dropSpc, dropWhile_sp_spc]
        rw [hkey]
        exact follow_collapse _ hfoll
    · cases hs : isSpc c with
      | true =>
        have h' := h
        rw [nf3p_sp d r hs] at h'
        have hfoll := (bandE h').1
        have hnfdr := (bandE h').2
        rw [collapseSp_cons (d :: r) hc]
        have hY := nf3p_collapse_aux n (d :: r) hlen2 hnfdr
        cases hYe : collapseSp (d :: r) with
        | nil => rfl
        | cons y ys =>
          rw [nf3p_sp y ys hs]
          refine bandI ?_ (by rw [← hYe]; exact hY)
          have hkey : (y :: ys).dropWhile isSpc =
              collapseSp ((d :: r).dropWhile isSpc) := by
            rw [← hYe, collapse_dropSpc]
          rw [hkey]
          exact follow_collapse _ hfoll
      | false =>
        cases hP : (isP1 c || isP2 c) with
        | false =>
          have h' := h
          rw [nf3p_plain d r hs hP] at h'
          rw [collapseSp_cons (d :: r) hc]
          have hY := nf3p_collapse_aux n (d :: r) hlen2 h'
          cases hYe : collapseSp (d :: r) with
          | nil => rfl
          | cons y ys =>
            rw [nf3p_plain y ys hs hP, ← hYe]
            exact hY
        | true =>
          rw [collapseSp_cons (d :: r) hc]
          cases hsd : isSpc d with
          | false =>
            have h' := h
            rw [nf3p_punct_excl r hs hP hsd] at h'
            have hex1 := (bandE h').1
            have hex2 := (bandE (bandE h').2).1
            have hnf := (bandE (bandE h').2).2
            have hdne : ¬ d = ' ' := fun he => by
              rw [he] at hsd
              exact absurd hsd (by decide)
            rw [collapseSp_cons r hdne,
              nf3p_punct_excl (collapseSp r) hs hP hsd]
            refine bandI hex1 (bandI hex2 ?_)
            have hY := nf3p_collapse_aux n (d :: r) hlen2 hnf
            rw [collapseSp_cons r hdne] at hY
            exact hY
          | true =>
            cases r with
            | nil =>
              by_cases hd' : d = ' '
              · subst hd'
                rw [collapseSp_cons_sp, List.dropWhile_nil, collapseSp_nil,
                  nf3p_punct_end hs hP (by decide)]
                rfl
              · rw [collapseSp_cons [] hd', collapseSp_nil,
                  nf3p_punct_end hs hP hsd]
                rfl
            | cons e rr =>
              have hlen3 : (e :: rr).length ≤ n := by
                simp only [List.length_cons] at hlen ⊢
                omega
              cases hPe : isP1 e with
              | true =>
                have h' := h
                rw [nf3p_punct_site rr hs hP hsd hPe] at h'
                have hsite := (bandE h').1
                have hnfr := (bandE h').2
                have hd' : d = ' ' := eq_of_beq (bandE hsite).2
                subst hd'
                have hene : ¬ e = ' ' := fun hEe => by
                  rw [hEe] at hPe
                  exact absurd hPe (by decide)
                rw [collapseSp_cons_sp,
                  List.dropWhile_cons_of_neg (by simpa using hene),
                  collapseSp_cons rr hene,
                  nf3p_punct_site (collapseSp rr) hs hP (by decide) hPe]
                refine bandI hsite ?_
                have hY := nf3p_collapse_aux n (e :: rr) hlen3 hnfr
                rw [collapseSp_cons rr hene] at hY
                exact hY
              | false =>
                have h' := h
                rw [nf3p_punct_nonsite rr hs hP hsd hPe] at h'
                have hY := nf3p_collapse_aux n (d :: e :: rr) hlen2 h'
                by_cases hd' : d = ' '
                · subst hd'
                  rw [collapseSp_cons_sp] at hY ⊢
                  cases hYD : collapseSp ((e :: rr).dropWhile (fun x => x = ' ')) with
                  | nil =>
                    rw [nf3p_punct_end hs hP (by decide)]
                    rfl
                  | cons y2 ys2 =>
                    have hfoll2 : (match (e :: rr).dropWhile (fun x => x = ' ') with
                        | f :: _ => !isP1 f | [] => true) = true := by
                      have h'' := h'
                      rw [nf3p_sp e rr (by decide)] at h''
                      exact follow_sp_of_spc (e :: rr) (bandE h'').1
                    have hP1y2 : isP1 y2 = false := by
                      have hhd : some y2 =
                          ((e :: rr).dropWhile (fun x => x = ' ')).head? := by
                        rw [← collapse_head, hYD]
                        rfl
                      cases hD2 : (e :: rr).dropWhile (fun x => x = ' ') with
                      | nil =>
                        rw [hD2] at hhd
                        exact absurd hhd (by simp)
                      | cons f fs =>
                        rw [hD2] at hhd hfoll2
                        have hyf : y2 = f := by simpa using hhd
                        subst hyf
                        dsimp only at hfoll2
                        exact bnotE hfoll2
                    rw [nf3p_punct_nonsite ys2 hs hP (by decide) hP1y2]
                    rw [hYD] at hY
                    exact hY
                · rw [collapseSp_cons (e :: rr) hd'] at hY ⊢
                  cases hYe : collapseSp (e :: rr) with
                  | nil =>
                    rw [nf3p_punct_end hs hP hsd]
                    rfl
                  | cons y2 ys2 =>
                    have hP1y2 : isP1 y2 = false := by
                      have hhd : some y2 = (e :: rr).head? := by
                        rw [← collapse_head, hYe]
                        rfl
                      have hy2e : y2 = e := by simpa using hhd
                      subst hy2e
                      exact hPe
                    rw [nf3p_punct_nonsite ys2 hs hP hsd hP1y2]
                    rw [hYe] at hY
                    exact hY
termination_by n _ _ _ => n
decreasing_by
  all_goals omega

theorem nf3p_collapse (z : Str) (h : nf3p z = true) : nf3p (collapseSp z) = true :=
  nf3p_collapse_aux z.length z le_rfl h


theorem lineAux_nil (b : Bool) : lineEdgeDelAux b [] = [] := by
  rw [lineEdgeDelAux.eq_def]

theorem lineAux_cons (b : Bool) {c : Char} (cs : Str) (h : ¬ c = ' ') :
    lineEdgeDelAux b (c :: cs) = c :: lineEdgeDelAux (c = '\n') cs := by
  rw [lineEdgeDelAux.eq_def]
  simp [h]

theorem lineAux_sp (b : Bool) (cs : Str) :
    lineEdgeDelAux b (' ' :: cs) =
      (if (b || (match (' ' :: cs).dropWhile (fun x => x = ' ') with
          | [] => true | d :: _ => decide (d = '\n'))) then []
       else (' ' :: cs).takeWhile (fun x => x = ' ')) ++
        lineEdgeDelAux false ((' ' :: cs).dropWhile (fun x => x = ' ')) := by
  rw [lineEdgeDelAux.eq_def]
  simp only [if_pos rfl]
  simp

theorem takeWhile_sp1 (cs : Str) (h : headNeSp cs) :
    (' ' :: cs).takeWhile (fun x => x = ' ') = [' '] := by
  cases cs with
  | nil => simp
  | cons c2 cs2 =>
    rw [List.takeWhile_cons_of_pos (by simp),
      List.takeWhile_cons_of_neg (by simpa using h)]

theorem dropWhile_sp1 (cs : Str) (h : headNeSp cs) :
    (' ' :: cs).dropWhile (fun x => x = ' ') = cs := by
  cases cs with
  | nil => simp
  | cons c2 cs2 =>
    rw [List.dropWhile_cons_of_pos (by simp),
      List.dropWhile_cons_of_neg (by simpa using h)]

theorem lineAux_sp1 (b : Bool) (cs : Str) (h : headNeSp cs) :
    lineEdgeDelAux b (' ' :: cs) =
      (if (b || delFlag cs) then [] else [' ']) ++ lineEdgeDelAux false cs := by
  rw [lineAux_sp b cs, takeWhile_sp1 cs h, dropWhile_sp1 cs h]
  cases cs with
  | nil => rfl
  | cons c2 cs2 => rfl

theorem delFlag_nil : delFlag [] = true := rfl

theorem delFlag_cons (d : Char) (ds : Str) : delFlag (d :: ds) = decide (d = '\n') := rfl

theorem capStep_after_sp (st : Nat) (f : Char) :
    capStep (capStep st ' ') f = capStep st f := by
  cases hp : isP2 f with
  | true =>
    rw [show capStep (capStep st ' ') f = 1 from by rw [capStep, if_pos hp],
      show capStep st f = 1 from by rw [capStep, if_pos hp]]
  | false =>
    cases hsf : isSpc f with
    | false =>
      rw [show capStep (capStep st ' ') f = 0 from by
          rw [capStep, if_neg (by rw [hp]; exact Bool.false_ne_true),
            if_neg (by rw [hsf]; simp)],
        show capStep st f = 0 from by
          rw [capStep, if_neg (by rw [hp]; exact Bool.false_ne_true),
            if_neg (by rw [hsf]; simp)]]
    | true =>
      by_cases h12 : st = 1 ∨ st = 2
      · have hsp2 : capStep st ' ' = 2 := by
          rw [capStep, if_neg (by decide : ¬ isP2 ' ' = true),
            if_pos (by rcases h12 with h | h <;> simp [h, isSpc])]
        rw [hsp2,
          show capStep 2 f = 2 from by
            rw [capStep, if_neg (by rw [hp]; exact Bool.false_ne_true),
              if_pos (by rw [hsf]; simp)],
          show capStep st f = 2 from by
            rw [capStep, if_neg (by rw [hp]; exact Bool.false_ne_true),
              if_pos (by rw [hsf]; rcases h12 with h | h <;> simp [h])]]
      · push_neg at h12
        have hsp0 : capStep st ' ' = 0 := by
          rw [capStep, if_neg (by decide : ¬ isP2 ' ' = true),
            if_neg (by simp [h12.1, h12.2])]
        rw [hsp0,
          show capStep 0 f = 0 from by
            rw [capStep, if_neg (by rw [hp]; exact Bool.false_ne_true),
              if_neg (by simp [hsf])],
          show capStep st f = 0 from by
            rw [capStep, if_neg (by rw [hp]; exact Bool.false_ne_true),
              if_neg (by simp [hsf, h12.1, h12.2])]]

theorem head_lineAux_true : ∀ (z : Str),
    (match lineEdgeDelAux true z with | y :: _ => ¬ y = ' ' | [] => True)
  | [] => by rw [lineAux_nil]; trivial
  | c :: cs => by
    by_cases hc : c = ' '
    · subst hc
      rw [lineAux_sp true cs, Bool.true_or, if_pos rfl, List.nil_append]
      match hrest : (' ' :: cs).dropWhile (fun x => x = ' ') with
      | [] =>
        rw [lineAux_nil]
        trivial
      | f :: rest2 =>
        have hf : ¬ f = ' ' := by
          have hh := @head_dropWhile (fun x => decide (x = ' ')) (' ' :: cs)
          rw [hrest] at hh
          dsimp only at hh
          simpa using hh
        rw [lineAux_cons false rest2 hf]
        exact hf
    · rw [lineAux_cons true cs hc]
      exact hc

theorem foll_of_head_eq {A B : Str}
    (h : (A.dropWhile isSpc).head? = (B.dropWhile isSpc).head?)
    (hB : (match B.dropWhile isSpc with | e :: _ => !isP1 e | [] => true) = true) :
    (match A.dropWhile isSpc with | e :: _ => !isP1 e | [] => true) = true := by
  cases hA : A.dropWhile isSpc with
  | nil => rfl
  | cons a as =>
    rw [hA] at h
    cases hBq : B.dropWhile isSpc with
    | nil =>
      rw [hBq] at h
      exact absurd h (by simp)
    | cons b bs =>
      rw [hBq] at h hB
      have hab : a = b := by simpa using h
      subst hab
      exact hB

theorem takeWhile_sp_all_ws (cs : Str) :
    ∀ a ∈ (' ' :: cs).takeWhile (fun x => x = ' '), isSpc a = true := by
  intro a ha
  have := List.mem_takeWhile_imp ha
  have ha' : a = ' ' := by simpa using this
  rw [ha']
  decide

theorem firstNonWs_lineAux : ∀ (b : Bool) (z : Str),
    ((lineEdgeDelAux b z).dropWhile isSpc).head? = (z.dropWhile isSpc).head?
  | _, [] => by rw [lineAux_nil]
  | b, c :: cs => by
    by_cases hc : c = ' '
    · subst hc
      rw [lineAux_sp b cs]
      have hrhs : (' ' :: cs).dropWhile isSpc =
          ((' ' :: cs).dropWhile (fun x => x = ' ')).dropWhile isSpc :=
        (dropWhile_sp_spc (' ' :: cs)).symm
      cases hdel : (b || (match (' ' :: cs).dropWhile (fun x => x = ' ') with
          | [] => true | d :: _ => decide (d = '\n'))) with
      | true =>
        rw [if_pos rfl, List.nil_append, hrhs]
        exact firstNonWs_lineAux false ((' ' :: cs).dropWhile (fun x => x = ' '))
      | false =>
        rw [if_neg Bool.false_ne_true, dropWhile_all _ _ (takeWhile_sp_all_ws cs), hrhs]
        exact firstNonWs_lineAux false ((' ' :: cs).dropWhile (fun x => x = ' '))
    · rw [lineAux_cons b cs hc]
      cases hs : isSpc c with
      | true =>
        rw [List.dropWhile_cons_of_pos hs, List.dropWhile_cons_of_pos hs]
        exact firstNonWs_lineAux (decide (c = '\n')) cs
      | false =>
        rw [List.dropWhile_cons_of_neg (by rw [hs]; exact Bool.false_ne_true),
          List.dropWhile_cons_of_neg (by rw [hs]; exact Bool.false_ne_true)]
        rfl
termination_by _ z => z.length
decreasing_by
  all_goals first
  | (simp only [List.length_cons]; omega)
  | (have he : List.dropWhile (fun x => decide (x = ' ')) (' ' :: cs) =
        List.dropWhile (fun x => decide (x = ' ')) cs :=
       List.dropWhile_cons_of_pos (by decide)
     rw [he]
     have := (List.dropWhile_sublist (l := cs)
       (p := fun x => decide (x = ' '))).length_le
     simp only [List.length_cons]
     omega)

theorem lineAux_head_not_P1 : ∀ (b : Bool) (z : Str),
    (match z.dropWhile isSpc with | g :: _ => isP1 g = false | [] => True) →
    (match lineEdgeDelAux b z with | y :: _ => isP1 y = false | [] => True)
  | _, [], _ => by rw [lineAux_nil]; trivial
  | b, c :: cs, hf => by
    by_cases hc : c = ' '
    · subst hc
      rw [lineAux_sp b cs]
      have hre : (match ((' ' :: cs).dropWhile (fun x => x = ' ')).dropWhile isSpc with
          | g :: _ => isP1 g = false | [] => True) := by
        rw [dropWhile_sp_spc]
        exact hf
      cases hdel : (b || (match (' ' :: cs).dropWhile (fun x => x = ' ') with
          | [] => true | d :: _ => decide (d = '\n'))) with
      | true =>
        rw [if_pos rfl, List.nil_append]
        exact lineAux_head_not_P1 false _ hre
      | false =>
        rw [if_neg Bool.false_ne_true, List.takeWhile_cons_of_pos (by simp),
          List.cons_append]
        dsimp only
        decide
    · rw [lineAux_cons b cs hc]
      dsimp only
      cases hs : isSpc c with
      | true => exact isSpc_not_P1 hs
      | false =>
        rw [List.dropWhile_cons_of_neg (by rw [hs]; exact Bool.false_ne_true)] at hf
        exact hf
termination_by _ z _ => z.length
decreasing_by
  all_goals
    have he : List.dropWhile (fun x => decide (x = ' ')) (' ' :: cs) =
        List.dropWhile (fun x => decide (x = ' ')) cs :=
      List.dropWhile_cons_of_pos (by decide)
    rw [he]
    have := (List.dropWhile_sublist (l := cs)
      (p := fun x => decide (x = ' '))).length_le
    simp only [List.length_cons]
    omega


theorem noDup_head_ne {cs : Str} (h : noDupSp (' ' :: cs) = true) :
    headNeSp cs := by
  cases cs with
  | nil => trivial
  | cons d ds =>
    have hp := bnotE (bandE (show (!(' ' == ' ' && d == ' ') &&
      noDupSp (d :: ds)) = true from h)).1
    rw [(by decide : (' ' == ' ') = true), Bool.true_and] at hp
    exact fun he => by
      rw [he] at hp
      exact absurd hp (by decide)

theorem bool_neg_eq_false {x : Bool} (h : ¬ x = true) : x = false := by
  cases hx : x with
  | false => rfl
  | true => exact absurd hx h

theorem noDup_lineAux : ∀ (b : Bool) (z : Str), noDupSp z = true →
    noDupSp (lineEdgeDelAux b z) = true
  | _, [], h => by rw [lineAux_nil]; exact h
  | b, c :: cs, h => by
    by_cases hc : c = ' '
    · subst hc
      have hne := noDup_head_ne h
      rw [lineAux_sp1 b cs hne]
      have hrec := noDup_lineAux false cs (noDup_tail h)
      split
      · rw [List.nil_append]
        exact hrec
      · rw [List.singleton_append]
        cases cs with
        | nil =>
          rw [lineAux_nil]
          rfl
        | cons d ds =>
          have hd : ¬ d = ' ' := hne
          rw [lineAux_cons false ds hd]
          show (!(' ' == ' ' && d == ' ') &&
            noDupSp (d :: lineEdgeDelAux (d = '\n') ds)) = true
          refine bandI ?_ ?_
          · rw [beq_eq_false_iff_ne.mpr hd, Bool.and_false]
            rfl
          · rw [← lineAux_cons false ds hd]
            exact hrec
    · rw [lineAux_cons b cs hc]
      have hrec := noDup_lineAux (decide (c = '\n')) cs (noDup_tail h)
      cases hY : lineEdgeDelAux (decide (c = '\n')) cs with
      | nil => rfl
      | cons y ys =>
        rw [hY] at hrec
        show (!(c == ' ' && y == ' ') && noDupSp (y :: ys)) = true
        refine bandI ?_ hrec
        rw [beq_eq_false_iff_ne.mpr hc, Bool.false_and]
        rfl

theorem capOK_lineAux : ∀ (b : Bool) (z : Str) (st : Nat), noDupSp z = true →
    capOK st z = true → capOK st (lineEdgeDelAux b z) = true
  | _, [], _, _, h => by rw [lineAux_nil]; exact h
  | b, c :: cs, st, hnd, h => by
    have hh := bandE (show (!(decide (st = 2) && isLow c) &&
      capOK (capStep st c) cs) = true from h)
    by_cases hc : c = ' '
    · subst hc
      have hne := noDup_head_ne hnd
      rw [lineAux_sp1 b cs hne]
      split
      · rw [List.nil_append]
        refine capOK_lineAux false cs st (noDup_tail hnd) ?_
        cases cs with
        | nil => rfl
        | cons f fs =>
          have hf2 := bandE (show (!(decide (capStep st ' ' = 2) && isLow f) &&
            capOK (capStep (capStep st ' ') f) fs) = true from hh.2)
          show (!(decide (st = 2) && isLow f) && capOK (capStep st f) fs) = true
          refine bandI ?_ ?_
          · by_cases h2 : st = 2
            · have hst' : capStep st ' ' = 2 := by rw [h2]; decide
              have hc1 := hf2.1
              rw [hst'] at hc1
              rw [h2]
              exact hc1
            · rw [(by simp [h2] : decide (st = 2) = false), Bool.false_and]
              rfl
          · rw [← capStep_after_sp st f]
            exact hf2.2
      · rw [List.singleton_append]
        show (!(decide (st = 2) && isLow ' ') &&
          capOK (capStep st ' ') (lineEdgeDelAux false cs)) = true
        rw [(by decide : isLow ' ' = false), Bool.and_false]
        exact bandI rfl (capOK_lineAux false cs (capStep st ' ') (noDup_tail hnd) hh.2)
    · rw [lineAux_cons b cs hc]
      show (!(decide (st = 2) && isLow c) &&
        capOK (capStep st c) (lineEdgeDelAux (decide (c = '\n')) cs)) = true
      exact bandI hh.1
        (capOK_lineAux (decide (c = '\n')) cs (capStep st c) (noDup_tail hnd) hh.2)

theorem nwoa_lineAux : ∀ (b : Bool) (z : Str), noDupSp z = true →
    noWsAfterOpen z = true → noWsAfterOpen (lineEdgeDelAux b z) = true
  | _, [], _, h => by rw [lineAux_nil]; exact h
  | b, c :: cs, hnd, h => by
    by_cases hc : c = ' '
    · subst hc
      have hne := noDup_head_ne hnd
      rw [lineAux_sp1 b cs hne]
      have hrec := nwoa_lineAux false cs (noDup_tail hnd) (nwoa_tail h)
      split
      · rw [List.nil_append]
        exact hrec
      · rw [List.singleton_append]
        cases hY : lineEdgeDelAux false cs with
        | nil => rfl
        | cons y ys =>
          rw [hY] at hrec
          show (!(isOpenBr ' ' && isSpc y) && noWsAfterOpen (y :: ys)) = true
          rw [(by decide : isOpenBr ' ' = false), Bool.false_and]
          exact bandI rfl hrec
    · rw [lineAux_cons b cs hc]
      have hrec := nwoa_lineAux (decide (c = '\n')) cs (noDup_tail hnd) (nwoa_tail h)
      cases hY : lineEdgeDelAux (decide (c = '\n')) cs with
      | nil => rfl
      | cons y ys =>
        rw [hY] at hrec
        show (!(isOpenBr c && isSpc y) && noWsAfterOpen (y :: ys)) = true
        refine bandI ?_ hrec
        cases ho : isOpenBr c with
        | false => rfl
        | true =>
          cases cs with
          | nil =>
            rw [lineAux_nil] at hY
            exact absurd hY (by simp)
          | cons d ds =>
            have hpair := bnotE (bandE (show (!(isOpenBr c && isSpc d) &&
              noWsAfterOpen (d :: ds)) = true from h)).1
            rw [ho, Bool.true_and] at hpair
            have hdne : ¬ d = ' ' := fun he => by
              rw [he] at hpair
              exact absurd hpair (by decide)
            rw [lineAux_cons (decide (c = '\n')) ds hdne] at hY
            injection hY with h1 _
            subst h1
            rw [hpair, Bool.and_false]
            rfl

theorem nwb_cb_lineAux : ∀ (b : Bool) (z : Str), noDupSp z = true →
    noWsBefore isCloseBr z = true →
    noWsBefore isCloseBr (lineEdgeDelAux b z) = true
  | _, [], _, h => by rw [lineAux_nil]; exact h
  | b, c :: cs, hnd, h => by
    by_cases hc : c = ' '
    · subst hc
      have hne := noDup_head_ne hnd
      rw [lineAux_sp1 b cs hne]
      have hrec := nwb_cb_lineAux false cs (noDup_tail hnd) (nwb_tail h)
      split
      · rw [List.nil_append]
        exact hrec
      · rw [List.singleton_append]
        cases hY : lineEdgeDelAux false cs with
        | nil => rfl
        | cons y ys =>
          rw [hY] at hrec
          show (!(isSpc ' ' && isCloseBr y) && noWsBefore isCloseBr (y :: ys)) = true
          refine bandI ?_ hrec
          cases cs with
          | nil =>
            rw [lineAux_nil] at hY
            exact absurd hY (by simp)
          | cons d ds =>
            have hd : ¬ d = ' ' := hne
            rw [lineAux_cons false ds hd] at hY
            injection hY with h1 _
            subst h1
            have hpair := bnotE (bandE (show (!(isSpc ' ' && isCloseBr d) &&
              noWsBefore isCloseBr (d :: ds)) = true from h)).1
            rw [(by decide : isSpc ' ' = true), Bool.true_and] at hpair
            rw [hpair, Bool.and_false]
            rfl
    · rw [lineAux_cons b cs hc]
      have hrec := nwb_cb_lineAux (decide (c = '\n')) cs (noDup_tail hnd) (nwb_tail h)
      cases hY : lineEdgeDelAux (decide (c = '\n')) cs with
      | nil => rfl
      | cons y ys =>
        rw [hY] at hrec
        show (!(isSpc c && isCloseBr y) && noWsBefore isCloseBr (y :: ys)) = true
        refine bandI ?_ hrec
        cases hs : isSpc c with
        | false => rw [Bool.false_and]; rfl
        | true =>
          cases cs with
          | nil =>
            rw [lineAux_nil] at hY
            exact absurd hY (by simp)
          | cons d ds =>
            by_cases hd : d = ' '
            · subst hd
              have hne2 := noDup_head_ne (noDup_tail hnd)
              rw [lineAux_sp1 (decide (c = '\n')) ds hne2] at hY
              have hpair2 : isCloseBr y = false := by
                split at hY
                · rw [List.nil_append] at hY
                  cases ds with
                  | nil =>
                    rw [lineAux_nil] at hY
                    exact absurd hY (by simp)
                  | cons d0 ds' =>
                    have hd0 : ¬ d0 = ' ' := hne2
                    rw [lineAux_cons false ds' hd0] at hY
                    injection hY with h1 _
                    subst h1
                    have hp2 := bnotE (bandE (show (!(isSpc ' ' && isCloseBr d0) &&
                      noWsBefore isCloseBr (d0 :: ds')) = true from nwb_tail h)).1
                    rw [(by decide : isSpc ' ' = true), Bool.true_and] at hp2
                    exact hp2
                · rw [List.singleton_append] at hY
                  injection hY with h1 _
                  rw [← h1]
                  decide
              rw [hpair2, Bool.and_false]
              rfl
            · rw [lineAux_cons (decide (c = '\n')) ds hd] at hY
              injection hY with h1 _
              subst h1
              have hpair := bnotE (bandE (show (!(isSpc c && isCloseBr d) &&
                noWsBefore isCloseBr (d :: ds)) = true from h)).1
              rw [hs, Bool.true_and] at hpair
              rw [hpair, Bool.and_false]
              rfl

theorem lineSpOK_lineAux : ∀ (b : Bool) (z : Str), noDupSp z = true →
    lineSpOK (lineEdgeDelAux b z) = true
  | _, [], _ => by rw [lineAux_nil]; rfl
  | b, c :: cs, hnd => by
    by_cases hc : c = ' '
    · subst hc
      have hne := noDup_head_ne hnd
      rw [lineAux_sp1 b cs hne]
      have hrec := lineSpOK_lineAux false cs (noDup_tail hnd)
      split
      · rw [List.nil_append]
        exact hrec
      · next hdel =>
        have hdel2 : (b || delFlag cs) = false :=
          bool_neg_eq_false hdel
        rw [List.singleton_append]
        cases cs with
        | nil =>
          rw [delFlag_nil, Bool.or_true] at hdel2
          exact absurd hdel2 (by decide)
        | cons d ds =>
          have hd : ¬ d = ' ' := hne
          have hdnl : ¬ d = '\n' := by
            intro he
            rw [delFlag_cons, he] at hdel2
            simp at hdel2
          rw [lineAux_cons false ds hd]
          show (!(' ' == '\n' && d == ' ') && (!(' ' == ' ' && d == '\n') &&
            lineSpOK (d :: lineEdgeDelAux (d = '\n') ds))) = true
          refine bandI ?_ (bandI ?_ ?_)
          · rw [(by decide : ((' ' == '\n') : Bool) = false), Bool.false_and]
            rfl
          · rw [beq_eq_false_iff_ne.mpr hdnl, Bool.and_false]
            rfl
          · rw [← lineAux_cons false ds hd]
            exact hrec
    · rw [lineAux_cons b cs hc]
      have hrec := lineSpOK_lineAux (decide (c = '\n')) cs (noDup_tail hnd)
      cases hY : lineEdgeDelAux (decide (c = '\n')) cs with
      | nil => rfl
      | cons y ys =>
        rw [hY] at hrec
        have h2 : (c == ' ' && y == '\n') = false := by
          rw [beq_eq_false_iff_ne.mpr hc, Bool.false_and]
        have h1 : (c == '\n' && y == ' ') = false := by
          by_cases hcn : c = '\n'
          · have hflag : decide (c = '\n') = true := by simp [hcn]
            rw [hflag] at hY
            have hht := head_lineAux_true cs
            rw [hY] at hht
            have hht' : ¬ y = ' ' := hht
            rw [beq_eq_false_iff_ne.mpr hht', Bool.and_false]
          · rw [beq_eq_false_iff_ne.mpr hcn, Bool.false_and]
        simp only [lineSpOK, h1, h2, Bool.not_false, Bool.true_and]
        exact hrec


theorem nf3p_lineAux_aux : ∀ (n : Nat) (b : Bool) (z : Str), z.length ≤ n →
    noDupSp z = true → nf3p z = true → nf3p (lineEdgeDelAux b z) = true
  | _, _, [], _, _, _ => by rw [lineAux_nil]; rfl
  | 0, _, _ :: _, hlen, _, _ => by
    simp only [List.length_cons] at hlen
    omega
  | n + 1, b, c :: cs, hlen, hnd, h => by
    by_cases hc : c = ' '
    · subst hc
      have hne := noDup_head_ne hnd
      rw [lineAux_sp1 b cs hne]
      split
      · rw [List.nil_append]
        cases cs with
        | nil => rw [lineAux_nil]; rfl
        | cons d ds =>
          have hx := h
          rw [nf3p_sp d ds (by decide)] at hx
          have hparts := bandE hx
          exact nf3p_lineAux_aux n false (d :: ds)
            (by simp only [List.length_cons] at hlen ⊢; omega)
            (noDup_tail hnd) hparts.2
      · rw [List.singleton_append]
        cases cs with
        | nil => rw [lineAux_nil]; rfl
        | cons d ds =>
          have hx := h
          rw [nf3p_sp d ds (by decide)] at hx
          have hparts := bandE hx
          have hrec := nf3p_lineAux_aux n false (d :: ds)
            (by simp only [List.length_cons] at hlen ⊢; omega)
            (noDup_tail hnd) hparts.2
          have hfolA := foll_of_head_eq (firstNonWs_lineAux false (d :: ds)) hparts.1
          cases hW : lineEdgeDelAux false (d :: ds) with
          | nil => rfl
          | cons y ys =>
            rw [nf3p_sp y ys (by decide)]
            rw [hW] at hfolA hrec
            exact bandI hfolA hrec
    · rw [lineAux_cons b cs hc]
      cases cs with
      | nil => rw [lineAux_nil]; rfl
      | cons d ds =>
        cases hs : isSpc c with
        | true =>
          have hx := h
          rw [nf3p_sp d ds hs] at hx
          have hparts := bandE hx
          have hrec := nf3p_lineAux_aux n (decide (c = '\n')) (d :: ds)
            (by simp only [List.length_cons] at hlen ⊢; omega)
            (noDup_tail hnd) hparts.2
          have hfolA := foll_of_head_eq
            (firstNonWs_lineAux (decide (c = '\n')) (d :: ds)) hparts.1
          cases hW : lineEdgeDelAux (decide (c = '\n')) (d :: ds) with
          | nil => rfl
          | cons y ys =>
            rw [nf3p_sp y ys hs]
            rw [hW] at hfolA hrec
            exact bandI hfolA hrec
        | false =>
          cases hP : (isP1 c || isP2 c) with
          | false =>
            have hx := h
            rw [nf3p_plain d ds hs hP] at hx
            have hrec := nf3p_lineAux_aux n (decide (c = '\n')) (d :: ds)
              (by simp only [List.length_cons] at hlen ⊢; omega)
              (noDup_tail hnd) hx
            cases hW : lineEdgeDelAux (decide (c = '\n')) (d :: ds) with
            | nil => rfl
            | cons y ys =>
              rw [nf3p_plain y ys hs hP]
              rw [hW] at hrec
              exact hrec
          | true =>
            cases hsd : isSpc d with
            | false =>
              have hx := h
              rw [nf3p_punct_excl ds hs hP hsd] at hx
              have hparts := bandE hx
              have hparts2 := bandE hparts.2
              have hdne : ¬ d = ' ' := fun he => by
                rw [he] at hsd
                exact absurd hsd (by decide)
              rw [lineAux_cons (decide (c = '\n')) ds hdne]
              rw [nf3p_punct_excl _ hs hP hsd]
              refine bandI hparts.1 (bandI hparts2.1 ?_)
              rw [← lineAux_cons false ds hdne]
              exact nf3p_lineAux_aux n false (d :: ds)
                (by simp only [List.length_cons] at hlen ⊢; omega)
                (noDup_tail hnd) hparts2.2
            | true =>
              by_cases hdsp : d = ' '
              · subst hdsp
                have hne2 := noDup_head_ne (noDup_tail hnd)
                rw [lineAux_sp1 (decide (c = '\n')) ds hne2]
                have hcnl : ¬ c = '\n' := by
                  intro he
                  rw [he] at hP
                  exact absurd hP (by decide)
                have hcn : decide (c = '\n') = false := by simp [hcnl]
                rw [hcn, Bool.false_or]
                cases hdf : delFlag ds with
                | true =>
                  rw [if_pos rfl, List.nil_append]
                  cases ds with
                  | nil => rw [lineAux_nil]; rfl
                  | cons e ds2 =>
                    have he : e = '\n' := by
                      rw [delFlag_cons] at hdf
                      simpa using hdf
                    subst he
                    have hx := h
                    rw [nf3p_punct_nonsite ds2 hs hP (by decide) (by decide)] at hx
                    have hx2 := hx
                    rw [nf3p_sp '\n' ds2 (by decide)] at hx2
                    have hparts := bandE hx2
                    have hrec := nf3p_lineAux_aux n false ('\n' :: ds2)
                      (by simp only [List.length_cons] at hlen ⊢; omega)
                      (noDup_tail (noDup_tail hnd)) hparts.2
                    rw [lineAux_cons false ds2 (by decide)]
                    rw [lineAux_cons false ds2 (by decide)] at hrec
                    have hb0 := hparts.1
                    rw [List.dropWhile_cons_of_pos (by decide)] at hb0
                    have hfolP := lineAux_head_not_P1 (decide ('\n' = '\n')) ds2
                      (by cases hz : ds2.dropWhile isSpc with
                          | nil => trivial
                          | cons g gs =>
                            rw [hz] at hb0
                            have hb2 : isP1 g = false := by simpa using hb0
                            exact hb2)
                    cases hR : lineEdgeDelAux (decide ('\n' = '\n')) ds2 with
                    | nil =>
                      rw [nf3p_punct_end hs hP (by decide)]
                      rfl
                    | cons f r2 =>
                      rw [hR] at hrec hfolP
                      have hPf : isP1 f = false := hfolP
                      rw [nf3p_punct_nonsite r2 hs hP (by decide) hPf]
                      exact hrec
                | false =>
                  rw [if_neg (by decide), List.singleton_append]
                  cases ds with
                  | nil =>
                    rw [delFlag_nil] at hdf
                    exact absurd hdf (by decide)
                  | cons e ds2 =>
                    have hene : ¬ e = ' ' := hne2
                    rw [lineAux_cons false ds2 hene]
                    cases hPe : isP1 e with
                    | true =>
                      have hx := h
                      rw [nf3p_punct_site ds2 hs hP (by decide) hPe] at hx
                      have hparts := bandE hx
                      rw [nf3p_punct_site _ hs hP (by decide) hPe]
                      refine bandI hparts.1 ?_
                      rw [← lineAux_cons false ds2 hene]
                      exact nf3p_lineAux_aux n false (e :: ds2)
                        (by simp only [List.length_cons] at hlen ⊢; omega)
                        (noDup_tail (noDup_tail hnd)) hparts.2
                    | false =>
                      have hx := h
                      rw [nf3p_punct_nonsite ds2 hs hP (by decide) hPe] at hx
                      have hx2 := hx
                      rw [nf3p_sp e ds2 (by decide)] at hx2
                      have hparts := bandE hx2
                      have hrec := nf3p_lineAux_aux n false (e :: ds2)
                        (by simp only [List.length_cons] at hlen ⊢; omega)
                        (noDup_tail (noDup_tail hnd)) hparts.2
                      have hfolA := foll_of_head_eq
                        (firstNonWs_lineAux false (e :: ds2)) hparts.1
                      rw [nf3p_punct_nonsite _ hs hP (by decide) hPe]
                      rw [← lineAux_cons false ds2 hene]
                      cases hW : lineEdgeDelAux false (e :: ds2) with
                      | nil => rfl
                      | cons y ys =>
                        rw [nf3p_sp y ys (by decide)]
                        rw [hW] at hfolA hrec
                        exact bandI hfolA hrec
              · have hdne : ¬ d = ' ' := hdsp
                rw [lineAux_cons (decide (c = '\n')) ds hdne]
                cases ds with
                | nil =>
                  rw [lineAux_nil, nf3p_punct_end hs hP hsd]
                  rfl
                | cons e ds2 =>
                  cases hPe : isP1 e with
                  | true =>
                    have hx := h
                    rw [nf3p_punct_site ds2 hs hP hsd hPe] at hx
                    have hds' : (d == ' ') = true := (bandE (bandE hx).1).2
                    exact absurd (by simpa using hds' : d = ' ') hdne
                  | false =>
                    have hx := h
                    rw [nf3p_punct_nonsite ds2 hs hP hsd hPe] at hx
                    have hx2 := hx
                    rw [nf3p_sp e ds2 hsd] at hx2
                    have hparts := bandE hx2
                    have hrec := nf3p_lineAux_aux n false (d :: e :: ds2)
                      (by simp only [List.length_cons] at hlen ⊢; omega)
                      (noDup_tail hnd) hx
                    have hfolP := lineAux_head_not_P1 (decide (d = '\n')) (e :: ds2)
                      (by cases hz : (e :: ds2).dropWhile isSpc with
                          | nil => trivial
                          | cons g gs =>
                            have hb := hparts.1
                            rw [hz] at hb
                            have hb2 : isP1 g = false := by simpa using hb
                            exact hb2)
                    cases hR : lineEdgeDelAux (decide (d = '\n')) (e :: ds2) with
                    | nil =>
                      rw [nf3p_punct_end hs hP hsd]
                      rfl
                    | cons f r2 =>
                      have hPf : isP1 f = false := by
                        rw [hR] at hfolP
                        exact hfolP
                      rw [nf3p_punct_nonsite r2 hs hP hsd hPf]
                      rw [← hR, ← lineAux_cons false (e :: ds2) hdne]
                      exact hrec
termination_by n _ _ _ _ _ => n
decreasing_by
  all_goals omega

theorem nf3p_lineAux (b : Bool) (z : Str) (hnd : noDupSp z = true)
    (h : nf3p z = true) : nf3p (lineEdgeDelAux b z) = true :=
  nf3p_lineAux_aux z.length b z le_rfl hnd h

theorem lineSpOK_tail {c : Char} {cs : Str} (h : lineSpOK (c :: cs) = true) :
    lineSpOK cs = true := by
  cases cs with
  | nil => rfl
  | cons d ds =>
    exact (bandE (show ((!(c == '\n' && d == ' ') && !(c == ' ' && d == '\n')) &&
      lineSpOK (d :: ds)) = true from h)).2

theorem lineSpOK_pairs {c d : Char} {ds : Str} (h : lineSpOK (c :: d :: ds) = true) :
    (c == '\n' && d == ' ') = false ∧ (c == ' ' && d == '\n') = false := by
  have hh := bandE (bandE (show ((!(c == '\n' && d == ' ') &&
    !(c == ' ' && d == '\n')) && lineSpOK (d :: ds)) = true from h)).1
  exact ⟨bnotE hh.1, bnotE hh.2⟩

theorem lineAux_id_aux : ∀ (n : Nat) (b : Bool) (t : Str), t.length ≤ n →
    noDupSp t = true → lineSpOK t = true →
    lastOK t = true → (b = true → headNeSp t) → lineEdgeDelAux b t = t
  | _, _, [], _, _, _, _, _ => lineAux_nil _
  | 0, _, _ :: _, hlen, _, _, _, _ => by
    simp only [List.length_cons] at hlen
    omega
  | n + 1, b, c :: cs, hlen, hnd, hlsp, hlast, hb => by
    by_cases hc : c = ' '
    · subst hc
      cases b with
      | true => exact absurd rfl (hb rfl)
      | false =>
        have hne := noDup_head_ne hnd
        rw [lineAux_sp1 false cs hne]
        cases cs with
        | nil =>
          rw [lastOK_single] at hlast
          exact absurd hlast (by decide)
        | cons d ds =>
          have hdn : ¬ d = '\n' := by
            intro he
            have hp := (lineSpOK_pairs hlsp).2
            rw [he] at hp
            exact absurd hp (by decide)
          have hdf : decide (d = '\n') = false := by simp [hdn]
          rw [delFlag_cons, Bool.false_or, hdf, if_neg (by decide),
            List.singleton_append]
          rw [lineAux_id_aux n false (d :: ds)
            (by simp only [List.length_cons] at hlen ⊢; omega)
            (noDup_tail hnd) (lineSpOK_tail hlsp)
            (by rw [lastOK_cons_cons] at hlast; exact hlast)
            (fun hf => absurd hf (by decide))]
    · rw [lineAux_cons b cs hc]
      have hlast2 : lastOK cs = true := by
        cases cs with
        | nil => rfl
        | cons d ds => rw [lastOK_cons_cons] at hlast; exact hlast
      have hb2 : decide (c = '\n') = true → headNeSp cs := by
        intro hcn
        cases cs with
        | nil => trivial
        | cons d ds =>
          have hcn2 : c = '\n' := by simpa using hcn
          have hp := (lineSpOK_pairs hlsp).1
          intro he
          rw [hcn2, he] at hp
          exact absurd hp (by decide)
      rw [lineAux_id_aux n (decide (c = '\n')) cs
        (by simp only [List.length_cons] at hlen; omega)
        (noDup_tail hnd) (lineSpOK_tail hlsp) hlast2 hb2]
termination_by n _ _ _ _ _ _ _ => n
decreasing_by
  all_goals omega

theorem lineAux_id (b : Bool) (t : Str) (hnd : noDupSp t = true)
    (hlsp : lineSpOK t = true) (hlast : lastOK t = true)
    (hb : b = true → headNeSp t) : lineEdgeDelAux b t = t :=
  lineAux_id_aux t.length b t le_rfl hnd hlsp hlast hb

theorem lineAux_app_aux : ∀ (n : Nat) (b : Bool) (t : Str), t.length ≤ n →
    noDupSp t = true → lineSpOK t = true →
    lastOK t = true → (b = true → headNeSp t) → lineEdgeDelAux b (t ++ [' ']) = t
  | _, b, [], _, _, _, _, _ => by
    rw [List.nil_append, lineAux_sp1 b [] (by trivial)]
    rw [delFlag_nil, Bool.or_true, if_pos rfl, lineAux_nil]
    rfl
  | 0, _, _ :: _, hlen, _, _, _, _ => by
    simp only [List.length_cons] at hlen
    omega
  | n + 1, b, c :: cs, hlen, hnd, hlsp, hlast, hb => by
    rw [List.cons_append]
    by_cases hc : c = ' '
    · subst hc
      cases b with
      | true => exact absurd rfl (hb rfl)
      | false =>
        cases cs with
        | nil =>
          rw [lastOK_single] at hlast
          exact absurd hlast (by decide)
        | cons d ds =>
          rw [List.cons_append]
          have hne : ¬ d = ' ' := noDup_head_ne hnd
          rw [lineAux_sp1 false (d :: (ds ++ [' '])) hne]
          have hdn : ¬ d = '\n' := by
            intro he
            have hp := (lineSpOK_pairs hlsp).2
            rw [he] at hp
            exact absurd hp (by decide)
          have hdf : decide (d = '\n') = false := by simp [hdn]
          rw [delFlag_cons, Bool.false_or, hdf, if_neg (by decide),
            List.singleton_append]
          rw [← List.cons_append]
          rw [lineAux_app_aux n false (d :: ds)
            (by simp only [List.length_cons] at hlen ⊢; omega)
            (noDup_tail hnd) (lineSpOK_tail hlsp)
            (by rw [lastOK_cons_cons] at hlast; exact hlast)
            (fun hf => absurd hf (by decide))]
    · rw [lineAux_cons b (cs ++ [' ']) hc]
      have hlast2 : lastOK cs = true := by
        cases cs with
        | nil => rfl
        | cons d ds => rw [lastOK_cons_cons] at hlast; exact hlast
      have hb2 : decide (c = '\n') = true → headNeSp cs := by
        intro hcn
        cases cs with
        | nil => trivial
        | cons d ds =>
          have hcn2 : c = '\n' := by simpa using hcn
          have hp := (lineSpOK_pairs hlsp).1
          intro he
          rw [hcn2, he] at hp
          exact absurd hp (by decide)
      rw [lineAux_app_aux n (decide (c = '\n')) cs
        (by simp only [List.length_cons] at hlen; omega)
        (noDup_tail hnd) (lineSpOK_tail hlsp) hlast2 hb2]
termination_by n _ _ _ _ _ _ _ => n
decreasing_by
  all_goals omega

theorem lineAux_app (b : Bool) (t : Str) (hnd : noDupSp t = true)
    (hlsp : lineSpOK t = true) (hlast : lastOK t = true)
    (hb : b = true → headNeSp t) : lineEdgeDelAux b (t ++ [' ']) = t :=
  lineAux_app_aux t.length b t le_rfl hnd hlsp hlast hb


theorem nf3p_append_ws_aux : ∀ (n : Nat) (u w : Str), u.length ≤ n →
    (∀ a ∈ w, isSpc a = true) → nf3p (u ++ w) = true → nf3p u = true
  | _, [], _, _, _, _ => rfl
  | _, [_], _, _, _, _ => rfl
  | 0, _ :: _ :: _, _, hlen, _, _ => by
    simp only [List.length_cons] at hlen
    omega
  | n + 1, c :: d :: r, w, hlen, hw, h => by
    have hlen2 : (d :: r).length ≤ n := by
      simp only [List.length_cons] at hlen ⊢
      omega
    rw [List.cons_append, List.cons_append] at h
    cases hs : isSpc c with
    | true =>
      rw [nf3p_sp d (r ++ w) hs] at h
      have hfoll := (bandE h).1
      have htail := (bandE h).2
      rw [nf3p_sp d r hs]
      refine bandI ?_ (nf3p_append_ws_aux n (d :: r) w hlen2 hw
        (by rw [List.cons_append]; exact htail))
      cases hX : (d :: r).dropWhile isSpc with
      | nil => rfl
      | cons e t =>
        dsimp only
        have hX2 : (d :: (r ++ w)).dropWhile isSpc = e :: (t ++ w) := by
          rw [← List.cons_append]
          exact drop_append_cons (d :: r) w hX
        rw [hX2] at hfoll
        dsimp only at hfoll
        exact hfoll
    | false =>
      cases hP : (isP1 c || isP2 c) with
      | false =>
        rw [nf3p_plain d (r ++ w) hs hP] at h
        rw [nf3p_plain d r hs hP]
        exact nf3p_append_ws_aux n (d :: r) w hlen2 hw
          (by rw [List.cons_append]; exact h)
      | true =>
        cases hsd : isSpc d with
        | false =>
          rw [nf3p_punct_excl (r ++ w) hs hP hsd] at h
          rw [nf3p_punct_excl r hs hP hsd]
          exact bandI (bandE h).1 (bandI (bandE (bandE h).2).1
            (nf3p_append_ws_aux n (d :: r) w hlen2 hw
              (by rw [List.cons_append]; exact (bandE (bandE h).2).2)))
        | true =>
          cases r with
          | nil =>
            rw [nf3p_punct_end hs hP hsd]
            rfl
          | cons e rr =>
            have hlen3 : (e :: rr).length ≤ n := by
              simp only [List.length_cons] at hlen ⊢
              omega
            rw [List.cons_append] at h
            cases hPe : isP1 e with
            | true =>
              rw [nf3p_punct_site (rr ++ w) hs hP hsd hPe] at h
              rw [nf3p_punct_site rr hs hP hsd hPe]
              exact bandI (bandE h).1 (nf3p_append_ws_aux n (e :: rr) w hlen3 hw
                (by rw [List.cons_append]; exact (bandE h).2))
            | false =>
              rw [nf3p_punct_nonsite (rr ++ w) hs hP hsd hPe] at h
              rw [nf3p_punct_nonsite rr hs hP hsd hPe]
              exact nf3p_append_ws_aux n (d :: e :: rr) w hlen2 hw
                (by rw [List.cons_append, List.cons_append]; exact h)
termination_by n _ _ _ _ _ => n
decreasing_by
  all_goals omega

theorem nf3p_append_ws (u w : Str) (hw : ∀ a ∈ w, isSpc a = true)
    (h : nf3p (u ++ w) = true) : nf3p u = true :=
  nf3p_append_ws_aux u.length u w le_rfl hw h

theorem nwoa_pref : ∀ (X Y : Str), noWsAfterOpen (X ++ Y) = true →
    noWsAfterOpen X = true
  | [], _, _ => rfl
  | [_], _, _ => rfl
  | c :: d :: r, Y, h => by
    have hh := bandE (show (!(isOpenBr c && isSpc d) &&
      noWsAfterOpen (d :: (r ++ Y))) = true from h)
    show (!(isOpenBr c && isSpc d) && noWsAfterOpen (d :: r)) = true
    exact bandI hh.1 (nwoa_pref (d :: r) Y hh.2)

theorem nwbP_pref {P : Char → Bool} : ∀ (X Y : Str),
    noWsBefore P (X ++ Y) = true → noWsBefore P X = true
  | [], _, _ => rfl
  | [_], _, _ => rfl
  | c :: d :: r, Y, h => by
    have hh := bandE (show (!(isSpc c && P d) &&
      noWsBefore P (d :: (r ++ Y))) = true from h)
    show (!(isSpc c && P d) && noWsBefore P (d :: r)) = true
    exact bandI hh.1 (nwbP_pref (d :: r) Y hh.2)

theorem lineSpOK_pref : ∀ (X Y : Str), lineSpOK (X ++ Y) = true →
    lineSpOK X = true
  | [], _, _ => rfl
  | [_], _, _ => rfl
  | c :: d :: r, Y, h => by
    have hh := bandE (show ((!(c == '\n' && d == ' ') && !(c == ' ' && d == '\n')) &&
      lineSpOK (d :: (r ++ Y))) = true from h)
    show ((!(c == '\n' && d == ' ') && !(c == ' ' && d == '\n')) &&
      lineSpOK (d :: r)) = true
    exact bandI hh.1 (lineSpOK_pref (d :: r) Y hh.2)

theorem lineSpOK_dropWhile_spc : ∀ (X : Str), lineSpOK X = true →
    lineSpOK (X.dropWhile isSpc) = true
  | [], h => h
  | c :: cs, h => by
    cases hs : isSpc c with
    | true =>
      rw [List.dropWhile_cons_of_pos hs]
      exact lineSpOK_dropWhile_spc cs (lineSpOK_tail h)
    | false =>
      rw [List.dropWhile_cons_of_neg (by rw [hs]; exact Bool.false_ne_true)]
      exact h

theorem pyStrip_nf3p (x : Str) (h : nf3p x = true) : nf3p (pyStrip x) = true := by
  have hu : nf3p (x.dropWhile isSpc) = true := nf3p_dropWhile_spc x h
  have hd := strip_decomp (x.dropWhile isSpc)
  rw [pyStrip]
  exact nf3p_append_ws _ _ hd.2 (by rw [← hd.1]; exact hu)

theorem pyStrip_nwoa (x : Str) (h : noWsAfterOpen x = true) :
    noWsAfterOpen (pyStrip x) = true := by
  have hu := nwoa_dropWhile x h
  have hd := strip_decomp (x.dropWhile isSpc)
  rw [pyStrip]
  exact nwoa_pref _ _ (by rw [← hd.1]; exact hu)

theorem pyStrip_nwb_cb (x : Str) (h : noWsBefore isCloseBr x = true) :
    noWsBefore isCloseBr (pyStrip x) = true := by
  have hu := nwb_dropWhile x h
  have hd := strip_decomp (x.dropWhile isSpc)
  rw [pyStrip]
  exact nwbP_pref _ _ (by rw [← hd.1]; exact hu)

theorem pyStrip_lineSpOK (x : Str) (h : lineSpOK x = true) :
    lineSpOK (pyStrip x) = true := by
  have hu := lineSpOK_dropWhile_spc x h
  have hd := strip_decomp (x.dropWhile isSpc)
  rw [pyStrip]
  exact lineSpOK_pref _ _ (by rw [← hd.1]; exact hu)

theorem lastOK_of_stripped {t : Str} (h : strippedB t = true) : lastOK t = true := by
  simp only [strippedB] at h
  have h2 := (bandE h).2
  simp only [lastOK]
  exact h2

theorem headNeSp_of_stripped {t : Str} (h : strippedB t = true) : headNeSp t := by
  cases t with
  | nil => trivial
  | cons c cs =>
    simp only [strippedB] at h
    have h1 : (!isSpc c) = true := (bandE h).1
    intro he
    rw [he] at h1
    exact absurd h1 (by decide)

theorem endsP1_getLast {t : Str} (h : endsP1 t = true) :
    ∃ c, t.getLast? = some c ∧ isP1 c = true := by
  simp only [endsP1] at h
  cases hg : t.getLast? with
  | none =>
    rw [hg] at h
    exact absurd h (by decide)
  | some c =>
    rw [hg] at h
    exact ⟨c, rfl, h⟩

theorem isCloseBr_not_spc_rev (a : Char) (ha : isSpc a = true) :
    isCloseBr a = false := by
  cases hcb : isCloseBr a with
  | false => rfl
  | true =>
    rw [isCloseBr_not_spc hcb] at ha
    exact absurd ha (by decide)

theorem preset_tail_nf (B : Str) (h1 : nf3p B = true) (h2 : capOK 0 B = true) :
    nf3p (pyStrip (lineEdgeDel (collapseSp (delRunBefore isCloseBr
        (openStrip B))))) = true ∧
    capOK 0 (pyStrip (lineEdgeDel (collapseSp (delRunBefore isCloseBr
        (openStrip B))))) = true ∧
    noDupSp (pyStrip (lineEdgeDel (collapseSp (delRunBefore isCloseBr
        (openStrip B))))) = true ∧
    noWsAfterOpen (pyStrip (lineEdgeDel (collapseSp (delRunBefore isCloseBr
        (openStrip B))))) = true ∧
    noWsBefore isCloseBr (pyStrip (lineEdgeDel (collapseSp (delRunBefore isCloseBr
        (openStrip B))))) = true ∧
    lineSpOK (pyStrip (lineEdgeDel (collapseSp (delRunBefore isCloseBr
        (openStrip B))))) = true ∧
    strippedB (pyStrip (lineEdgeDel (collapseSp (delRunBefore isCloseBr
        (openStrip B))))) = true := by
  have hC1 := nf3p_openStrip B h1
  have hC2 := capOK_openStrip B 0 h2
  have hC3 := nwoa_openStrip B
  have hD1 := nf3p_delRB _ hC1
  have hD2 := capOK_delRB _ 0 hC2
  have hD3 := nwoa_delRB _ hC3
  have hD4 := delRB_nwbG isCloseBr_not_spc_rev (openStrip B)
  have hE1 := nf3p_collapse _ hD1
  have hE2 := capOK_collapse _ 0 hD2
  have hE3 := noDupSp_collapse (delRunBefore isCloseBr (openStrip B))
  have hE4 := nwoa_collapse _ hD3
  have hE5 := nwb_cb_collapse _ hD4
  rw [lineEdgeDel]
  exact ⟨pyStrip_nf3p _ (nf3p_lineAux true _ hE3 hE1),
    pyStrip_capOK _ (capOK_lineAux true _ 0 hE3 hE2),
    pyStrip_noDup _ (noDup_lineAux true _ hE3),
    pyStrip_nwoa _ (nwoa_lineAux true _ hE3 hE4),
    pyStrip_nwb_cb _ (nwb_cb_lineAux true _ hE3 hE5),
    pyStrip_lineSpOK _ (lineSpOK_lineAux true _ hE3),
    pyStrip_stripped _⟩

theorem presetNorm_nf (s : Str) : nf3p (presetNorm s) = true ∧
    capOK 0 (presetNorm s) = true ∧ noDupSp (presetNorm s) = true ∧
    noWsAfterOpen (presetNorm s) = true ∧
    noWsBefore isCloseBr (presetNorm s) = true ∧
    lineSpOK (presetNorm s) = true ∧ strippedB (presetNorm s) = true := by
  have hA : nf3p (insertAfterP isP2 exclP2p false (insertAfterP isP1 exclP1p true
      (delRunBefore isP1 s))) = true := nf3p_comp2 _ (nwb_delRB s)
  have hB1 : nf3p (capAfter (insertAfterP isP2 exclP2p false (insertAfterP isP1
      exclP1p true (delRunBefore isP1 s)))) = true := by
    rw [capAfter]
    exact nf3p_capAux 0 _ hA
  have hB2 : capOK 0 (capAfter (insertAfterP isP2 exclP2p false (insertAfterP isP1
      exclP1p true (delRunBefore isP1 s)))) = true := by
    rw [capAfter]
    exact capOK_capAux 0 _
  rw [presetNorm]
  exact preset_tail_nf _ hB1 hB2

theorem presetNorm_id (t : Str) (h1 : nf3p t = true) (h2 : capOK 0 t = true)
    (h3 : noDupSp t = true) (h4 : noWsAfterOpen t = true)
    (h5 : noWsBefore isCloseBr t = true) (h6 : lineSpOK t = true)
    (h7 : strippedB t = true) : presetNorm t = t := by
  have hlast := lastOK_of_stripped h7
  have hhead := headNeSp_of_stripped h7
  rw [presetNorm, preset_ins_del t h1 hlast]
  cases hE : endsP1 t with
  | false =>
    rw [if_neg (by decide), List.append_nil]
    rw [capAfter, capAfterAux_id 0 t h2, openStrip_id t h4, delRB_idG t h5,
      collapseSp_id t h3, lineEdgeDel,
      lineAux_id true t h3 h6 hlast (fun _ => hhead), pyStrip_id t h7]
  | true =>
    rw [if_pos rfl]
    obtain ⟨c, hgl, hPc⟩ := endsP1_getLast hE
    rw [capAfter, capAux_append_sp 0 t, capAfterAux_id 0 t h2]
    rw [openStrip_id (t ++ [' ']) (nwoa_snoc t ' ' h4 (fun e he => by
      rw [hgl] at he
      injection he with hce
      subst hce
      rw [isP1_not_openBr hPc, Bool.false_and]))]
    rw [delRB_idG (t ++ [' ']) (nwbP_snoc t ' ' h5 (by decide))]
    rw [collapseSp_id (t ++ [' ']) (noDup_snoc t ' ' h3 (fun e he => by
      rw [hgl] at he
      injection he with hce
      subst hce
      rw [beq_eq_false_iff_ne.mpr (isP1_ne_sp hPc), Bool.false_and]))]
    rw [lineEdgeDel, lineAux_app true t h3 h6 hlast (fun _ => hhead),
      pyStrip_id t h7]

theorem presetNorm_idem (s : Str) : presetNorm (presetNorm s) = presetNorm s := by
  obtain ⟨g1, g2, g3, g4, g5, g6, g7⟩ := presetNorm_nf s
  exact presetNorm_id (presetNorm s) g1 g2 g3 g4 g5 g6 g7

/-- Claim C3: both `_post_process_formatting` normalizers (the Google-engine
variant in `engine.py` and the preset variant in `preset_translator.py`) are
idempotent: applying the normalizer a second time to its own output returns
that output unchanged, for every input string. -/
theorem post_process_idempotent (s : Str) :
    engineNorm (engineNorm s) = engineNorm s ∧
    presetNorm (presetNorm s) = presetNorm s :=
  ⟨engineNorm_idem s, presetNorm_idem s⟩

end SillyTrans
